import Mathlib

/-
  Verification of the RLS-RDB key-value / relational store.

  Shallow embedding of the Go sources:
    src/types/btree.go   (B+tree insert / delete / get, splits, merges)
    src/unnamed/part_005 (node codec: sizes, offsets, leaf edits, merge)
    src/btree/kv.go      (page manager, meta page, commit protocol)
    src/btree/free_list.go (persistent free list)
    src/unnamed/part_002 (tuple codec and table layer)

  Bytes are modelled as Nat (0..255), byte strings as List Nat.
  Go assertions and panics are modelled as Option/Except failures.
-/

namespace RDB

/-! ## Byte-string comparison (Go bytes.Compare) -/

/-- Lexicographic three-way comparison of byte strings, as Go bytes.Compare. -/
def listCmp : List Nat → List Nat → Ordering
  | [], [] => .eq
  | [], _ :: _ => .lt
  | _ :: _, [] => .gt
  | a :: s, b :: t => if a < b then .lt else if b < a then .gt else listCmp s t

/-! ## Little-endian and big-endian integer codecs
    (Go encoding/binary LittleEndian / BigEndian on fixed widths). -/

/-- Little-endian byte list of width k for value v (binary.LittleEndian.PutUintXX). -/
def ule : Nat → Nat → List Nat
  | 0, _ => []
  | k + 1, v => v % 256 :: ule k (v / 256)

/-- Value of a little-endian byte list (binary.LittleEndian.UintXX). -/
def leVal : List Nat → Nat
  | [] => 0
  | b :: bs => b + 256 * leVal bs

/-- Big-endian byte list of width k for value v (binary.BigEndian.PutUintXX). -/
def ube : Nat → Nat → List Nat
  | 0, _ => []
  | k + 1, v => v / 256 ^ k :: ube k (v % 256 ^ k)

/-! ## Tuple codec (src/unnamed/part_002) -/

/-- Column types: TypeBytes = 1, TypeInt64 = 2 (src/unnamed/part_002). -/
def TypeBytes : Nat := 1

def TypeInt64 : Nat := 2

/-- A typed cell value; the Go side is the tagged union Value{Type,I64,Str}. -/
inductive TValue where
  | i64 : Int → TValue
  | bytes : List Nat → TValue
deriving DecidableEq, Repr

/-- Type tag of a value, as the Go Value.Type field. -/
def TValue.ty : TValue → Nat
  | .i64 _ => TypeInt64
  | .bytes _ => TypeBytes

/-- escapeString (src/unnamed/part_002): escape 0x00 to 0x01 0x01 and
    0x01 to 0x01 0x02 so encoded byte strings contain no 0x00.
    The Go fast path (no escapes needed) returns the same bytes. -/
def escapeString : List Nat → List Nat
  | [] => []
  | c :: s => (if c ≤ 1 then [1, c + 1] else [c]) ++ escapeString s

/-- unescapeString (src/unnamed/part_002); none models the Go assert
    that an 0x01 escape byte is followed by 0x01 or 0x02. -/
def unescapeString : List Nat → Option (List Nat)
  | [] => some []
  | 1 :: c :: s =>
      if c = 1 ∨ c = 2 then (unescapeString s).map (fun r => (c - 1) :: r) else none
  | 1 :: [] => none
  | c :: s => (unescapeString s).map (fun r => c :: r)

/-- Go uint64(v) for an int64 v: the value modulo 2^64. -/
def i64ToU64 (v : Int) : Nat := (v % (2 : Int) ^ 64).toNat

/-- The sign-flip of encodeValues: u := uint64(v.I64) + (1 << 63), wrapping. -/
def i64Flip (v : Int) : Nat := (i64ToU64 v + 2 ^ 63) % 2 ^ 64

/-- Encoding of one value inside encodeValues (src/unnamed/part_002):
    i64 as 8 big-endian bytes of the sign-flipped value; bytes escaped
    and null-terminated. -/
def encodeValue : TValue → List Nat
  | .i64 v => ube 8 (i64Flip v)
  | .bytes s => escapeString s ++ [0]

/-- encodeValues (src/unnamed/part_002): append the encodings of the
    values to the accumulator, in order. -/
def encodeValues (out : List Nat) : List TValue → List Nat
  | [] => out
  | v :: vs => encodeValues (out ++ encodeValue v) vs

/-- Strict order on two same-typed values: i64 by signed integer
    comparison, bytes by byte order. -/
def tvLt : TValue → TValue → Prop
  | .i64 a, .i64 b => a < b
  | .bytes a, .bytes b => listCmp a b = .lt
  | _, _ => False

instance : DecidablePred (fun p : TValue × TValue => tvLt p.1 p.2) := by
  intro p
  rcases p with ⟨a | a, b | b⟩ <;> simp only [tvLt] <;> infer_instance

/-- Same-column-type relation on values. -/
def tvSameTy (a b : TValue) : Prop := a.ty = b.ty

/-- Strict lexicographic (left-to-right) order on tuples of typed values
    over the same column types. -/
inductive ValsLt : List TValue → List TValue → Prop where
  | rel {a b : TValue} {as1 bs : List TValue} :
      tvLt a b → List.Forall₂ tvSameTy as1 bs → ValsLt (a :: as1) (b :: bs)
  | cons {a : TValue} {as1 bs : List TValue} :
      ValsLt as1 bs → ValsLt (a :: as1) (a :: bs)

/-! ## B+tree node model (src/unnamed/part_005 codec, src/types/btree.go ops)

    A BNode is modelled by its logical content: the type tag and the list
    of (child pointer, key, value) entries; byte sizes are computed from
    the on-page layout formulas of the codec
    (Header + 8*nkeys + 2*nkeys + kv area, kv entry = 4 + klen + vlen). -/

def Header : Nat := 4

def BTreePageSize : Nat := 4096

def BTreeMaxKeySize : Nat := 1000

def BTreeMaxValSize : Nat := 3000

def BNodeNode : Nat := 1

def BNodeLeaf : Nat := 2

/-- One kv slot of a node: child pointer (internal nodes), key, value. -/
structure Ent where
  eptr : Nat
  key : List Nat
  val : List Nat
deriving DecidableEq, Repr

/-- Byte size of one kv entry in the kv area: klen(2) + vlen(2) + key + val. -/
def entKV (e : Ent) : Nat := 4 + e.key.length + e.val.length

/-- A B+tree node: type tag plus ordered entries. -/
structure BNode where
  btype : Nat
  ents : List Ent
deriving DecidableEq, Repr

/-- nKeys (codec): number of keys in the node. -/
def nKeys (b : BNode) : Nat := b.ents.length

/-- getOffset (codec): byte offset of the idx-th kv entry in the kv area. -/
def getOffset (b : BNode) (idx : Nat) : Nat := ((b.ents.take idx).map entKV).sum

/-- nBytes (codec): total byte size of the node,
    Header + 8*nkeys + 2*nkeys + getOffset(nkeys). -/
def nBytes (b : BNode) : Nat := Header + 10 * nKeys b + getOffset b (nKeys b)

/-- Loop body of nodeLookupLE (codec): found starts at 0; for i in 1..nkeys-1,
    cmp = Compare(key_i, key); if cmp <= 0 set found = i; if cmp >= 0 break. -/
def lookupLEGo (b : BNode) (key : List Nat) : Nat → Nat → Nat → Nat
  | 0, _, found => found
  | f + 1, i, found =>
    if h : i < b.ents.length then
      let c := listCmp (b.ents.get ⟨i, h⟩).key key
      let found1 := if c ≠ .gt then i else found
      if c ≠ .lt then found1
      else lookupLEGo b key f (i + 1) found1
    else found

/-- nodeLookupLE (codec): largest index whose key is <= the search key
    (relying on position 0 being a lower bound). -/
def nodeLookupLE (b : BNode) (key : List Nat) : Nat :=
  lookupLEGo b key (b.ents.length - 1) 1 0

/-- leafInsert (codec): insert (key,val) at position idx. -/
def leafInsert (old : BNode) (idx : Nat) (key val : List Nat) : BNode :=
  ⟨BNodeLeaf, old.ents.take idx ++ ⟨0, key, val⟩ :: old.ents.drop idx⟩

/-- leafUpdate (codec): overwrite position idx with (key,val). -/
def leafUpdate (old : BNode) (idx : Nat) (key val : List Nat) : BNode :=
  ⟨BNodeLeaf, old.ents.take idx ++ ⟨0, key, val⟩ :: old.ents.drop (idx + 1)⟩

/-- leafDelete (codec): remove position idx. -/
def leafDelete (old : BNode) (idx : Nat) : BNode :=
  ⟨BNodeLeaf, old.ents.take idx ++ old.ents.drop (idx + 1)⟩

/-- nodeMerge (codec): concatenation of two nodes, keeping the left type. -/
def nodeMerge (left right : BNode) : BNode :=
  ⟨left.btype, left.ents ++ right.ents⟩

/-- leftBytes of nodeSplit2 (src/types/btree.go):
    Header + 8*nLeft + 2*nLeft + old.getOffset(nLeft). -/
def leftBytes (old : BNode) (nLeft : Nat) : Nat :=
  Header + 10 * nLeft + getOffset old nLeft

/-- rightBytes of nodeSplit2: old.nBytes() - leftBytes() + Header. -/
def rightBytes (old : BNode) (nLeft : Nat) : Nat :=
  nBytes old - leftBytes old nLeft + Header

/-- First loop of nodeSplit2: decrement nLeft while the left half exceeds
    one page (the loop variable itself is the recursion fuel). -/
def split2Dec (old : BNode) : Nat → Nat
  | 0 => 0
  | n + 1 => if leftBytes old (n + 1) > BTreePageSize then split2Dec old n else n + 1

/-- Second loop of nodeSplit2: increment nLeft while the right half exceeds
    one page; fuel bounds the number of increments. -/
def split2Inc (old : BNode) (fuel n : Nat) : Nat :=
  match fuel with
  | 0 => n
  | fuel + 1 =>
    if rightBytes old n > BTreePageSize then split2Inc old fuel (n + 1) else n

/-- The pivot nodeSplit2 ends up with: the decrement loop from nkeys/2
    followed by the increment loop. -/
def split2pivot (old : BNode) : Nat :=
  split2Inc old (old.ents.length + 1 - split2Dec old (old.ents.length / 2))
    (split2Dec old (old.ents.length / 2))

/-- nodeSplit2 (src/types/btree.go): split an oversized node in two; none
    models a Go assertion failure (nKeys >= 2, nLeft >= 1, nLeft < nKeys,
    right.nBytes() <= BTreePageSize). -/
def nodeSplit2 (old : BNode) : Option (BNode × BNode) :=
  if old.ents.length < 2 then none
  else if split2Dec old (old.ents.length / 2) < 1 then none
  else if old.ents.length ≤ split2pivot old then none
  else if nBytes ⟨old.btype, old.ents.drop (split2pivot old)⟩ ≤ BTreePageSize then
    some (⟨old.btype, old.ents.take (split2pivot old)⟩,
      ⟨old.btype, old.ents.drop (split2pivot old)⟩)
  else none

/-- nodeSplit3 (src/types/btree.go): a node that fits a page is returned
    unchanged; otherwise split in two, and split the left part once more
    if it still exceeds a page. -/
def nodeSplit3 (old : BNode) : Option (List BNode) :=
  if nBytes old ≤ BTreePageSize then some [old]
  else
    match nodeSplit2 old with
    | none => none
    | some (left, right) =>
      if nBytes left ≤ BTreePageSize then some [left, right]
      else
        match nodeSplit2 left with
        | none => none
        | some (leftOfLeft, middle) => some [leftOfLeft, middle, right]

/-! ## Page store for the in-memory tree (callbacks of BTree, as instantiated
    by the C harness of src/unnamed/part_004: get asserts the page exists,
    new asserts nBytes <= BTreePageSize and allocates a fresh pointer,
    del asserts the page exists and removes it). Pointer p > 0 is slot p-1. -/

abbrev Store := List (Option BNode)

/-- tree.get callback: dereference a pointer; none models the assert that
    the page exists. -/
def storeGet (st : Store) (ptr : Nat) : Option BNode :=
  if ptr = 0 then none else List.getD st (ptr - 1) none

/-- tree.new callback: allocate a fresh page; none models the assert
    node.nBytes() <= BTreePageSize. -/
def storeNew (st : Store) (bn : BNode) : Option (Nat × Store) :=
  if nBytes bn ≤ BTreePageSize then some (st.length + 1, st ++ [some bn]) else none

/-- tree.del callback: deallocate a page; none models the assert that the
    page exists. -/
def storeDel (st : Store) (ptr : Nat) : Option Store :=
  match storeGet st ptr with
  | none => none
  | some _ => some (st.set (ptr - 1) none)

/-- Key of entry idx of a node (node.getKey(idx)); out-of-range reads give
    the empty key. -/
def entAt (b : BNode) (idx : Nat) : Ent := List.getD b.ents idx ⟨0, [], []⟩

/-- nodeReplace2Kid (src/types/btree.go): replace the two child links at
    idx, idx+1 by a single link. -/
def nodeReplace2Kid (src : BNode) (idx ptr : Nat) (key : List Nat) : BNode :=
  ⟨BNodeNode, src.ents.take idx ++ ⟨ptr, key, []⟩ :: src.ents.drop (idx + 2)⟩

/-- Allocation loop of nodeReplaceKidN: allocate each kid, keeping its
    pointer and first key. -/
def newKids (st : Store) : List BNode → Option (List Ent × Store)
  | [] => some ([], st)
  | kid :: rest =>
    match storeNew st kid with
    | none => none
    | some (ptr, st1) =>
      match newKids st1 rest with
      | none => none
      | some (es, st2) => some (⟨ptr, (entAt kid 0).key, []⟩ :: es, st2)

/-- nodeReplaceKidN (src/types/btree.go): replace the child link at idx by
    links to the given kids. -/
def nodeReplaceKidN (st : Store) (src : BNode) (idx : Nat) (kids : List BNode) :
    Option (BNode × Store) :=
  match newKids st kids with
  | none => none
  | some (es, st1) =>
    some (⟨BNodeNode, src.ents.take idx ++ es ++ src.ents.drop (idx + 1)⟩, st1)

/-- shouldMerge (src/types/btree.go) translated exactly: the code compares
    updated.bType() (the node type tag) with BTreePageSize/4 and sums the
    two bType() tags minus Header in uint16 arithmetic. -/
def shouldMerge (st : Store) (node : BNode) (idx : Nat) (updated : BNode) :
    Option (Int × Option BNode) :=
  if updated.btype > BTreePageSize / 4 then some (0, none)
  else
    let tryRight : Option (Int × Option BNode) :=
      if idx + 1 < nKeys node then
        match storeGet st (entAt node (idx + 1)).eptr with
        | none => none
        | some sibling =>
          let merged := (sibling.btype + updated.btype + 65536 - Header) % 65536
          if merged ≤ BTreePageSize then some (1, some sibling) else some (0, none)
      else some (0, none)
    if 0 < idx then
      match storeGet st (entAt node (idx - 1)).eptr with
      | none => none
      | some sibling =>
        let merged := (sibling.btype + updated.btype + 65536 - Header) % 65536
        if merged ≤ BTreePageSize then some (-1, some sibling) else tryRight
    else tryRight

mutual

/-- treeInsert (src/types/btree.go): insert a kv into a node; the result
    may be oversized (split by the caller). Fuel bounds recursion depth;
    none models a Go panic or assertion failure. -/
def treeInsert : Nat → Store → BNode → List Nat → List Nat →
    Option (BNode × Store)
  | 0, _, _, _, _ => none
  | fuel + 1, st, node, key, val =>
    let idx := nodeLookupLE node key
    if node.btype = BNodeLeaf then
      if (entAt node idx).key = key then some (leafUpdate node idx key val, st)
      else some (leafInsert node (idx + 1) key val, st)
    else if node.btype = BNodeNode then nodeInsert fuel st node idx key val
    else none

/-- nodeInsert (src/types/btree.go): recursive insert into the child at
    idx, then split the result and relink. -/
def nodeInsert (fuel : Nat) (st : Store) (node : BNode) (idx : Nat)
    (key val : List Nat) : Option (BNode × Store) :=
  let kptr := (entAt node idx).eptr
  match storeGet st kptr with
  | none => none
  | some kNode =>
    match storeDel st kptr with
    | none => none
    | some st1 =>
      match treeInsert fuel st1 kNode key val with
      | none => none
      | some (kNode2, st2) =>
        match nodeSplit3 kNode2 with
        | none => none
        | some split => nodeReplaceKidN st2 node idx split

end

mutual

/-- treeDelete (src/types/btree.go): delete a key from a node; the inner
    option is none when the key was not found. -/
def treeDelete : Nat → Store → BNode → List Nat → Option (Option BNode × Store)
  | 0, _, _, _ => none
  | fuel + 1, st, node, key =>
    let idx := nodeLookupLE node key
    if node.btype = BNodeLeaf then
      if (entAt node idx).key = key then some (some (leafDelete node idx), st)
      else some (none, st)
    else if node.btype = BNodeNode then nodeDelete fuel st node idx key
    else none

/-- nodeDelete (src/types/btree.go): recurse into the child at idx, then
    merge with a sibling when shouldMerge says so. -/
def nodeDelete (fuel : Nat) (st : Store) (node : BNode) (idx : Nat)
    (key : List Nat) : Option (Option BNode × Store) :=
  let kptr := (entAt node idx).eptr
  match storeGet st kptr with
  | none => none
  | some kNode =>
    match treeDelete fuel st kNode key with
    | none => none
    | some (noneUpd, st1) =>
      match noneUpd with
      | none => some (none, st1)
      | some updated =>
        match storeDel st1 kptr with
        | none => none
        | some st2 =>
          match shouldMerge st2 node idx updated with
          | none => none
          | some (dir, sibOpt) =>
            if dir < 0 then
              match sibOpt with
              | none => none
              | some sibling =>
                let merged := nodeMerge sibling updated
                match storeDel st2 (entAt node (idx - 1)).eptr with
                | none => none
                | some st3 =>
                  match storeNew st3 merged with
                  | none => none
                  | some (mp, st4) =>
                    some (some (nodeReplace2Kid node (idx - 1) mp
                      (entAt merged 0).key), st4)
            else if 0 < dir then
              match sibOpt with
              | none => none
              | some sibling =>
                let merged := nodeMerge updated sibling
                match storeDel st2 (entAt node (idx + 1)).eptr with
                | none => none
                | some st3 =>
                  match storeNew st3 merged with
                  | none => none
                  | some (mp, st4) =>
                    some (some (nodeReplace2Kid node idx mp
                      (entAt merged 0).key), st4)
            else
              if updated.ents.length = 0 then
                if node.ents.length = 1 ∧ idx = 0 then
                  some (some ⟨BNodeNode, []⟩, st2)
                else none
              else
                match nodeReplaceKidN st2 node idx [updated] with
                | none => none
                | some (newNode, st3) => some (some newNode, st3)

end

/-- nodeGetKey (src/types/btree.go): lookup along the tree; the inner
    option is the found value. -/
def nodeGetKey : Nat → Store → BNode → List Nat → Option (Option (List Nat))
  | 0, _, _, _ => none
  | fuel + 1, st, node, key =>
    let idx := nodeLookupLE node key
    if node.btype = BNodeLeaf then
      if (entAt node idx).key = key then some (some (entAt node idx).val)
      else some none
    else if node.btype = BNodeNode then
      match storeGet st (entAt node idx).eptr with
      | none => none
      | some kid => nodeGetKey fuel st kid key
    else none

/-- A tree handle: root pointer plus the page store. -/
structure TreeState where
  root : Nat
  store : Store
deriving Repr

/-- BTree.Get (src/types/btree.go). -/
def btGet (ts : TreeState) (key : List Nat) : Option (Option (List Nat)) :=
  if ts.root = 0 then some none
  else
    match storeGet ts.store ts.root with
    | none => none
    | some node => nodeGetKey (ts.store.length + 1) ts.store node key

/-- BTree.Insert (src/types/btree.go), including the input-size assertions
    and the root split. -/
def btInsert (ts : TreeState) (key val : List Nat) : Option TreeState :=
  if key.length = 0 then none
  else if BTreeMaxKeySize < key.length then none
  else if BTreeMaxValSize < val.length then none
  else if ts.root = 0 then
    let root : BNode := ⟨BNodeLeaf, [⟨0, [], []⟩, ⟨0, key, val⟩]⟩
    match storeNew ts.store root with
    | none => none
    | some (ptr, st1) => some ⟨ptr, st1⟩
  else
    match storeGet ts.store ts.root with
    | none => none
    | some node =>
      match storeDel ts.store ts.root with
      | none => none
      | some st1 =>
        match treeInsert (st1.length + 1) st1 node key val with
        | none => none
        | some (node2, st2) =>
          match nodeSplit3 node2 with
          | none => none
          | some split =>
            if 1 < split.length then
              match newKids st2 split with
              | none => none
              | some (es, st3) =>
                match storeNew st3 ⟨BNodeNode, es⟩ with
                | none => none
                | some (ptr, st4) => some ⟨ptr, st4⟩
            else
              match split with
              | [one] =>
                match storeNew st2 one with
                | none => none
                | some (ptr, st3) => some ⟨ptr, st3⟩
              | _ => none

/-- BTree.Delete (src/types/btree.go): the boolean is the not-found result. -/
def btDelete (ts : TreeState) (key : List Nat) : Option (Bool × TreeState) :=
  if key.length = 0 then none
  else if BTreeMaxKeySize < key.length then none
  else if ts.root = 0 then some (false, ts)
  else
    match storeGet ts.store ts.root with
    | none => none
    | some node =>
      match treeDelete (ts.store.length + 1) ts.store node key with
      | none => none
      | some (upd, st1) =>
        match upd with
        | none => some (false, ts)
        | some updated =>
          match storeDel st1 ts.root with
          | none => none
          | some st2 =>
            if updated.btype = BNodeNode ∧ updated.ents.length = 1 then
              some (true, ⟨(entAt updated 0).eptr, st2⟩)
            else
              match storeNew st2 updated with
              | none => none
              | some (ptr, st3) => some (true, ⟨ptr, st3⟩)

/-! ## Page manager and commit protocol (src/btree/kv.go)

    The KV state keeps the in-memory meta fields (tree root, flushed page
    count, free-list head/tail pages and sequences), the staging area
    (nappend, updates) and the sticky failed flag.  Disk writes and fsync
    calls are modelled by boolean outcomes supplied per commit; a Go
    assertion failure or panic is none. -/

structure KVState where
  root : Nat
  flushed : Nat
  nappend : Nat
  updates : List (Nat × List Nat)
  flHeadPage : Nat
  flHeadSeq : Nat
  flTailPage : Nat
  flTailSeq : Nat
  flMaxSeq : Nat
  failed : Bool
deriving Repr, DecidableEq

/-- Lookup in the updates map. -/
def updLookup (m : List (Nat × List Nat)) (k : Nat) : Option (List Nat) :=
  match m with
  | [] => none
  | (k1, v) :: rest => if k1 = k then some v else updLookup rest k

/-- Store in the updates map (Go map assignment). -/
def updStore (m : List (Nat × List Nat)) (k : Nat) (v : List Nat) :
    List (Nat × List Nat) :=
  match m with
  | [] => [(k, v)]
  | (k1, v1) :: rest =>
    if k1 = k then (k1, v) :: rest else (k1, v1) :: updStore rest k v

/-- pageAppend (src/btree/kv.go) translated exactly: assert the buffer is
    one page, take ptr = flushed + nappend, increment nappend, then the
    code asserts db.page.updates[ptr] != nil (an entry is already present)
    before storing the buffer there. -/
def pageAppend (s : KVState) (node : List Nat) : Option (Nat × KVState) :=
  if node.length = BTreePageSize then
    let ptr := s.flushed + s.nappend
    let s1 := { s with nappend := s.nappend + 1 }
    if updLookup s1.updates ptr ≠ none then
      some (ptr, { s1 with updates := updStore s1.updates ptr node })
    else none
  else none

/-- The signature "BuildYourOwnDB06" as bytes. -/
def DbSig : List Nat :=
  [66, 117, 105, 108, 100, 89, 111, 117, 114, 79, 119, 110, 68, 66, 48, 54]

/-- Little-endian u64 read at a byte offset (binary.LittleEndian.Uint64
    over data[off:]). -/
def leU64At (data : List Nat) (off : Nat) : Nat :=
  leVal ((data.drop off).take 8)

/-- saveMeta (src/btree/kv.go): 16-byte signature, then root, flushed,
    head page, head seq, tail page, tail seq as little-endian u64. -/
def saveMeta (s : KVState) : List Nat :=
  DbSig ++ ule 8 s.root ++ ule 8 s.flushed ++ ule 8 s.flHeadPage ++
    ule 8 s.flHeadSeq ++ ule 8 s.flTailPage ++ ule 8 s.flTailSeq

/-- loadMeta (src/btree/kv.go): none models the panic on a bad signature. -/
def loadMeta (data : List Nat) (s : KVState) : Option KVState :=
  if data.take 16 = DbSig then
    some { s with
      root := leU64At data 16
      flushed := leU64At data 24
      flHeadPage := leU64At data 32
      flHeadSeq := leU64At data 40
      flTailPage := leU64At data 48
      flTailSeq := leU64At data 56 }
  else none

/-- Per-commit syscall outcomes: writePages (mmap extension and pwrites),
    the first fsync, the meta rewrite (updateRoot), the second fsync, and
    the two repair steps of updateOrRevert (meta rewrite and its fsync). -/
structure CommitIO where
  wpOk : Bool
  fs1Ok : Bool
  urOk : Bool
  fs2Ok : Bool
  rwOk : Bool
  rwFsOk : Bool
deriving Repr, DecidableEq

/-- writePages (src/btree/kv.go) on success: flushed += nappend, nappend
    and updates cleared. -/
def writePagesApply (s : KVState) : KVState :=
  { s with flushed := s.flushed + s.nappend, nappend := 0, updates := [] }

/-- updateFile (src/btree/kv.go): writePages, fsync, updateRoot, fsync,
    then free.SetMaxSeq(); on failure returns the partially updated
    in-memory state together with false. -/
def updateFile (s : KVState) (io : CommitIO) : KVState × Bool :=
  if ¬ io.wpOk then (s, false)
  else
    let s1 := writePagesApply s
    if ¬ io.fs1Ok then (s1, false)
    else if ¬ io.urOk then (s1, false)
    else if ¬ io.fs2Ok then (s1, false)
    else ({ s1 with flMaxSeq := s1.flTailSeq }, true)

/-- Body of updateOrRevert after the sticky-failed repair: run updateFile
    and on failure set failed, reload the snapshot, drop the staging area. -/
def updateOrRevertGo (meta : List Nat) (io : CommitIO) (s1 : KVState) :
    Option (Bool × KVState) :=
  match updateFile s1 io with
  | (s2, true) => some (true, s2)
  | (s2, false) =>
    match loadMeta meta { s2 with failed := true } with
    | none => none
    | some s3 => some (false, { s3 with nappend := 0, updates := [] })

/-- updateOrRevert (src/btree/kv.go).  The boolean result is true on
    success; none models the loadMeta panic.  On the sticky-failed entry
    path a failing meta rewrite or fsync returns the error with no revert. -/
def updateOrRevert (s : KVState) (meta : List Nat) (io : CommitIO) :
    Option (Bool × KVState) :=
  if s.failed then
    if io.rwOk ∧ io.rwFsOk then updateOrRevertGo meta io { s with failed := false }
    else some (false, s)
  else updateOrRevertGo meta io s

/-- KV.Set (src/btree/kv.go): snapshot the meta, run the tree mutation
    (abstracted as a state transformer), then updateOrRevert. -/
def kvSetPath (s : KVState) (mutate : KVState → KVState) (io : CommitIO) :
    Option (Bool × KVState) :=
  updateOrRevert (mutate s) (saveMeta s) io

/-- Errors readRoot (src/btree/kv.go) can return. -/
inductive RootErr where
  | sizeNotMultiple
  | badMetaPage
deriving Repr, DecidableEq

/-- readRoot (src/btree/kv.go) translated exactly: the first check is
    fileSize & BTreePageSize != 0 (a bitwise AND with 4096, not a
    remainder); then the empty-file initialization, then loadMeta (whose
    bad-signature panic is the outer none), SetMaxSeq, and the validity
    checks on flushed, root, head page and tail page. -/
def readRoot (s : KVState) (chunk0 : List Nat) (fileSize : Nat) :
    Option (Except RootErr KVState) :=
  if Nat.land fileSize BTreePageSize ≠ 0 then some (.error .sizeNotMultiple)
  else if fileSize = 0 then
    some (.ok { s with flushed := 2, flHeadPage := 1, flTailPage := 1 })
  else
    match loadMeta chunk0 s with
    | none => none
    | some s1 =>
      let s2 := { s1 with flMaxSeq := s1.flTailSeq }
      let maxPages := fileSize / BTreePageSize
      let bad := ¬ (chunk0.take 16 = DbSig) ∨
        ¬ (0 < s2.flushed ∧ s2.flushed ≤ maxPages) ∨
        ¬ (0 < s2.root ∧ s2.root < s2.flushed) ∨
        ¬ (0 < s2.flHeadPage ∧ s2.flHeadPage < s2.flushed) ∨
        ¬ (0 < s2.flTailPage ∧ s2.flTailPage < s2.flushed)
      if bad then some (.error .badMetaPage) else some (.ok s2)

/-! ## Free list (src/btree/free_list.go)

    An LNode page is its next pointer plus 511 slots; the page callbacks
    get/set operate on a page map, and fl.new (page allocation, pageAppend
    in the system) is modelled by a caller-supplied fresh page id. -/

def FLCap : Nat := (BTreePageSize - 8) / 8

/-- seq2idx (src/btree/free_list.go): slot index of a sequence number. -/
def seq2idx (seq : Nat) : Nat := seq % FLCap

/-- An LNode: next pointer and the slot array. -/
structure FLPage where
  next : Nat
  slots : Nat → Nat

/-- Free-list state: the page map plus the five cursor fields. -/
structure FLState where
  pages : Nat → FLPage
  headPage : Nat
  headSeq : Nat
  tailPage : Nat
  tailSeq : Nat
  maxSeq : Nat

/-- LNode.setPtr on one page. -/
def pageSetPtr (pg : FLPage) (idx v : Nat) : FLPage :=
  ⟨pg.next, fun j => if j = idx then v else pg.slots j⟩

/-- Write slot idx of page p (fl.set followed by setPtr). -/
def setSlot (s : FLState) (p idx v : Nat) : FLState :=
  { s with pages := fun q => if q = p then pageSetPtr (s.pages q) idx v else s.pages q }

/-- Write the next pointer of page p (fl.set followed by setNext). -/
def setNext (s : FLState) (p nxt : Nat) : FLState :=
  { s with pages := fun q => if q = p then ⟨nxt, (s.pages q).slots⟩ else s.pages q }

/-- Register a freshly allocated zero page under id f (fl.new on a zeroed
    one-page buffer). -/
def allocPage (s : FLState) (f : Nat) : FLState :=
  { s with pages := fun q => if q = f then ⟨0, fun _ => 0⟩ else s.pages q }

/-- check (src/btree/free_list.go): the queue integrity assertions. -/
def flCheck (s : FLState) : Prop :=
  (s.headPage ≠ 0 ∧ s.tailPage ≠ 0) ∧
    (s.headSeq ≠ s.tailSeq ∨ s.headPage = s.tailPage)

instance (s : FLState) : Decidable (flCheck s) := by
  unfold flCheck; infer_instance

/-- flPop (src/btree/free_list.go): returns (popped pointer, emptied head
    page or 0, new state); none models a failed assertion. -/
def flPop (s : FLState) : Option (Nat × Nat × FLState) :=
  if ¬ flCheck s then none
  else if s.headSeq = s.maxSeq then some (0, 0, s)
  else
    let node := s.pages s.headPage
    let ptr := node.slots (seq2idx s.headSeq)
    let s1 := { s with headSeq := s.headSeq + 1 }
    if seq2idx s1.headSeq = 0 then
      if node.next = 0 then none
      else some (ptr, s.headPage, { s1 with headPage := node.next })
    else some (ptr, 0, s1)

/-- PushTail (src/btree/free_list.go).  The fresh argument is the page id
    fl.new would hand out if a new tail page must be appended. -/
def PushTail (s : FLState) (ptr fresh : Nat) : Option FLState :=
  let s1 := setSlot s s.tailPage (seq2idx s.tailSeq) ptr
  let s2 := { s1 with tailSeq := s1.tailSeq + 1 }
  if seq2idx s2.tailSeq = 0 then
    match flPop s2 with
    | none => none
    | some (nxt, head, s3) =>
      let ns := if nxt = 0 then (fresh, allocPage s3 fresh) else (nxt, s3)
      let s5 := setNext ns.2 ns.2.tailPage ns.1
      let s6 := { s5 with tailPage := ns.1 }
      if head = 0 then some s6
      else some { setSlot s6 s6.tailPage 0 head with tailSeq := s6.tailSeq + 1 }
  else some s2

/-- PopHead (src/btree/free_list.go): pop, and requeue the emptied head
    page if there is one. -/
def PopHead (s : FLState) (fresh : Nat) : Option (Nat × FLState) :=
  match flPop s with
  | none => none
  | some (ptr, head, s1) =>
    if head = 0 then some (ptr, s1)
    else
      match PushTail s1 head fresh with
      | none => none
      | some s2 => some (ptr, s2)

/-- SetMaxSeq (src/btree/free_list.go). -/
def SetMaxSeq (s : FLState) : FLState := { s with maxSeq := s.tailSeq }

/-- The chain of free-list node pages reachable by next pointers, walked
    for the number of blocks spanned by the sequence window. -/
def chainWalk (pg : Nat → FLPage) : Nat → Nat → List Nat
  | p, 0 => [p]
  | p, k + 1 => p :: chainWalk pg ((pg p).next) k

/-- The node pages currently making up the queue. -/
def flNodes (s : FLState) : List Nat :=
  chainWalk s.pages s.headPage (s.tailSeq / FLCap - s.headSeq / FLCap)

/-- The page holding sequence position q, and the stored pointer there. -/
def slotOfPos (s : FLState) (q : Nat) : Nat :=
  (s.pages ((flNodes s).getD (q / FLCap - s.headSeq / FLCap) 0)).slots (seq2idx q)

/-- The pointers currently stored in the queue (positions head_seq to
    tail_seq). -/
def flPending (s : FLState) : List Nat :=
  (List.range (s.tailSeq - s.headSeq)).map (fun i => slotOfPos s (s.headSeq + i))

/-- Side condition on pointers handed to the free list: the system pushes
    freed tree pages and allocates fresh appended pages, which are nonzero
    and are neither queue node pages nor already-queued free pages. -/
def goodPtr (s : FLState) (ptr : Nat) : Prop :=
  ptr ≠ 0 ∧ ptr ∉ flNodes s ∧ ptr ∉ flPending s

/-- Free-list states reachable from the initial state (one node page,
    both cursors on it, all sequences zero) by PushTail, PopHead and
    SetMaxSeq.  The pushed pointer and the standby fresh page are distinct
    (a freed tree page is never the page pageAppend would hand out). -/
inductive FLReach : FLState → Prop where
  | init (pg : Nat → FLPage) (p0 : Nat) (h : p0 ≠ 0) :
      FLReach ⟨pg, p0, 0, p0, 0, 0⟩
  | push {s s1 : FLState} (ptr fresh : Nat) : FLReach s → goodPtr s ptr →
      goodPtr s fresh → ptr ≠ fresh → PushTail s ptr fresh = some s1 → FLReach s1
  | pop {s s1 : FLState} {v : Nat} (fresh : Nat) : FLReach s →
      goodPtr s fresh → PopHead s fresh = some (v, s1) → FLReach s1
  | smax {s : FLState} : FLReach s → FLReach (SetMaxSeq s)

/-- A linked chain of pages: each page points to the next by its next
    field. -/
inductive IsChain (pg : Nat → FLPage) : Nat → List Nat → Prop where
  | single (p : Nat) : IsChain pg p [p]
  | cons (p : Nat) {l : List Nat} (q : Nat) :
      (pg p).next = q → IsChain pg q l → IsChain pg p (p :: l)

/-- Stored pointer at sequence position q, read through an explicit chain
    list ps whose first page covers the block of base. -/
def slotAt (pg : Nat → FLPage) (ps : List Nat) (base q : Nat) : Nat :=
  (pg (ps.getD (q / FLCap - base / FLCap) 0)).slots (seq2idx q)

/-- The inductive invariant of the free list, stated against an explicit
    chain bound T (the chain ps covers the blocks of positions up to T;
    T = tail_seq except transiently inside PushTail) and pending window
    bound W (positions head_seq to W hold queued pointers; W = tail_seq
    except transiently inside PushTail, where the new slot is written
    before the chain is extended). -/
structure FLInv (s : FLState) (T W : Nat) (ps : List Nat) : Prop where
  hm1 : s.headSeq ≤ s.maxSeq
  hm2 : s.maxSeq ≤ T
  hTW : T ≤ W
  hWt : W ≤ s.tailSeq
  chain : IsChain s.pages s.headPage ps
  hlen : ps.length = T / FLCap - s.headSeq / FLCap + 1
  hlast : ps.getLast? = some s.tailPage
  hnz : ∀ p ∈ ps, p ≠ 0
  hnd : ps.Nodup
  pend : ∀ q, s.headSeq ≤ q → q < W →
    slotAt s.pages ps s.headSeq q ≠ 0 ∧ slotAt s.pages ps s.headSeq q ∉ ps
  pendD : ∀ q r, s.headSeq ≤ q → q < r → r < W →
    slotAt s.pages ps s.headSeq q ≠ slotAt s.pages ps s.headSeq r

/-- The full invariant: both bounds are tail_seq. -/
def FLGood (s : FLState) : Prop := ∃ ps, FLInv s s.tailSeq s.tailSeq ps

/-! ## Table layer (src/unnamed/part_002)

    Column and table names are byte lists (Go strings).  The underlying
    KV store is modelled from the spec: KV.get is exact-key lookup and
    KV.update with the default mode (upsert) inserts or replaces; the
    UpdateReq mode constants themselves are not under src/. -/

/-- ASCII bytes of the string key. -/
def sKey : List Nat := [107, 101, 121]

/-- ASCII bytes of the string val. -/
def sVal : List Nat := [118, 97, 108]

/-- ASCII bytes of the string name. -/
def sName : List Nat := [110, 97, 109, 101]

/-- ASCII bytes of the string def. -/
def sDef : List Nat := [100, 101, 102]

/-- ASCII bytes of the string next_prefix. -/
def sNextPrefix : List Nat := [110, 101, 120, 116, 95, 112, 114, 101, 102, 105, 120]

/-- ASCII bytes of the string at-meta (the @meta table name). -/
def sAtMeta : List Nat := [64, 109, 101, 116, 97]

/-- ASCII bytes of the string at-table (the @table table name). -/
def sAtTable : List Nat := [64, 116, 97, 98, 108, 101]

/-- ASCII bytes of the string tbl_test. -/
def sTblTest : List Nat := [116, 98, 108, 95, 116, 101, 115, 116]

/-- ASCII bytes of the string tbl_test2. -/
def sTblTest2 : List Nat := [116, 98, 108, 95, 116, 101, 115, 116, 50]

/-- ASCII bytes of the column names ki1, ks2, s1, i2. -/
def sKi1 : List Nat := [107, 105, 49]

def sKs2 : List Nat := [107, 115, 50]

def sS1 : List Nat := [115, 49]

def sI2 : List Nat := [105, 50]

/-- ASCII bytes of the JSON field labels Name, Types, Cols, PKeys, Prefix. -/
def jlName : List Nat := [78, 97, 109, 101]

def jlTypes : List Nat := [84, 121, 112, 101, 115]

def jlCols : List Nat := [67, 111, 108, 115]

def jlPKeys : List Nat := [80, 75, 101, 121, 115]

def jlPrefix : List Nat := [80, 114, 101, 102, 105, 120]

/-- TablePrefixMin (src/unnamed/part_002). -/
def TablePrefixMin : Nat := 100

/-- TableDef (src/unnamed/part_002). -/
structure TableDef where
  name : List Nat
  types : List Nat
  cols : List (List Nat)
  pkeys : Nat
  pfx : Nat
deriving Repr, DecidableEq

/-- TdefMeta (src/unnamed/part_002): the @meta catalog table, prefix 1. -/
def TdefMeta : TableDef := ⟨sAtMeta, [TypeBytes, TypeBytes], [sKey, sVal], 1, 1⟩

/-- TdefTable (src/unnamed/part_002): the @table catalog table, prefix 2. -/
def TdefTable : TableDef := ⟨sAtTable, [TypeBytes, TypeBytes], [sName, sDef], 1, 2⟩

/-- A Record (src/unnamed/part_002): parallel column names and values. -/
structure Rec where
  cols : List (List Nat)
  vals : List TValue
deriving Repr, DecidableEq

/-- Lookup loop of Record.Get over the parallel lists. -/
def recGetGo (c : List Nat) : List (List Nat) → List TValue → Option TValue
  | c1 :: cs, v :: vs => if c1 = c then some v else recGetGo c cs vs
  | _, _ => none

/-- Record.Get: first value under the given column name, nil if absent. -/
def recGet (r : Rec) (c : List Nat) : Option TValue :=
  recGetGo c r.cols r.vals

/-- reorderRecord (src/unnamed/part_002): values in schema order; a
    missing column stays uninitialized (none, the Go zero Value); a type
    mismatch is an error (outer none). -/
def reorderRecord (rec : Rec) : List (List Nat × Nat) → Option (List (Option TValue))
  | [] => some []
  | (c, ty) :: rest =>
    match reorderRecord rec rest with
    | none => none
    | some out =>
      match recGet rec c with
      | none => some (none :: out)
      | some v => if v.ty ≠ ty then none else some (some v :: out)

/-- valuesComplete (src/unnamed/part_002): the first n values are present
    and the rest are uninitialized. -/
def valuesComplete (vals : List (Option TValue)) (n : Nat) : Bool :=
  (List.range vals.length).all fun i =>
    if i < n then (vals.getD i none).isSome else (vals.getD i none).isNone

/-- checkRecord (src/unnamed/part_002). -/
def checkRecord (td : TableDef) (rec : Rec) (n : Nat) :
    Option (List (Option TValue)) :=
  match reorderRecord rec (td.cols.zip td.types) with
  | none => none
  | some vals => if valuesComplete vals n then some vals else none

/-- The present prefix of a checked value list. -/
def firstSome : List (Option TValue) → Nat → Option (List TValue)
  | _, 0 => some []
  | [], _ + 1 => none
  | none :: _, _ + 1 => none
  | some v :: rest, n + 1 => (firstSome rest n).map (fun l => v :: l)

/-- encodeKey (src/unnamed/part_002): 4-byte big-endian table prefix, then
    the order-preserving value encoding. -/
def encodeKey (pfx : Nat) (vals : List TValue) : List Nat :=
  ube 4 pfx ++ encodeValues [] vals

/-- Big-endian value of a byte list. -/
def beVal (bs : List Nat) : Nat := bs.foldl (fun a b => a * 256 + b) 0

/-- Split a byte list at its first 0 byte (bytes.IndexByte); none models
    the assert that a terminator exists. -/
def splitZero : List Nat → Option (List Nat × List Nat)
  | [] => none
  | 0 :: rest => some ([], rest)
  | c :: rest => (splitZero rest).map (fun p => (c :: p.1, p.2))

/-- decodeValues (src/unnamed/part_002), driven by the expected column
    types; none models its assertions (terminator exists, valid escapes,
    all input consumed). -/
def decodeValues (input : List Nat) : List Nat → Option (List TValue)
  | [] => if input = [] then some [] else none
  | ty :: tys =>
    if ty = TypeInt64 then
      if 8 ≤ input.length then
        let u := beVal (input.take 8)
        (decodeValues (input.drop 8) tys).map
          (fun l => TValue.i64 ((u : Int) - 2 ^ 63) :: l)
      else none
    else if ty = TypeBytes then
      match splitZero input with
      | none => none
      | some (chunk, rest) =>
        match unescapeString chunk with
        | none => none
        | some strv => (decodeValues rest tys).map (fun l => TValue.bytes strv :: l)
    else none

/-- The KV store under the table layer, modelled from the spec as an
    exact-key map: KV.get by key, KV.update in upsert mode. -/
abbrev KVMap := List (List Nat × List Nat)

/-- Modelled from the spec: KV.get as exact-key lookup. -/
def kvmGet (m : KVMap) (k : List Nat) : Option (List Nat) :=
  match m with
  | [] => none
  | (k1, v) :: rest => if k1 = k then some v else kvmGet rest k

/-- Modelled from the spec: KV.update in upsert mode (the default
    DBUpdateReq mode) replaces or inserts. -/
def kvmSet (m : KVMap) (k v : List Nat) : KVMap :=
  match m with
  | [] => [(k, v)]
  | (k1, v1) :: rest =>
    if k1 = k then (k1, v) :: rest else (k1, v1) :: kvmSet rest k v

/-- dbGet (src/unnamed/part_002): encode the primary key, fetch, decode
    the remaining columns.  Outer none is an error, inner none not found. -/
def dbGet (m : KVMap) (td : TableDef) (rec : Rec) : Option (Option Rec) :=
  match checkRecord td rec td.pkeys with
  | none => none
  | some values =>
    match firstSome values td.pkeys with
    | none => none
    | some pk =>
      match kvmGet m (encodeKey td.pfx pk) with
      | none => some none
      | some v =>
        match decodeValues v (td.types.drop td.pkeys) with
        | none => none
        | some rest => some (some ⟨td.cols, pk ++ rest⟩)

/-- dbUpdate (src/unnamed/part_002) in upsert mode: encode key and value,
    store. -/
def dbUpdate (m : KVMap) (td : TableDef) (rec : Rec) : Option KVMap :=
  match checkRecord td rec td.cols.length with
  | none => none
  | some values =>
    match firstSome values values.length with
    | none => none
    | some full =>
      let key := encodeKey td.pfx (full.take td.pkeys)
      let v := encodeValues [] (full.drop td.pkeys)
      some (kvmSet m key v)

/-- tableDefCheck (src/unnamed/part_002). -/
def tableDefCheck (td : TableDef) : Bool :=
  ¬ (td.name = [] ∨ td.cols = [] ∨ td.cols.length ≠ td.types.length ∨
      ¬ (1 ≤ td.pkeys ∧ td.pkeys ≤ td.cols.length))

/-- Decimal ASCII digits of n (helper for the JSON encoding). -/
def decDigits : Nat → Nat → List Nat
  | 0, _ => []
  | f + 1, n => if n = 0 then [] else decDigits f (n / 10) ++ [48 + n % 10]

/-- Decimal ASCII rendering of n. -/
def natDecimal (n : Nat) : List Nat := if n = 0 then [48] else decDigits n n

/-- A JSON string literal. -/
def jstr (s : List Nat) : List Nat := 34 :: (s ++ [34])

/-- Comma-join byte lists. -/
def joinComma : List (List Nat) → List Nat
  | [] => []
  | [x] => x
  | x :: y :: rest => x ++ 44 :: joinComma (y :: rest)

/-- encoding/json marshalling of a TableDef, in struct field order:
    Name, Types, Cols, PKeys, Prefix (matching the expected string in the
    repository test src/core/table_test.go). -/
def jsonTableDef (td : TableDef) : List Nat :=
  [123] ++ jstr jlName ++ [58] ++ jstr td.name ++ [44] ++
    jstr jlTypes ++ [58] ++ ([91] ++ joinComma (td.types.map natDecimal) ++ [93]) ++ [44] ++
    jstr jlCols ++ [58] ++ ([91] ++ joinComma (td.cols.map jstr) ++ [93]) ++ [44] ++
    jstr jlPKeys ++ [58] ++ natDecimal td.pkeys ++ [44] ++
    jstr jlPrefix ++ [58] ++ natDecimal td.pfx ++ [125]

/-- TableNew (src/unnamed/part_002): check the schema, refuse duplicates,
    allocate the prefix through the at-meta next_prefix row, store the
    updated next_prefix and the marshalled definition.  none models an
    error return or a failed assert. -/
def TableNew (m : KVMap) (td : TableDef) : Option KVMap :=
  if ¬ tableDefCheck td then none
  else
    let tableRec : Rec := ⟨[sName], [.bytes td.name]⟩
    match dbGet m TdefTable tableRec with
    | none => none
    | some (some _) => none
    | some none =>
      if td.pfx ≠ 0 then none
      else
        let metaRec : Rec := ⟨[sKey], [.bytes sNextPrefix]⟩
        match dbGet m TdefMeta metaRec with
        | none => none
        | some found =>
          match
            (match found with
             | some r =>
               match recGet r sVal with
               | some (.bytes bs) =>
                 let p := leVal (bs.take 4)
                 if TablePrefixMin < p then some p else none
               | _ => none
             | none => some TablePrefixMin) with
          | none => none
          | some pfx =>
            let metaRec2 : Rec :=
              ⟨[sKey, sVal], [.bytes sNextPrefix, .bytes (ule 4 (pfx + 1))]⟩
            match dbUpdate m TdefMeta metaRec2 with
            | none => none
            | some m1 =>
              let td1 := { td with pfx := pfx }
              let tableRec2 : Rec :=
                ⟨[sName, sDef], [.bytes td.name, .bytes (jsonTableDef td1)]⟩
              dbUpdate m1 TdefTable tableRec2

/-! #### Concrete inputs used by the claim theorems. -/

/-- Filler value bytes of length n (byte 118). -/
def Vn (n : Nat) : List Nat := List.replicate n 118

/-- A maximum-size key (1000 bytes of 107). -/
def K1000 : List Nat := List.replicate 1000 107

/-- A maximum-size entry: key 1000 bytes, value 3000 bytes. -/
def bigEnt : Ent := ⟨0, K1000, Vn 3000⟩

/-- A node of four maximum-size entries: every entry fits a page but the
    node is 16060 bytes. -/
def bigNode4 : BNode := ⟨BNodeLeaf, [bigEnt, bigEnt, bigEnt, bigEnt]⟩

/-- The four entries of the 8190-byte node (kv sizes 2036, 2037, 2040,
    2033). -/
def mEnt1 : Ent := ⟨0, K1000, Vn 1032⟩

def mEnt2 : Ent := ⟨0, K1000, Vn 1033⟩

def mEnt3 : Ent := ⟨0, K1000, Vn 1036⟩

def mEnt4 : Ent := ⟨0, K1000, Vn 1029⟩

/-- A node of total size 8190 bytes (just under two pages) whose greedy
    split still yields a 4097-byte first node. -/
def node8190 : BNode := ⟨BNodeLeaf, [mEnt1, mEnt2, mEnt3, mEnt4]⟩

/-- The insert sequence of the C1 failing run: keys a, b, d, e, c with
    1990-byte values. -/
def c1Ops : List (List Nat) := [[97], [98], [100], [101], [99]]

/-- Folding Insert over a key list with 1990-byte values. -/
def insertSeq (ts : TreeState) (ops : List (List Nat)) : Option TreeState :=
  ops.foldl (fun a k => a.bind (fun t => btInsert t k (Vn 1990))) (some ts)

/-- The tree state produced by the five inserts of c1Ops: three leaves of
    2023, 4014 and 4014 bytes under a three-link internal root. -/
def c1State : TreeState :=
  ⟨10, [none, none,
    some ⟨BNodeLeaf, [⟨0, [], []⟩, ⟨0, [97], Vn 1990⟩]⟩, none, none, none,
    some ⟨BNodeLeaf, [⟨0, [100], Vn 1990⟩, ⟨0, [101], Vn 1990⟩]⟩, none,
    some ⟨BNodeLeaf, [⟨0, [98], Vn 1990⟩, ⟨0, [99], Vn 1990⟩]⟩,
    some ⟨BNodeNode, [⟨3, [], []⟩, ⟨9, [98], []⟩, ⟨7, [100], []⟩]⟩]⟩

/-- The tbl_test schema of the repository test TestTableCreate
    (src/core/table_test.go): columns ki1:i64, ks2:bytes, s1:bytes,
    i2:i64, two primary keys, prefix unset. -/
def tdTest : TableDef :=
  ⟨sTblTest, [TypeInt64, TypeBytes, TypeBytes, TypeInt64],
    [sKi1, sKs2, sS1, sI2], 2, 0⟩

/-- The second table of the same test: tbl_test2 with columns ki1, ks2. -/
def tdTest2 : TableDef :=
  ⟨sTblTest2, [TypeInt64, TypeBytes], [sKi1, sKs2], 2, 0⟩

/-! ## A concrete free-list trace: the states after n pushes, then after
    SetMaxSeq and k pops -/

def flZeroPage : FLPage := ⟨0, fun _ => 0⟩

/-- The free-list state after pushing values 10..10+n-1 from the initial
    one-page state (page 1), with page 2510 appended at the block
    crossing; valid for n up to 1021. -/
def flPushed (n : Nat) : FLState :=
  ⟨fun p =>
    if p = 1 then
      ⟨if 511 ≤ n then 2510 else 0,
        fun j => if j < 511 ∧ j < n then 10 + j else 0⟩
    else if p = 2510 ∧ 511 ≤ n then
      ⟨0, fun j => if j + 511 < n then 521 + j else 0⟩
    else flZeroPage,
   1, 0, if 511 ≤ n then 2510 else 1, n, 0⟩

/-- The state after SetMaxSeq and k PopHead calls on flPushed 1021. -/
def flPopped (k : Nat) : FLState :=
  { flPushed 1021 with headSeq := k, maxSeq := 1021 }

/-!  # Theorems  -/

/-! ## Generic list and arithmetic lemmas -/

theorem listCmp_refl (a : List Nat) : listCmp a a = .eq := by
  induction a with
  | nil => rfl
  | cons x s ih => simp [listCmp, ih]

theorem listCmp_append_left (x u v : List Nat) :
    listCmp (x ++ u) (x ++ v) = listCmp u v := by
  induction x with
  | nil => rfl
  | cons a s ih => simp [listCmp, ih]

theorem listCmp_lt_append (a b : List Nat) (h : listCmp a b = .lt)
    (hl : a.length = b.length) (u v : List Nat) :
    listCmp (a ++ u) (b ++ v) = .lt := by
  induction a generalizing b with
  | nil =>
    cases b with
    | nil => simp [listCmp] at h
    | cons y t => simp at hl
  | cons x s ih =>
    cases b with
    | nil => simp at hl
    | cons y t =>
      simp only [listCmp] at h
      simp only [List.cons_append, listCmp]
      by_cases h1 : x < y
      · simp [h1]
      · simp only [if_neg h1] at h ⊢
        by_cases h2 : y < x
        · simp [h2] at h
        · simp only [if_neg h2] at h ⊢
          exact ih t h (by simpa using hl)

theorem ube_length (k v : Nat) : (ube k v).length = k := by
  induction k generalizing v with
  | zero => rfl
  | succ k ih => simp [ube, ih]

theorem ube_lt (k : Nat) (x y : Nat) (hx : x < 256 ^ k) (hy : y < 256 ^ k)
    (h : x < y) : listCmp (ube k x) (ube k y) = .lt := by
  induction k generalizing x y with
  | zero => simp at hy; omega
  | succ k ih =>
    simp only [ube, listCmp]
    have hd : x / 256 ^ k ≤ y / 256 ^ k := Nat.div_le_div_right (Nat.le_of_lt h)
    by_cases h1 : x / 256 ^ k < y / 256 ^ k
    · simp [h1]
    · have hde : x / 256 ^ k = y / 256 ^ k := Nat.le_antisymm hd (Nat.le_of_not_lt h1)
      simp only [if_neg h1, hde, Nat.lt_irrefl, if_neg (Nat.lt_irrefl _)]
      have hp : 0 < 256 ^ k := Nat.pos_pow_of_pos k (by norm_num)
      apply ih
      · exact Nat.mod_lt _ hp
      · exact Nat.mod_lt _ hp
      · have e1 := Nat.div_add_mod x (256 ^ k)
        have e2 := Nat.div_add_mod y (256 ^ k)
        have e3 : 256 ^ k * (x / 256 ^ k) = 256 ^ k * (y / 256 ^ k) := by rw [hde]
        omega

/-! ## C9: order preservation of encodeValues -/

/-- Go int64 range of an i64 value. -/
def tvOk : TValue → Prop
  | .i64 v => -(2 ^ 63) ≤ v ∧ v < 2 ^ 63
  | .bytes _ => True

instance : DecidablePred tvOk := by
  intro v; cases v <;> simp only [tvOk] <;> infer_instance

theorem i64Flip_eq (v : Int) (h1 : -(2 ^ 63) ≤ v) (h2 : v < 2 ^ 63) :
    (i64Flip v : Int) = v + 2 ^ 63 := by
  unfold i64Flip i64ToU64
  have pi64 : (2 : Int) ^ 64 = 18446744073709551616 := by norm_num
  have pi63 : (2 : Int) ^ 63 = 9223372036854775808 := by norm_num
  have pn64 : (2 : Nat) ^ 64 = 18446744073709551616 := by norm_num
  have pn63 : (2 : Nat) ^ 63 = 9223372036854775808 := by norm_num
  rw [pi64, pi63, pn64, pn63] at *
  omega

theorem i64Flip_lt_bound (v : Int) : i64Flip v < 2 ^ 64 := by
  unfold i64Flip
  exact Nat.mod_lt _ (by norm_num)

theorem i64Flip_mono (a b : Int) (ha1 : -(2 ^ 63) ≤ a) (ha2 : a < 2 ^ 63)
    (hb1 : -(2 ^ 63) ≤ b) (hb2 : b < 2 ^ 63) (h : a < b) :
    i64Flip a < i64Flip b := by
  have e1 := i64Flip_eq a ha1 ha2
  have e2 := i64Flip_eq b hb1 hb2
  omega

theorem escLt (a : List Nat) : ∀ b, listCmp a b = .lt →
    ∀ u v, listCmp (escapeString a ++ 0 :: u) (escapeString b ++ 0 :: v) = .lt := by
  induction a with
  | nil =>
    intro b h u v
    cases b with
    | nil => simp [listCmp] at h
    | cons y t =>
      simp only [escapeString, List.nil_append]
      by_cases hy : y ≤ 1
      · simp [hy, listCmp]
      · simp only [if_neg hy]
        have : 0 < y := by omega
        simp [listCmp, this]
  | cons x s ih =>
    intro b h u v
    cases b with
    | nil => simp [listCmp] at h
    | cons y t =>
      simp only [listCmp] at h
      by_cases h1 : x < y
      · simp only [escapeString]
        by_cases hx : x ≤ 1
        · by_cases hy : y ≤ 1
          · have hx0 : x = 0 := by omega
            have hy1 : y = 1 := by omega
            subst hx0; subst hy1
            simp [listCmp]
          · simp only [if_pos hx, if_neg hy]
            have : 1 < y := by omega
            simp [listCmp, this]
        · have hy : ¬ y ≤ 1 := by omega
          simp only [if_neg hx, if_neg hy]
          simp [listCmp, h1]
      · simp only [if_neg h1] at h
        by_cases h2 : y < x
        · simp [h2] at h
        · simp only [if_neg h2] at h
          have hxy : x = y := by omega
          subst hxy
          simp only [escapeString]
          have assoc1 : (if x ≤ 1 then [1, x + 1] else [x]) ++ escapeString s ++ 0 :: u
              = (if x ≤ 1 then [1, x + 1] else [x]) ++ (escapeString s ++ 0 :: u) := by
            simp [List.append_assoc]
          have assoc2 : (if x ≤ 1 then [1, x + 1] else [x]) ++ escapeString t ++ 0 :: v
              = (if x ≤ 1 then [1, x + 1] else [x]) ++ (escapeString t ++ 0 :: v) := by
            simp [List.append_assoc]
          rw [assoc1, assoc2, listCmp_append_left]
          exact ih t h u v

theorem encodeValues_out (out : List Nat) (vs : List TValue) :
    encodeValues out vs = out ++ encodeValues [] vs := by
  induction vs generalizing out with
  | nil => simp [encodeValues]
  | cons v rest ih =>
    have l : encodeValues out (v :: rest) = encodeValues (out ++ encodeValue v) rest := rfl
    have r : encodeValues [] (v :: rest) = encodeValues (encodeValue v) rest := rfl
    rw [l, ih (out ++ encodeValue v), r, ih (encodeValue v), List.append_assoc]

theorem encodeValues_cons (v : TValue) (vs : List TValue) :
    encodeValues [] (v :: vs) = encodeValue v ++ encodeValues [] vs := by
  have r : encodeValues [] (v :: vs) = encodeValues (encodeValue v) vs := rfl
  rw [r, encodeValues_out]

/-- C9: if tuple a of typed values is strictly below tuple b over the same
    column types (i64 by signed comparison, bytes by byte order, compared
    left to right), then encodeValues(nil, a) is strictly below
    encodeValues(nil, b) in lexicographic byte order.  The tvOk hypotheses
    state that every i64 cell is a Go int64. -/
theorem c9_encode_order (as1 bs : List TValue) (ha : ∀ v ∈ as1, tvOk v)
    (hb : ∀ v ∈ bs, tvOk v) (h : ValsLt as1 bs) :
    listCmp (encodeValues [] as1) (encodeValues [] bs) = .lt := by
  induction h with
  | rel hlt _ =>
    rename_i a b as2 bs2 _
    rw [encodeValues_cons, encodeValues_cons]
    cases a with
    | i64 av =>
      cases b with
      | i64 bv =>
        have hav := ha (.i64 av) (by simp)
        have hbv := hb (.i64 bv) (by simp)
        simp only [tvOk] at hav hbv
        simp only [tvLt] at hlt
        simp only [encodeValue]
        apply listCmp_lt_append
        · exact ube_lt 8 _ _ (i64Flip_lt_bound av) (i64Flip_lt_bound bv)
            (i64Flip_mono av bv hav.1 hav.2 hbv.1 hbv.2 hlt)
        · simp [ube_length]
      | bytes bv => simp [tvLt] at hlt
    | bytes av =>
      cases b with
      | i64 bv => simp [tvLt] at hlt
      | bytes bv =>
        simp only [tvLt] at hlt
        simp only [encodeValue]
        have ea : escapeString av ++ [0] ++ encodeValues [] as2
            = escapeString av ++ 0 :: encodeValues [] as2 := by
          simp [List.append_assoc]
        have eb : escapeString bv ++ [0] ++ encodeValues [] bs2
            = escapeString bv ++ 0 :: encodeValues [] bs2 := by
          simp [List.append_assoc]
        rw [ea, eb]
        exact escLt av bv hlt _ _
  | cons _ ih =>
    rename_i a as2 bs2 _
    have ha2 : ∀ v ∈ as2, tvOk v := fun v hv => ha v (by simp [hv])
    have hb2 : ∀ v ∈ bs2, tvOk v := fun v hv => hb v (by simp [hv])
    rw [encodeValues_cons, encodeValues_cons, listCmp_append_left]
    exact ih ha2 hb2

/-- Witness for C9 at the concrete tuples (-1, bytes [2,0]) < (0, bytes [2,0]). -/
theorem c9_encode_order_witness :
    (∀ v ∈ [TValue.i64 (-1), TValue.bytes [2, 0]], tvOk v) ∧
    (∀ v ∈ [TValue.i64 0, TValue.bytes [2, 0]], tvOk v) ∧
    listCmp (encodeValues [] [TValue.i64 (-1), TValue.bytes [2, 0]])
      (encodeValues [] [TValue.i64 0, TValue.bytes [2, 0]]) = .lt := by
  refine ⟨?_, ?_, ?_⟩
  · intro v hv
    simp only [List.mem_cons, List.mem_singleton] at hv
    rcases hv with h | h | h <;> first | (subst h; decide) | simp at h
  · intro v hv
    simp only [List.mem_cons, List.mem_singleton] at hv
    rcases hv with h | h | h <;> first | (subst h; decide) | simp at h
  · apply c9_encode_order
    · intro v hv
      simp only [List.mem_cons, List.mem_singleton] at hv
      rcases hv with h | h | h <;> first | (subst h; decide) | simp at h
    · intro v hv
      simp only [List.mem_cons, List.mem_singleton] at hv
      rcases hv with h | h | h <;> first | (subst h; decide) | simp at h
    · exact ValsLt.rel (show (-1 : Int) < 0 by decide)
        (by constructor <;> first | rfl | constructor)

/-! ## C4: pageAppend always trips its own assertion -/

/-- C4: the claim says pageAppend succeeds, returns flushed + nappend,
    increments nappend and records the buffer.  In the code the assertion
    reads updates[ptr] != nil, which demands that the fresh pointer is
    already occupied; whenever the updates map has no entry at
    flushed + nappend (always the case in reachable states, since staged
    entries sit at strictly smaller pointers), pageAppend fails. -/
theorem c4_pageAppend_asserts (s : KVState) (node : List Nat)
    (hlen : node.length = BTreePageSize)
    (hfresh : updLookup s.updates (s.flushed + s.nappend) = none) :
    pageAppend s node = none := by
  unfold pageAppend
  simp [hlen, hfresh]

/-- Witness for C4 at the state right after opening an empty database
    (flushed = 2, nappend = 0, empty updates) and a one-page buffer. -/
theorem c4_pageAppend_asserts_witness :
    (Vn BTreePageSize).length = BTreePageSize ∧
    updLookup (KVState.updates ⟨0, 2, 0, [], 1, 0, 1, 0, 0, false⟩)
      (KVState.flushed ⟨0, 2, 0, [], 1, 0, 1, 0, 0, false⟩ +
        KVState.nappend ⟨0, 2, 0, [], 1, 0, 1, 0, 0, false⟩) = none ∧
    pageAppend ⟨0, 2, 0, [], 1, 0, 1, 0, 0, false⟩ (Vn BTreePageSize) = none := by
  refine ⟨by simp [Vn], rfl, ?_⟩
  exact c4_pageAppend_asserts _ _ (by simp [Vn]) rfl

/-! ## C5: the file-size check of readRoot -/

/-- An arbitrary fresh in-memory state handed to readRoot. -/
def kvZero : KVState := ⟨0, 0, 0, [], 0, 0, 0, 0, 0, false⟩

/-- A well-formed meta page: root 2, flushed 3, free-list head and tail
    page 1. -/
def metaChunk3 : List Nat := saveMeta ⟨2, 3, 0, [], 1, 0, 1, 0, 0, false⟩

/-- C5: the claim says the meta-reading step rejects exactly the file
    sizes that are not multiples of 4096.  The code tests
    fileSize & 4096 != 0, a bitwise AND: a valid 3-page file (12288
    bytes, a multiple of 4096) is rejected with the size error, while the
    non-multiple size 8194 passes the size check and proceeds to the
    other meta checks. -/
theorem c5_readRoot_size_check :
    readRoot kvZero metaChunk3 12288 = some (.error .sizeNotMultiple) ∧
    12288 % BTreePageSize = 0 ∧
    readRoot kvZero metaChunk3 8194 = some (.error .badMetaPage) ∧
    8194 % BTreePageSize ≠ 0 := by
  refine ⟨?_, by decide, ?_, by decide⟩
  · unfold readRoot
    simp [BTreePageSize]
  · rfl

/-! ## C6: updateOrRevert restores the snapshot -/

theorem ule_length (k v : Nat) : (ule k v).length = k := by
  induction k generalizing v with
  | zero => rfl
  | succ k ih => simp [ule, ih]

theorem leVal_ule (k v : Nat) : leVal (ule k v) = v % 256 ^ k := by
  induction k generalizing v with
  | zero => simp [ule, leVal, Nat.mod_one]
  | succ k ih =>
    have hs : (256 : Nat) ^ (k + 1) = 256 * 256 ^ k := by ring
    rw [ule, leVal, ih, hs, Nat.mod_mul]

theorem leVal_ule8 (v : Nat) (h : v < 2 ^ 64) : leVal (ule 8 v) = v := by
  rw [leVal_ule]
  exact Nat.mod_eq_of_lt (by norm_num at h ⊢; omega)

theorem drop_len_append (a b : List Nat) (n : Nat) (h : a.length = n) :
    (a ++ b).drop n = b := by
  subst h; exact List.drop_left a b

theorem take_len_append (a b : List Nat) (n : Nat) (h : a.length = n) :
    (a ++ b).take n = a := by
  subst h; exact List.take_left a b

/-- saveMeta in right-nested form. -/
theorem saveMeta_assoc (s : KVState) :
    saveMeta s = DbSig ++ (ule 8 s.root ++ (ule 8 s.flushed ++ (ule 8 s.flHeadPage ++
      (ule 8 s.flHeadSeq ++ (ule 8 s.flTailPage ++ ule 8 s.flTailSeq))))) := by
  simp [saveMeta, List.append_assoc]

theorem saveMeta_drop16 (s : KVState) :
    (saveMeta s).drop 16 = ule 8 s.root ++ (ule 8 s.flushed ++ (ule 8 s.flHeadPage ++
      (ule 8 s.flHeadSeq ++ (ule 8 s.flTailPage ++ ule 8 s.flTailSeq)))) := by
  rw [saveMeta_assoc, drop_len_append]
  rfl

theorem leU64At_step (a rest : List Nat) (off : Nat) (data : List Nat)
    (hd : data.drop off = a ++ rest) (ha : a.length = 8) :
    leU64At data off = leVal a ∧ data.drop (off + 8) = rest := by
  constructor
  · unfold leU64At
    rw [hd, take_len_append a rest 8 ha]
  · have h1 : (data.drop off).drop 8 = data.drop (off + 8) := List.drop_drop 8 off data
    rw [← h1, hd, drop_len_append a rest 8 ha]

/-- loadMeta applied to a saveMeta snapshot restores the six meta fields,
    provided they are 64-bit values (as they are in Go). -/
theorem loadMeta_saveMeta (s0 s : KVState)
    (h1 : s0.root < 2 ^ 64) (h2 : s0.flushed < 2 ^ 64)
    (h3 : s0.flHeadPage < 2 ^ 64) (h4 : s0.flHeadSeq < 2 ^ 64)
    (h5 : s0.flTailPage < 2 ^ 64) (h6 : s0.flTailSeq < 2 ^ 64) :
    loadMeta (saveMeta s0) s = some { s with
      root := s0.root
      flushed := s0.flushed
      flHeadPage := s0.flHeadPage
      flHeadSeq := s0.flHeadSeq
      flTailPage := s0.flTailPage
      flTailSeq := s0.flTailSeq } := by
  have hsig : (saveMeta s0).take 16 = DbSig := by
    rw [saveMeta_assoc]
    exact take_len_append _ _ 16 rfl
  have d16 := saveMeta_drop16 s0
  obtain ⟨e1, d24⟩ := leU64At_step (ule 8 s0.root) _ 16 (saveMeta s0) d16 (ule_length 8 _)
  obtain ⟨e2, d32⟩ := leU64At_step (ule 8 s0.flushed) _ 24 (saveMeta s0) d24 (ule_length 8 _)
  obtain ⟨e3, d40⟩ := leU64At_step (ule 8 s0.flHeadPage) _ 32 (saveMeta s0) d32 (ule_length 8 _)
  obtain ⟨e4, d48⟩ := leU64At_step (ule 8 s0.flHeadSeq) _ 40 (saveMeta s0) d40 (ule_length 8 _)
  obtain ⟨e5, d56⟩ := leU64At_step (ule 8 s0.flTailPage) _ 48 (saveMeta s0) d48 (ule_length 8 _)
  have e6 : leU64At (saveMeta s0) 56 = leVal (ule 8 s0.flTailSeq) := by
    unfold leU64At
    rw [d56]
    have : (ule 8 s0.flTailSeq).take 8 = ule 8 s0.flTailSeq := by
      apply List.take_of_length_le
      rw [ule_length]
    rw [this]
  unfold loadMeta
  rw [hsig, if_pos rfl, e1, e2, e3, e4, e5, e6,
    leVal_ule8 _ h1, leVal_ule8 _ h2, leVal_ule8 _ h3,
    leVal_ule8 _ h4, leVal_ule8 _ h5, leVal_ule8 _ h6]

/-- C6: if any step of updateFile (writePages, either fsync, or the meta
    rewrite) fails during a Set or Del, updateOrRevert sets the failed
    flag, restores the tree root, flushed count and free-list cursor
    fields to the pre-mutation snapshot, zeroes nappend, empties the
    updates map and reports failure, so reads again see the
    pre-transaction state.  The mutation itself is arbitrary. -/
theorem c6_revert (s0 : KVState) (mutate : KVState → KVState) (io : CommitIO)
    (hf : (mutate s0).failed = false)
    (hfail : io.wpOk = false ∨ io.fs1Ok = false ∨ io.urOk = false ∨ io.fs2Ok = false)
    (h1 : s0.root < 2 ^ 64) (h2 : s0.flushed < 2 ^ 64)
    (h3 : s0.flHeadPage < 2 ^ 64) (h4 : s0.flHeadSeq < 2 ^ 64)
    (h5 : s0.flTailPage < 2 ^ 64) (h6 : s0.flTailSeq < 2 ^ 64) :
    ∃ s2, kvSetPath s0 mutate io = some (false, s2) ∧
      s2.root = s0.root ∧ s2.flushed = s0.flushed ∧
      s2.flHeadPage = s0.flHeadPage ∧ s2.flHeadSeq = s0.flHeadSeq ∧
      s2.flTailPage = s0.flTailPage ∧ s2.flTailSeq = s0.flTailSeq ∧
      s2.nappend = 0 ∧ s2.updates = [] ∧ s2.failed = true := by
  unfold kvSetPath updateOrRevert
  rw [if_neg (by simp [hf])]
  have hfile : ∃ sp, updateFile (mutate s0) io = (sp, false) := by
    unfold updateFile
    by_cases hw : io.wpOk = false
    · exact ⟨mutate s0, by simp [hw]⟩
    · simp only [Bool.not_eq_false] at hw
      by_cases hf1 : io.fs1Ok = false
      · exact ⟨writePagesApply (mutate s0), by simp [hw, hf1]⟩
      · simp only [Bool.not_eq_false] at hf1
        by_cases hur : io.urOk = false
        · exact ⟨writePagesApply (mutate s0), by simp [hw, hf1, hur]⟩
        · simp only [Bool.not_eq_false] at hur
          by_cases hf2 : io.fs2Ok = false
          · exact ⟨writePagesApply (mutate s0), by simp [hw, hf1, hur, hf2]⟩
          · simp only [Bool.not_eq_false] at hf2
            rw [hw, hf1, hur, hf2] at hfail
            simp at hfail
  obtain ⟨sp, hsp⟩ := hfile
  unfold updateOrRevertGo
  simp only [hsp]
  rw [loadMeta_saveMeta s0 { sp with failed := true } h1 h2 h3 h4 h5 h6]
  exact ⟨_, rfl, rfl, rfl, rfl, rfl, rfl, rfl, rfl, rfl, rfl⟩

/-- Witness for C6: a concrete snapshot, a mutation that moves the root
    and stages a page, and a commit whose first fsync fails. -/
theorem c6_revert_witness :
    ∃ s2, kvSetPath ⟨5, 7, 0, [], 1, 3, 1, 4, 4, false⟩
        (fun s => { s with root := 9, nappend := 2, updates := [(7, Vn 1)] })
        ⟨true, false, true, true, true, true⟩ = some (false, s2) ∧
      s2.root = 5 ∧ s2.flushed = 7 ∧ s2.flHeadPage = 1 ∧ s2.flHeadSeq = 3 ∧
      s2.flTailPage = 1 ∧ s2.flTailSeq = 4 ∧
      s2.nappend = 0 ∧ s2.updates = [] ∧ s2.failed = true := by
  obtain ⟨s2, hrun, hr, hfl, hhp, hhs, htp, hts, hna, hup, hfa⟩ :=
    c6_revert ⟨5, 7, 0, [], 1, 3, 1, 4, 4, false⟩
      (fun s => { s with root := 9, nappend := 2, updates := [(7, Vn 1)] })
      ⟨true, false, true, true, true, true⟩
      rfl (by simp) (by norm_num) (by norm_num) (by norm_num) (by norm_num)
      (by norm_num) (by norm_num)
  exact ⟨s2, hrun, hr, hfl, hhp, hhs, htp, hts, hna, hup, hfa⟩

/-! ## C3: nodeSplit3 analysis -/

theorem Vn_len (n : Nat) : (Vn n).length = n := by simp [Vn]

theorem K1000_len : K1000.length = 1000 := by
  simp only [K1000, List.length_replicate]

theorem getOffset_succ (b : BNode) (i : Nat) (h : i < b.ents.length) :
    getOffset b (i + 1) = getOffset b i + entKV (b.ents.get ⟨i, h⟩) := by
  have h2 : i < (b.ents.map entKV).length := by simpa using h
  unfold getOffset
  rw [List.map_take, List.map_take, List.take_succ, List.sum_append]
  congr 1
  rw [List.getElem?_eq_getElem h2]
  simp only [Option.toList_some, List.sum_cons, List.sum_nil, Nat.add_zero,
    List.getElem_map, List.get_eq_getElem]

theorem getOffset_le_succ (b : BNode) (i : Nat) :
    getOffset b i ≤ getOffset b (i + 1) := by
  by_cases h : i < b.ents.length
  · rw [getOffset_succ b i h]; omega
  · unfold getOffset
    rw [List.take_of_length_le (by omega), List.take_of_length_le (by omega)]

theorem getOffset_mono (b : BNode) {i j : Nat} (h : i ≤ j) :
    getOffset b i ≤ getOffset b j := by
  induction j with
  | zero =>
    have : i = 0 := by omega
    subst this; exact Nat.le_refl _
  | succ j ih =>
    rcases Nat.lt_or_ge i (j + 1) with hij | hij
    · exact Nat.le_trans (ih (by omega)) (getOffset_le_succ b j)
    · have : i = j + 1 := by omega
      subst this; exact Nat.le_refl _

theorem leftBytes_succ (b : BNode) (i : Nat) (h : i < b.ents.length) :
    leftBytes b (i + 1) = leftBytes b i + 10 + entKV (b.ents.get ⟨i, h⟩) := by
  unfold leftBytes
  rw [getOffset_succ b i h]
  ring

theorem leftBytes_mono (b : BNode) {i j : Nat} (h : i ≤ j) :
    leftBytes b i ≤ leftBytes b j := by
  unfold leftBytes
  have := getOffset_mono b h
  omega

theorem leftBytes_strict (b : BNode) {i j : Nat} (h1 : i < j)
    (h2 : i < b.ents.length) : leftBytes b i < leftBytes b j := by
  have hs := leftBytes_succ b i h2
  have hm := leftBytes_mono b (show i + 1 ≤ j by omega)
  have he : 0 < entKV (b.ents.get ⟨i, h2⟩) := by unfold entKV; omega
  omega

theorem leftBytes_full (b : BNode) : leftBytes b b.ents.length = nBytes b := rfl

theorem leftBytes_le_nBytes (b : BNode) {i : Nat} (h : i ≤ b.ents.length) :
    leftBytes b i ≤ nBytes b := by
  rw [← leftBytes_full]
  exact leftBytes_mono b h

/-- Entry-size bound: each key at most 1000 bytes and value at most 3000. -/
def entsBounded (b : BNode) : Prop :=
  ∀ e ∈ b.ents, e.key.length ≤ BTreeMaxKeySize ∧ e.val.length ≤ BTreeMaxValSize

theorem entKV_bounded {b : BNode} (hb : entsBounded b) {i : Nat}
    (h : i < b.ents.length) : entKV (b.ents.get ⟨i, h⟩) ≤ 4004 := by
  have := hb (b.ents.get ⟨i, h⟩) (List.get_mem b.ents i h)
  unfold entKV
  unfold BTreeMaxKeySize BTreeMaxValSize at this
  omega

theorem leftBytes_one {b : BNode} (hb : entsBounded b) (h : 0 < b.ents.length) :
    leftBytes b 1 ≤ 4018 := by
  have h0 : leftBytes b 0 = 4 := rfl
  have hs := leftBytes_succ b 0 h
  simp only [Nat.zero_add] at hs
  have he := entKV_bounded hb h
  omega

theorem split2Dec_le (b : BNode) (m : Nat) : split2Dec b m ≤ m := by
  induction m with
  | zero => simp [split2Dec]
  | succ m ih =>
    unfold split2Dec
    by_cases h : leftBytes b (m + 1) > BTreePageSize
    · rw [if_pos h]; omega
    · rw [if_neg h]

theorem split2Dec_fits (b : BNode) (m : Nat) :
    leftBytes b (split2Dec b m) ≤ BTreePageSize := by
  induction m with
  | zero =>
    show leftBytes b 0 ≤ BTreePageSize
    unfold leftBytes getOffset Header BTreePageSize
    simp
  | succ m ih =>
    unfold split2Dec
    by_cases h : leftBytes b (m + 1) > BTreePageSize
    · rw [if_pos h]; exact ih
    · rw [if_neg h]; omega

theorem split2Dec_pos (b : BNode) (m : Nat) (hm : 1 ≤ m)
    (h1 : leftBytes b 1 ≤ BTreePageSize) : 1 ≤ split2Dec b m := by
  induction m with
  | zero => omega
  | succ m ih =>
    unfold split2Dec
    by_cases h : leftBytes b (m + 1) > BTreePageSize
    · rw [if_pos h]
      rcases Nat.eq_zero_or_pos m with hm0 | hmp
      · subst hm0
        simp only [Nat.zero_add] at h
        omega
      · exact ih hmp
    · rw [if_neg h]; omega

theorem split2Inc_spec (b : BNode) (fuel nL : Nat)
    (hend : rightBytes b (nL + fuel) ≤ BTreePageSize) :
    rightBytes b (split2Inc b fuel nL) ≤ BTreePageSize ∧
      nL ≤ split2Inc b fuel nL ∧ split2Inc b fuel nL ≤ nL + fuel ∧
      (split2Inc b fuel nL = nL ∨
        BTreePageSize < rightBytes b (split2Inc b fuel nL - 1)) := by
  induction fuel generalizing nL with
  | zero =>
    unfold split2Inc
    exact ⟨by simpa using hend, Nat.le_refl _, by omega, Or.inl rfl⟩
  | succ fuel ih =>
    unfold split2Inc
    by_cases h : rightBytes b nL > BTreePageSize
    · rw [if_pos h]
      have hend1 : rightBytes b (nL + 1 + fuel) ≤ BTreePageSize := by
        have he : nL + 1 + fuel = nL + (fuel + 1) := by omega
        rw [he]; exact hend
      obtain ⟨r1, r2, r3, r4⟩ := ih (nL + 1) hend1
      refine ⟨r1, by omega, by omega, ?_⟩
      rcases r4 with r4 | r4
      · right; rw [r4]; simpa using h
      · right; exact r4
    · rw [if_neg h]
      exact ⟨by omega, Nat.le_refl _, by omega, Or.inl rfl⟩

theorem getOffset_take (b : BNode) (t k i : Nat) (h : i ≤ k) :
    getOffset ⟨t, b.ents.take k⟩ i = getOffset b i := by
  unfold getOffset
  simp [List.take_take, Nat.min_eq_left h]

theorem nBytes_take (b : BNode) (t k : Nat) (h : k ≤ b.ents.length) :
    nBytes ⟨t, b.ents.take k⟩ = leftBytes b k := by
  unfold nBytes nKeys leftBytes
  simp only [List.length_take, Nat.min_eq_left h]
  rw [getOffset_take b t k k (Nat.le_refl k)]

theorem sum_drop (b : BNode) (k : Nat) :
    getOffset b k + ((b.ents.drop k).map entKV).sum = getOffset b b.ents.length := by
  unfold getOffset
  rw [List.take_of_length_le (Nat.le_refl _)]
  rw [← List.sum_append, ← List.map_append, List.take_append_drop]

theorem nBytes_drop (b : BNode) (t k : Nat) (h : k ≤ b.ents.length) :
    nBytes ⟨t, b.ents.drop k⟩ = rightBytes b k := by
  unfold rightBytes
  have hnb : nBytes b = Header + 10 * b.ents.length + getOffset b b.ents.length := rfl
  have hlb : leftBytes b k = Header + 10 * k + getOffset b k := rfl
  have hdl : nBytes ⟨t, b.ents.drop k⟩ =
      Header + 10 * (b.ents.length - k) + ((b.ents.drop k).map entKV).sum := by
    unfold nBytes nKeys
    simp only [List.length_drop]
    congr 1
    unfold getOffset
    rw [List.take_of_length_le (by simp)]
  have hs := sum_drop b k
  have hmono := getOffset_mono b h
  have hle := leftBytes_le_nBytes b h
  unfold Header at *
  omega

/-- Specification of nodeSplit2 under the entry bounds: it succeeds, the
    two halves are the take/drop split at some pivot, the right half fits
    a page, and if the left half exceeds a page then the increment loop
    ran, so one key less already made the right half overflow. -/
theorem nodeSplit2_spec (b : BNode) (hn : 2 ≤ b.ents.length)
    (hb : entsBounded b) :
    nodeSplit2 b = some (⟨b.btype, b.ents.take (split2pivot b)⟩,
        ⟨b.btype, b.ents.drop (split2pivot b)⟩) ∧
      1 ≤ split2pivot b ∧ split2pivot b < b.ents.length ∧
      rightBytes b (split2pivot b) ≤ BTreePageSize ∧
      (BTreePageSize < leftBytes b (split2pivot b) →
        BTreePageSize < rightBytes b (split2pivot b - 1)) := by
  have h1 : leftBytes b 1 ≤ BTreePageSize := by
    have := leftBytes_one hb (by omega)
    unfold BTreePageSize
    omega
  have hd1 : 1 ≤ split2Dec b (b.ents.length / 2) :=
    split2Dec_pos b (b.ents.length / 2) (by omega) h1
  have hdle : split2Dec b (b.ents.length / 2) ≤ b.ents.length / 2 :=
    split2Dec_le b (b.ents.length / 2)
  have hlast : rightBytes b (b.ents.length - 1) ≤ BTreePageSize := by
    have hstep := leftBytes_succ b (b.ents.length - 1) (by omega)
    have hkv := entKV_bounded hb (show b.ents.length - 1 < b.ents.length by omega)
    have hfull : leftBytes b (b.ents.length - 1 + 1) = nBytes b := by
      have he : b.ents.length - 1 + 1 = b.ents.length := by omega
      rw [he]
      exact leftBytes_full b
    have hlb := leftBytes_le_nBytes b (show b.ents.length - 1 ≤ b.ents.length by omega)
    unfold rightBytes Header BTreePageSize
    unfold BTreePageSize at *
    omega
  have hfuel : rightBytes b (split2Dec b (b.ents.length / 2) +
      (b.ents.length + 1 - split2Dec b (b.ents.length / 2))) ≤ BTreePageSize := by
    have hmone : leftBytes b (b.ents.length - 1) ≤ leftBytes b
        (split2Dec b (b.ents.length / 2) +
          (b.ents.length + 1 - split2Dec b (b.ents.length / 2))) :=
      leftBytes_mono b (by omega)
    unfold rightBytes at *
    omega
  obtain ⟨i1, i2, i3, i4⟩ := split2Inc_spec b
    (b.ents.length + 1 - split2Dec b (b.ents.length / 2))
    (split2Dec b (b.ents.length / 2)) hfuel
  rw [show split2Inc b (b.ents.length + 1 - split2Dec b (b.ents.length / 2))
      (split2Dec b (b.ents.length / 2)) = split2pivot b from rfl] at i1 i2 i3 i4
  have hnLlt : split2pivot b < b.ents.length := by
    rcases Nat.lt_or_ge (split2pivot b) b.ents.length with h | h
    · exact h
    · exfalso
      have hfw : leftBytes b b.ents.length ≤ leftBytes b (split2pivot b) :=
        leftBytes_mono b h
      rw [leftBytes_full] at hfw
      have hprev : rightBytes b (split2pivot b - 1) ≤ BTreePageSize := by
        rcases Nat.lt_or_ge (split2pivot b - 1) b.ents.length with hc | hc
        · have hc2 : b.ents.length - 1 ≤ split2pivot b - 1 := by omega
          have hm2 : leftBytes b (b.ents.length - 1) ≤ leftBytes b (split2pivot b - 1) :=
            leftBytes_mono b hc2
          unfold rightBytes at *
          omega
        · have hm2 : leftBytes b b.ents.length ≤ leftBytes b (split2pivot b - 1) :=
            leftBytes_mono b hc
          rw [leftBytes_full] at hm2
          unfold rightBytes at *
          unfold BTreePageSize Header at *
          omega
      rcases i4 with h4 | h4
      · omega
      · omega
  refine ⟨?_, by omega, hnLlt, i1, ?_⟩
  · unfold nodeSplit2
    rw [if_neg (by omega), if_neg (by omega), if_neg (by omega)]
    rw [if_pos]
    rw [nBytes_drop b b.btype (split2pivot b) (by omega)]
    exact i1
  · intro hover
    rcases i4 with h4 | h4
    · exfalso
      rw [h4] at hover
      have := split2Dec_fits b (b.ents.length / 2)
      omega
    · exact h4

/-- C3 (amended): under the claimed per-entry bounds and key count, and
    additionally a total input size of at most 8189 bytes (just under two
    pages; a 8190-byte input is a counterexample), nodeSplit3 returns 1,
    2 or 3 nodes, each of at most one page, whose entries concatenate to
    the input entries in order; an input that already fits is returned
    unchanged. -/
theorem c3_split3_amended (b : BNode) (hb : entsBounded b)
    (hn : BTreePageSize < nBytes b → 2 ≤ b.ents.length)
    (htot : nBytes b ≤ 8189) :
    ∃ parts, nodeSplit3 b = some parts ∧ 1 ≤ parts.length ∧ parts.length ≤ 3 ∧
      (∀ p ∈ parts, nBytes p ≤ BTreePageSize) ∧
      (parts.map BNode.ents).join = b.ents ∧
      (nBytes b ≤ BTreePageSize → parts = [b]) := by
  by_cases hfit : nBytes b ≤ BTreePageSize
  · refine ⟨[b], ?_, by simp, by simp, ?_, by simp, fun _ => rfl⟩
    · unfold nodeSplit3
      rw [if_pos hfit]
    · intro p hp
      simp at hp
      subst hp
      exact hfit
  · have hn2 := hn (by omega)
    obtain ⟨hsp, hL1, hLlt, hright, hincran⟩ := nodeSplit2_spec b hn2 hb
    generalize hPiv : split2pivot b = nL at hsp hL1 hLlt hright hincran
    have hrb : nBytes (⟨b.btype, b.ents.drop nL⟩ : BNode) ≤ BTreePageSize := by
      rw [nBytes_drop b b.btype nL (by omega)]
      exact hright
    have hlb : nBytes (⟨b.btype, b.ents.take nL⟩ : BNode) = leftBytes b nL :=
      nBytes_take b b.btype nL (by omega)
    by_cases hleft : nBytes (⟨b.btype, b.ents.take nL⟩ : BNode) ≤ BTreePageSize
    · refine ⟨[⟨b.btype, b.ents.take nL⟩, ⟨b.btype, b.ents.drop nL⟩], ?_, by simp,
        by simp, ?_, by simp, fun hc => absurd hc hfit⟩
      · simp only [nodeSplit3, hsp, if_neg hfit, if_pos hleft]
      · intro p hp
        simp at hp
        rcases hp with hp | hp <;> subst hp
        · exact hleft
        · exact hrb
    · -- the left node still exceeds a page: split it again
      have hoverL : BTreePageSize < leftBytes b nL := by omega
      have hprev := hincran hoverL
      -- the increment loop ran, so leftBytes b (nL-1) is under the bound
      have hprevle : leftBytes b (nL - 1) ≤ BTreePageSize := by
        have hle := leftBytes_le_nBytes b (show nL - 1 ≤ b.ents.length by omega)
        unfold rightBytes Header at hprev
        unfold BTreePageSize at *
        omega
      have hnL2 : 2 ≤ nL := by
        by_contra hc
        have : nL = 1 := by omega
        subst this
        have := leftBytes_one hb (by omega)
        unfold BTreePageSize at hoverL
        omega
      set L : BNode := ⟨b.btype, b.ents.take nL⟩ with hL_def
      have hLn : L.ents.length = nL := by
        simp [hL_def, List.length_take]
        omega
      have hLb : entsBounded L := by
        intro e he
        exact hb e (List.mem_of_mem_take he)
      obtain ⟨hsp2, hL21, hL2lt, hright2, hincran2⟩ :=
        nodeSplit2_spec L (by omega) hLb
      generalize hPiv2 : split2pivot L = nL2 at hsp2 hL21 hL2lt hright2 hincran2
      have htt : L.ents.take nL2 = b.ents.take nL2 := by
        simp [hL_def, List.take_take, Nat.min_eq_left (show nL2 ≤ nL by omega)]
      have hlb2 : nBytes (⟨L.btype, L.ents.take nL2⟩ : BNode) = leftBytes b nL2 := by
        rw [nBytes_take L L.btype nL2 (by omega)]
        unfold leftBytes
        rw [getOffset_take b b.btype nL nL2 (by omega)]
      have hfits2 : nBytes (⟨L.btype, L.ents.take nL2⟩ : BNode) ≤ BTreePageSize := by
        rw [hlb2]
        calc leftBytes b nL2 ≤ leftBytes b (nL - 1) := leftBytes_mono b (by omega)
        _ ≤ BTreePageSize := hprevle
      have hmid : nBytes (⟨L.btype, L.ents.drop nL2⟩ : BNode) ≤ BTreePageSize := by
        rw [nBytes_drop L L.btype nL2 (by omega)]
        exact hright2
      refine ⟨[⟨L.btype, L.ents.take nL2⟩, ⟨L.btype, L.ents.drop nL2⟩,
        ⟨b.btype, b.ents.drop nL⟩], ?_, by simp, by simp, ?_, ?_,
        fun hc => absurd hc hfit⟩
      · simp only [nodeSplit3, hsp, if_neg hfit, if_neg hleft, hsp2]
      · intro p hp
        simp at hp
        rcases hp with hp | hp | hp <;> subst hp
        · exact hfits2
        · exact hmid
        · exact hrb
      · rw [show (([⟨L.btype, L.ents.take nL2⟩, ⟨L.btype, L.ents.drop nL2⟩,
            ⟨b.btype, b.ents.drop nL⟩] : List BNode).map BNode.ents).join
            = L.ents.take nL2 ++ (L.ents.drop nL2 ++ (b.ents.drop nL ++ [])) from rfl]
        rw [List.append_nil, ← List.append_assoc, List.take_append_drop]
        show b.ents.take nL ++ b.ents.drop nL = b.ents
        exact List.take_append_drop nL b.ents

/-- Witness for the amended C3 at a small concrete node: two entries of
    2500 bytes each force a two-way split. -/
theorem c3_split3_amended_witness :
    entsBounded ⟨BNodeLeaf, [⟨0, [65], Vn 2500⟩, ⟨0, [66], Vn 2500⟩]⟩ ∧
    (∃ parts, nodeSplit3 ⟨BNodeLeaf, [⟨0, [65], Vn 2500⟩, ⟨0, [66], Vn 2500⟩]⟩ =
        some parts ∧ 1 ≤ parts.length ∧ parts.length ≤ 3 ∧
      (∀ p ∈ parts, nBytes p ≤ BTreePageSize) ∧
      (parts.map BNode.ents).join =
        (⟨BNodeLeaf, [⟨0, [65], Vn 2500⟩, ⟨0, [66], Vn 2500⟩]⟩ : BNode).ents ∧
      (nBytes (⟨BNodeLeaf, [⟨0, [65], Vn 2500⟩, ⟨0, [66], Vn 2500⟩]⟩ : BNode) ≤
          BTreePageSize →
        parts = [⟨BNodeLeaf, [⟨0, [65], Vn 2500⟩, ⟨0, [66], Vn 2500⟩]⟩])) := by
  have hb : entsBounded ⟨BNodeLeaf, [⟨0, [65], Vn 2500⟩, ⟨0, [66], Vn 2500⟩]⟩ := by
    intro e he
    simp at he
    rcases he with he | he <;> subst he <;>
      simp [Vn_len, BTreeMaxKeySize, BTreeMaxValSize]
  refine ⟨hb, c3_split3_amended _ hb (fun _ => by simp) ?_⟩
  simp [nBytes, getOffset, nKeys, entKV, Header, Vn_len]

/-- Evaluation helper for nodeSplit2: with the two loop results supplied
    as equations, the split is the take/drop at the computed pivot. -/
theorem nodeSplit2_eval (b : BNode) (n d piv : Nat)
    (hlen : b.ents.length = n)
    (hd : split2Dec b (n / 2) = d)
    (hpiv : split2Inc b (n + 1 - d) d = piv)
    (h2 : ¬ n < 2) (hd1 : ¬ d < 1) (hplt : ¬ n ≤ piv)
    (hrfit : nBytes ⟨b.btype, b.ents.drop piv⟩ ≤ BTreePageSize) :
    nodeSplit2 b = some (⟨b.btype, b.ents.take piv⟩, ⟨b.btype, b.ents.drop piv⟩) := by
  unfold nodeSplit2 split2pivot
  rw [hlen, hd, hpiv, if_neg h2, if_neg hd1, if_neg hplt, if_pos hrfit]

theorem nodeSplit3_eval3 (b L R LL M : BNode)
    (hnb : ¬ nBytes b ≤ BTreePageSize)
    (hsp : nodeSplit2 b = some (L, R))
    (hLo : ¬ nBytes L ≤ BTreePageSize)
    (hsp2 : nodeSplit2 L = some (LL, M)) :
    nodeSplit3 b = some [LL, M, R] := by
  simp only [nodeSplit3, hsp, hsp2, if_neg hnb, if_neg hLo]

theorem entKV_bigEnt : entKV bigEnt = 4004 := by
  simp [entKV, bigEnt, K1000_len, Vn_len]

/-- The full evaluation of nodeSplit3 on the 16060-byte node. -/
theorem split3_bigNode4_eval :
    (nodeSplit3 bigNode4).map (fun l => l.map nBytes) = some [8032, 4018, 4018] := by
  have hlen4 : bigNode4.ents.length = 4 := by simp [bigNode4]
  have hlb1 : leftBytes bigNode4 1 = 4018 := by
    simp [leftBytes, getOffset, bigNode4, entKV_bigEnt, Header]
  have hlb2 : leftBytes bigNode4 2 = 8032 := by
    simp [leftBytes, getOffset, bigNode4, entKV_bigEnt, Header]
  have hlb3 : leftBytes bigNode4 3 = 12046 := by
    simp [leftBytes, getOffset, bigNode4, entKV_bigEnt, Header]
  have hNB4 : nBytes bigNode4 = 16060 := by
    simp [nBytes, nKeys, getOffset, bigNode4, entKV_bigEnt, Header]
  have hrb1 : rightBytes bigNode4 1 = 12046 := by
    unfold rightBytes
    rw [hNB4, hlb1]
    norm_num [Header]
  have hrb2 : rightBytes bigNode4 2 = 8032 := by
    unfold rightBytes
    rw [hNB4, hlb2]
    norm_num [Header]
  have hrb3 : rightBytes bigNode4 3 = 4018 := by
    unfold rightBytes
    rw [hNB4, hlb3]
    norm_num [Header]
  have hdec4 : split2Dec bigNode4 2 = 1 := by
    have s2 : split2Dec bigNode4 2 =
        if leftBytes bigNode4 2 > BTreePageSize then split2Dec bigNode4 1 else 2 := rfl
    have s1 : split2Dec bigNode4 1 =
        if leftBytes bigNode4 1 > BTreePageSize then split2Dec bigNode4 0 else 1 := rfl
    rw [s2, hlb2, s1, hlb1]
    norm_num [BTreePageSize]
  have hinc4 : split2Inc bigNode4 4 1 = 3 := by
    have i1 : split2Inc bigNode4 4 1 =
        if rightBytes bigNode4 1 > BTreePageSize then split2Inc bigNode4 3 2 else 1 := rfl
    have i2 : split2Inc bigNode4 3 2 =
        if rightBytes bigNode4 2 > BTreePageSize then split2Inc bigNode4 2 3 else 2 := rfl
    have i3 : split2Inc bigNode4 2 3 =
        if rightBytes bigNode4 3 > BTreePageSize then split2Inc bigNode4 1 4 else 3 := rfl
    rw [i1, hrb1, i2, hrb2, i3, hrb3]
    norm_num [BTreePageSize]
  have htake3 : bigNode4.ents.take 3 = [bigEnt, bigEnt, bigEnt] := by simp [bigNode4]
  have hdrop3 : bigNode4.ents.drop 3 = [bigEnt] := by simp [bigNode4]
  have hR : nBytes ⟨bigNode4.btype, bigNode4.ents.drop 3⟩ = 4018 := by
    rw [hdrop3]
    simp [nBytes, nKeys, getOffset, entKV_bigEnt, Header]
  have hsp4 : nodeSplit2 bigNode4 = some (⟨bigNode4.btype, bigNode4.ents.take 3⟩,
      ⟨bigNode4.btype, bigNode4.ents.drop 3⟩) := by
    refine nodeSplit2_eval bigNode4 4 1 3 hlen4 ?_ ?_ (by norm_num) (by norm_num)
      (by norm_num) (by rw [hR]; norm_num [BTreePageSize])
    · rw [show (4 : Nat) / 2 = 2 from rfl]
      exact hdec4
    · rw [show (4 : Nat) + 1 - 1 = 4 from rfl]
      exact hinc4
  have hLeq : (⟨bigNode4.btype, bigNode4.ents.take 3⟩ : BNode) =
      ⟨BNodeLeaf, [bigEnt, bigEnt, bigEnt]⟩ := by
    rw [htake3]
    rfl
  have hLlen : (⟨BNodeLeaf, [bigEnt, bigEnt, bigEnt]⟩ : BNode).ents.length = 3 := by simp
  have hlbM1 : leftBytes ⟨BNodeLeaf, [bigEnt, bigEnt, bigEnt]⟩ 1 = 4018 := by
    simp [leftBytes, getOffset, entKV_bigEnt, Header]
  have hlbM2 : leftBytes ⟨BNodeLeaf, [bigEnt, bigEnt, bigEnt]⟩ 2 = 8032 := by
    simp [leftBytes, getOffset, entKV_bigEnt, Header]
  have hNBM : nBytes ⟨BNodeLeaf, [bigEnt, bigEnt, bigEnt]⟩ = 12046 := by
    simp [nBytes, nKeys, getOffset, entKV_bigEnt, Header]
  have hrbM1 : rightBytes ⟨BNodeLeaf, [bigEnt, bigEnt, bigEnt]⟩ 1 = 8032 := by
    unfold rightBytes
    rw [hNBM, hlbM1]
    norm_num [Header]
  have hrbM2 : rightBytes ⟨BNodeLeaf, [bigEnt, bigEnt, bigEnt]⟩ 2 = 4018 := by
    unfold rightBytes
    rw [hNBM, hlbM2]
    norm_num [Header]
  have hdecM : split2Dec ⟨BNodeLeaf, [bigEnt, bigEnt, bigEnt]⟩ 1 = 1 := by
    have s1 : split2Dec ⟨BNodeLeaf, [bigEnt, bigEnt, bigEnt]⟩ 1 =
        if leftBytes ⟨BNodeLeaf, [bigEnt, bigEnt, bigEnt]⟩ 1 > BTreePageSize then
          split2Dec ⟨BNodeLeaf, [bigEnt, bigEnt, bigEnt]⟩ 0 else 1 := rfl
    rw [s1, hlbM1]
    norm_num [BTreePageSize]
  have hincM : split2Inc ⟨BNodeLeaf, [bigEnt, bigEnt, bigEnt]⟩ 3 1 = 2 := by
    have i1 : split2Inc ⟨BNodeLeaf, [bigEnt, bigEnt, bigEnt]⟩ 3 1 =
        if rightBytes ⟨BNodeLeaf, [bigEnt, bigEnt, bigEnt]⟩ 1 > BTreePageSize then
          split2Inc ⟨BNodeLeaf, [bigEnt, bigEnt, bigEnt]⟩ 2 2 else 1 := rfl
    have i2 : split2Inc ⟨BNodeLeaf, [bigEnt, bigEnt, bigEnt]⟩ 2 2 =
        if rightBytes ⟨BNodeLeaf, [bigEnt, bigEnt, bigEnt]⟩ 2 > BTreePageSize then
          split2Inc ⟨BNodeLeaf, [bigEnt, bigEnt, bigEnt]⟩ 1 3 else 2 := rfl
    rw [i1, hrbM1, i2, hrbM2]
    norm_num [BTreePageSize]
  have hMR : nBytes ⟨BNodeLeaf,
      ([bigEnt, bigEnt, bigEnt] : List Ent).drop 2⟩ = 4018 := by
    simp [nBytes, nKeys, getOffset, entKV_bigEnt, Header]
  have hspM : nodeSplit2 ⟨BNodeLeaf, [bigEnt, bigEnt, bigEnt]⟩ =
      some (⟨BNodeLeaf, ([bigEnt, bigEnt, bigEnt] : List Ent).take 2⟩,
        ⟨BNodeLeaf, ([bigEnt, bigEnt, bigEnt] : List Ent).drop 2⟩) := by
    refine nodeSplit2_eval ⟨BNodeLeaf, [bigEnt, bigEnt, bigEnt]⟩ 3 1 2 hLlen ?_ ?_
      (by norm_num) (by norm_num) (by norm_num) (by rw [hMR]; norm_num [BTreePageSize])
    · rw [show (3 : Nat) / 2 = 1 from rfl]
      exact hdecM
    · rw [show (3 : Nat) + 1 - 1 = 3 from rfl]
      exact hincM
  have hs3 : nodeSplit3 bigNode4 =
      some [⟨BNodeLeaf, ([bigEnt, bigEnt, bigEnt] : List Ent).take 2⟩,
        ⟨BNodeLeaf, ([bigEnt, bigEnt, bigEnt] : List Ent).drop 2⟩,
        ⟨bigNode4.btype, bigNode4.ents.drop 3⟩] := by
    refine nodeSplit3_eval3 bigNode4 ⟨BNodeLeaf, [bigEnt, bigEnt, bigEnt]⟩
      ⟨bigNode4.btype, bigNode4.ents.drop 3⟩ _ _
      (by rw [hNB4]; norm_num [BTreePageSize]) ?_
      (by rw [hNBM]; norm_num [BTreePageSize]) hspM
    rw [hsp4, hLeq]
  have h1 : nBytes ⟨BNodeLeaf, [bigEnt, bigEnt]⟩ = 8032 := by
    simp [nBytes, nKeys, getOffset, entKV_bigEnt, Header]
  have h2 : nBytes ⟨BNodeLeaf, [bigEnt]⟩ = 4018 := by
    simp [nBytes, nKeys, getOffset, entKV_bigEnt, Header]
  rw [hs3]
  simp [bigNode4, h1, h2]

theorem entKV_mEnt1 : entKV mEnt1 = 2036 := by simp [entKV, mEnt1, K1000_len, Vn_len]

theorem entKV_mEnt2 : entKV mEnt2 = 2037 := by simp [entKV, mEnt2, K1000_len, Vn_len]

theorem entKV_mEnt3 : entKV mEnt3 = 2040 := by simp [entKV, mEnt3, K1000_len, Vn_len]

theorem entKV_mEnt4 : entKV mEnt4 = 2033 := by simp [entKV, mEnt4, K1000_len, Vn_len]

theorem nBytes_node8190 : nBytes node8190 = 8190 := by
  simp [nBytes, nKeys, getOffset, node8190, entKV_mEnt1, entKV_mEnt2,
    entKV_mEnt3, entKV_mEnt4, Header]

/-- The full evaluation of nodeSplit3 on the 8190-byte node. -/
theorem split3_node8190_eval :
    (nodeSplit3 node8190).map (fun l => l.map nBytes) = some [4097, 2054, 2047] := by
  have hlen : node8190.ents.length = 4 := by simp [node8190]
  have hlb1 : leftBytes node8190 1 = 2050 := by
    simp [leftBytes, getOffset, node8190, entKV_mEnt1, Header]
  have hlb2 : leftBytes node8190 2 = 4097 := by
    simp [leftBytes, getOffset, node8190, entKV_mEnt1, entKV_mEnt2, Header]
  have hlb3 : leftBytes node8190 3 = 6147 := by
    simp [leftBytes, getOffset, node8190, entKV_mEnt1, entKV_mEnt2, entKV_mEnt3, Header]
  have hNB := nBytes_node8190
  have hrb1 : rightBytes node8190 1 = 6144 := by
    unfold rightBytes
    rw [hNB, hlb1]
    norm_num [Header]
  have hrb2 : rightBytes node8190 2 = 4097 := by
    unfold rightBytes
    rw [hNB, hlb2]
    norm_num [Header]
  have hrb3 : rightBytes node8190 3 = 2047 := by
    unfold rightBytes
    rw [hNB, hlb3]
    norm_num [Header]
  have hdec : split2Dec node8190 2 = 1 := by
    have s2 : split2Dec node8190 2 =
        if leftBytes node8190 2 > BTreePageSize then split2Dec node8190 1 else 2 := rfl
    have s1 : split2Dec node8190 1 =
        if leftBytes node8190 1 > BTreePageSize then split2Dec node8190 0 else 1 := rfl
    rw [s2, hlb2, s1, hlb1]
    norm_num [BTreePageSize]
  have hinc : split2Inc node8190 4 1 = 3 := by
    have i1 : split2Inc node8190 4 1 =
        if rightBytes node8190 1 > BTreePageSize then split2Inc node8190 3 2 else 1 := rfl
    have i2 : split2Inc node8190 3 2 =
        if rightBytes node8190 2 > BTreePageSize then split2Inc node8190 2 3 else 2 := rfl
    have i3 : split2Inc node8190 2 3 =
        if rightBytes node8190 3 > BTreePageSize then split2Inc node8190 1 4 else 3 := rfl
    rw [i1, hrb1, i2, hrb2, i3, hrb3]
    norm_num [BTreePageSize]
  have htake3 : node8190.ents.take 3 = [mEnt1, mEnt2, mEnt3] := by simp [node8190]
  have hdrop3 : node8190.ents.drop 3 = [mEnt4] := by simp [node8190]
  have hR : nBytes ⟨node8190.btype, node8190.ents.drop 3⟩ = 2047 := by
    rw [hdrop3]
    simp [nBytes, nKeys, getOffset, entKV_mEnt4, Header]
  have hsp : nodeSplit2 node8190 = some (⟨node8190.btype, node8190.ents.take 3⟩,
      ⟨node8190.btype, node8190.ents.drop 3⟩) := by
    refine nodeSplit2_eval node8190 4 1 3 hlen ?_ ?_ (by norm_num) (by norm_num)
      (by norm_num) (by rw [hR]; norm_num [BTreePageSize])
    · rw [show (4 : Nat) / 2 = 2 from rfl]
      exact hdec
    · rw [show (4 : Nat) + 1 - 1 = 4 from rfl]
      exact hinc
  have hLeq : (⟨node8190.btype, node8190.ents.take 3⟩ : BNode) =
      ⟨BNodeLeaf, [mEnt1, mEnt2, mEnt3]⟩ := by
    rw [htake3]
    rfl
  have hLlen : (⟨BNodeLeaf, [mEnt1, mEnt2, mEnt3]⟩ : BNode).ents.length = 3 := by simp
  have hlbM1 : leftBytes ⟨BNodeLeaf, [mEnt1, mEnt2, mEnt3]⟩ 1 = 2050 := by
    simp [leftBytes, getOffset, entKV_mEnt1, Header]
  have hlbM2 : leftBytes ⟨BNodeLeaf, [mEnt1, mEnt2, mEnt3]⟩ 2 = 4097 := by
    simp [leftBytes, getOffset, entKV_mEnt1, entKV_mEnt2, Header]
  have hNBM : nBytes ⟨BNodeLeaf, [mEnt1, mEnt2, mEnt3]⟩ = 6147 := by
    simp [nBytes, nKeys, getOffset, entKV_mEnt1, entKV_mEnt2, entKV_mEnt3, Header]
  have hrbM1 : rightBytes ⟨BNodeLeaf, [mEnt1, mEnt2, mEnt3]⟩ 1 = 4101 := by
    unfold rightBytes
    rw [hNBM, hlbM1]
    norm_num [Header]
  have hrbM2 : rightBytes ⟨BNodeLeaf, [mEnt1, mEnt2, mEnt3]⟩ 2 = 2054 := by
    unfold rightBytes
    rw [hNBM, hlbM2]
    norm_num [Header]
  have hdecM : split2Dec ⟨BNodeLeaf, [mEnt1, mEnt2, mEnt3]⟩ 1 = 1 := by
    have s1 : split2Dec ⟨BNodeLeaf, [mEnt1, mEnt2, mEnt3]⟩ 1 =
        if leftBytes ⟨BNodeLeaf, [mEnt1, mEnt2, mEnt3]⟩ 1 > BTreePageSize then
          split2Dec ⟨BNodeLeaf, [mEnt1, mEnt2, mEnt3]⟩ 0 else 1 := rfl
    rw [s1, hlbM1]
    norm_num [BTreePageSize]
  have hincM : split2Inc ⟨BNodeLeaf, [mEnt1, mEnt2, mEnt3]⟩ 3 1 = 2 := by
    have i1 : split2Inc ⟨BNodeLeaf, [mEnt1, mEnt2, mEnt3]⟩ 3 1 =
        if rightBytes ⟨BNodeLeaf, [mEnt1, mEnt2, mEnt3]⟩ 1 > BTreePageSize then
          split2Inc ⟨BNodeLeaf, [mEnt1, mEnt2, mEnt3]⟩ 2 2 else 1 := rfl
    have i2 : split2Inc ⟨BNodeLeaf, [mEnt1, mEnt2, mEnt3]⟩ 2 2 =
        if rightBytes ⟨BNodeLeaf, [mEnt1, mEnt2, mEnt3]⟩ 2 > BTreePageSize then
          split2Inc ⟨BNodeLeaf, [mEnt1, mEnt2, mEnt3]⟩ 1 3 else 2 := rfl
    rw [i1, hrbM1, i2, hrbM2]
    norm_num [BTreePageSize]
  have hMR : nBytes ⟨BNodeLeaf,
      ([mEnt1, mEnt2, mEnt3] : List Ent).drop 2⟩ = 2054 := by
    simp [nBytes, nKeys, getOffset, entKV_mEnt3, Header]
  have hspM : nodeSplit2 ⟨BNodeLeaf, [mEnt1, mEnt2, mEnt3]⟩ =
      some (⟨BNodeLeaf, ([mEnt1, mEnt2, mEnt3] : List Ent).take 2⟩,
        ⟨BNodeLeaf, ([mEnt1, mEnt2, mEnt3] : List Ent).drop 2⟩) := by
    refine nodeSplit2_eval ⟨BNodeLeaf, [mEnt1, mEnt2, mEnt3]⟩ 3 1 2 hLlen ?_ ?_
      (by norm_num) (by norm_num) (by norm_num) (by rw [hMR]; norm_num [BTreePageSize])
    · rw [show (3 : Nat) / 2 = 1 from rfl]
      exact hdecM
    · rw [show (3 : Nat) + 1 - 1 = 3 from rfl]
      exact hincM
  have hs3 : nodeSplit3 node8190 =
      some [⟨BNodeLeaf, ([mEnt1, mEnt2, mEnt3] : List Ent).take 2⟩,
        ⟨BNodeLeaf, ([mEnt1, mEnt2, mEnt3] : List Ent).drop 2⟩,
        ⟨node8190.btype, node8190.ents.drop 3⟩] := by
    refine nodeSplit3_eval3 node8190 ⟨BNodeLeaf, [mEnt1, mEnt2, mEnt3]⟩
      ⟨node8190.btype, node8190.ents.drop 3⟩ _ _
      (by rw [hNB]; norm_num [BTreePageSize]) ?_
      (by rw [hNBM]; norm_num [BTreePageSize]) hspM
    rw [hsp, hLeq]
  have h1 : nBytes ⟨BNodeLeaf, [mEnt1, mEnt2]⟩ = 4097 := by
    simp [nBytes, nKeys, getOffset, entKV_mEnt1, entKV_mEnt2, Header]
  have h2 : nBytes ⟨BNodeLeaf, [mEnt3]⟩ = 2054 := by
    simp [nBytes, nKeys, getOffset, entKV_mEnt3, Header]
  have h3 : nBytes ⟨BNodeLeaf, [mEnt4]⟩ = 2047 := by
    simp [nBytes, nKeys, getOffset, entKV_mEnt4, Header]
  rw [hs3]
  simp [node8190, h1, h2, h3]

/-- C3 counterexample: as stated (no bound on the total node size) the
    claim is false.  A node of four maximal entries (16060 bytes) splits
    into nodes of 8032, 4018 and 4018 bytes, and even a node of 8190
    bytes (just under two pages) splits into 4097, 2054 and 2047 bytes;
    in both runs the first node exceeds the 4096-byte page. -/
theorem c3_counterexample :
    entsBounded bigNode4 ∧ 2 ≤ bigNode4.ents.length ∧
    (nodeSplit3 bigNode4).map (fun l => l.map nBytes) = some [8032, 4018, 4018] ∧
    entsBounded node8190 ∧ nBytes node8190 = 8190 ∧
    (nodeSplit3 node8190).map (fun l => l.map nBytes) = some [4097, 2054, 2047] ∧
    ¬ (8032 ≤ BTreePageSize) ∧ ¬ (4097 ≤ BTreePageSize) := by
  refine ⟨?_, by simp [bigNode4], split3_bigNode4_eval, ?_, nBytes_node8190,
    split3_node8190_eval, by decide, by decide⟩
  · intro e he
    have he2 : e = bigEnt := by simpa [bigNode4] using he
    subst he2
    simp [bigEnt, Vn_len, K1000_len, BTreeMaxKeySize, BTreeMaxValSize]
  · intro e he
    simp [node8190] at he
    rcases he with he | he | he | he <;> subst he <;>
      simp [mEnt1, mEnt2, mEnt3, mEnt4, Vn_len, K1000_len,
        BTreeMaxKeySize, BTreeMaxValSize]


/-! ## C1 and C2: a concrete Insert run and the merge bug of shouldMerge

    The five inserts of c1Ops build c1State (verified step by step below);
    the sixth call, Delete of key e = [101], reaches shouldMerge, whose
    size check reads the node type tag instead of the byte size, directs a
    6019-byte merge, and fails the one-page assertion of tree.new. -/

theorem nodeSplit3_eval1 (b : BNode) (h : nBytes b ≤ BTreePageSize) :
    nodeSplit3 b = some [b] := by
  simp only [nodeSplit3, if_pos h]

theorem nodeSplit3_eval2 (b L R : BNode) (hnb : ¬ nBytes b ≤ BTreePageSize)
    (hsp : nodeSplit2 b = some (L, R)) (hLo : nBytes L ≤ BTreePageSize) :
    nodeSplit3 b = some [L, R] := by
  simp only [nodeSplit3, hsp, if_neg hnb, if_pos hLo]

theorem bnode_ne_bleaf : (BNodeNode = BNodeLeaf) = False := by
  simp [BNodeNode, BNodeLeaf]

theorem eKV_E0 : entKV ⟨0, [], []⟩ = 4 := rfl

theorem eKV_A : entKV ⟨0, [97], Vn 1990⟩ = 1995 := by simp [entKV, Vn_len]

theorem eKV_B : entKV ⟨0, [98], Vn 1990⟩ = 1995 := by simp [entKV, Vn_len]

theorem eKV_C : entKV ⟨0, [99], Vn 1990⟩ = 1995 := by simp [entKV, Vn_len]

theorem eKV_D : entKV ⟨0, [100], Vn 1990⟩ = 1995 := by simp [entKV, Vn_len]

theorem eKV_E : entKV ⟨0, [101], Vn 1990⟩ = 1995 := by simp [entKV, Vn_len]

theorem nb_EA : nBytes ⟨BNodeLeaf, [⟨0, [], []⟩, ⟨0, [97], Vn 1990⟩]⟩ = 2023 := by
  simp [nBytes, getOffset, nKeys, eKV_E0, eKV_A, Header]

theorem nb_EAB : nBytes ⟨BNodeLeaf, [⟨0, [], []⟩, ⟨0, [97], Vn 1990⟩, ⟨0, [98], Vn 1990⟩]⟩ = 4028 := by
  simp [nBytes, getOffset, nKeys, eKV_E0, eKV_A, eKV_B, Header]

theorem nb_EABD : nBytes ⟨BNodeLeaf, [⟨0, [], []⟩, ⟨0, [97], Vn 1990⟩, ⟨0, [98], Vn 1990⟩, ⟨0, [100], Vn 1990⟩]⟩ = 6033 := by
  simp [nBytes, getOffset, nKeys, eKV_E0, eKV_A, eKV_B, eKV_D, Header]

theorem nb_BD : nBytes ⟨BNodeLeaf, [⟨0, [98], Vn 1990⟩, ⟨0, [100], Vn 1990⟩]⟩ = 4014 := by
  simp [nBytes, getOffset, nKeys, eKV_B, eKV_D, Header]

theorem nb_BDE : nBytes ⟨BNodeLeaf, [⟨0, [98], Vn 1990⟩, ⟨0, [100], Vn 1990⟩, ⟨0, [101], Vn 1990⟩]⟩ = 6019 := by
  simp [nBytes, getOffset, nKeys, eKV_B, eKV_D, eKV_E, Header]

theorem nb_B1 : nBytes ⟨BNodeLeaf, [⟨0, [98], Vn 1990⟩]⟩ = 2009 := by
  simp [nBytes, getOffset, nKeys, eKV_B, Header]

theorem nb_DE : nBytes ⟨BNodeLeaf, [⟨0, [100], Vn 1990⟩, ⟨0, [101], Vn 1990⟩]⟩ = 4014 := by
  simp [nBytes, getOffset, nKeys, eKV_D, eKV_E, Header]

theorem nb_BC : nBytes ⟨BNodeLeaf, [⟨0, [98], Vn 1990⟩, ⟨0, [99], Vn 1990⟩]⟩ = 4014 := by
  simp [nBytes, getOffset, nKeys, eKV_B, eKV_C, Header]

theorem nb_D1 : nBytes ⟨BNodeLeaf, [⟨0, [100], Vn 1990⟩]⟩ = 2009 := by
  simp [nBytes, getOffset, nKeys, eKV_D, Header]

theorem nb_BCD : nBytes ⟨BNodeLeaf, [⟨0, [98], Vn 1990⟩, ⟨0, [99], Vn 1990⟩, ⟨0, [100], Vn 1990⟩]⟩ = 6019 := by
  simp [nBytes, getOffset, nKeys, eKV_B, eKV_C, eKV_D, Header]

theorem nb_root2 : nBytes ⟨BNodeNode, [⟨3, [], []⟩, ⟨4, [98], []⟩]⟩ = 33 := rfl

theorem nb_root3 : nBytes ⟨BNodeNode, [⟨3, [], []⟩, ⟨6, [98], []⟩, ⟨7, [100], []⟩]⟩ = 48 := rfl

theorem nb_root3b : nBytes ⟨BNodeNode, [⟨3, [], []⟩, ⟨9, [98], []⟩, ⟨7, [100], []⟩]⟩ = 48 := rfl

/-- The third insert splits the 6033-byte leaf at pivot 2. -/
theorem split_EABD : nodeSplit3 ⟨BNodeLeaf, [⟨0, [], []⟩, ⟨0, [97], Vn 1990⟩, ⟨0, [98], Vn 1990⟩, ⟨0, [100], Vn 1990⟩]⟩ =
    some [⟨BNodeLeaf, [⟨0, [], []⟩, ⟨0, [97], Vn 1990⟩]⟩, ⟨BNodeLeaf, [⟨0, [98], Vn 1990⟩, ⟨0, [100], Vn 1990⟩]⟩] := by
  have hlb2 : leftBytes ⟨BNodeLeaf, [⟨0, [], []⟩, ⟨0, [97], Vn 1990⟩, ⟨0, [98], Vn 1990⟩, ⟨0, [100], Vn 1990⟩]⟩ 2 = 2023 := by
    simp [leftBytes, getOffset, eKV_E0, eKV_A, Header]
  have hrb2 : rightBytes ⟨BNodeLeaf, [⟨0, [], []⟩, ⟨0, [97], Vn 1990⟩, ⟨0, [98], Vn 1990⟩, ⟨0, [100], Vn 1990⟩]⟩ 2 = 4014 := by
    unfold rightBytes
    rw [nb_EABD, hlb2]
    norm_num [Header]
  have hdec : split2Dec ⟨BNodeLeaf, [⟨0, [], []⟩, ⟨0, [97], Vn 1990⟩, ⟨0, [98], Vn 1990⟩, ⟨0, [100], Vn 1990⟩]⟩ 2 = 2 := by
    have s2 : split2Dec ⟨BNodeLeaf, [⟨0, [], []⟩, ⟨0, [97], Vn 1990⟩, ⟨0, [98], Vn 1990⟩, ⟨0, [100], Vn 1990⟩]⟩ 2 =
        if leftBytes ⟨BNodeLeaf, [⟨0, [], []⟩, ⟨0, [97], Vn 1990⟩, ⟨0, [98], Vn 1990⟩, ⟨0, [100], Vn 1990⟩]⟩ 2 > BTreePageSize then
          split2Dec ⟨BNodeLeaf, [⟨0, [], []⟩, ⟨0, [97], Vn 1990⟩, ⟨0, [98], Vn 1990⟩, ⟨0, [100], Vn 1990⟩]⟩ 1 else 2 := rfl
    rw [s2, hlb2]
    norm_num [BTreePageSize]
  have hinc : split2Inc ⟨BNodeLeaf, [⟨0, [], []⟩, ⟨0, [97], Vn 1990⟩, ⟨0, [98], Vn 1990⟩, ⟨0, [100], Vn 1990⟩]⟩ 3 2 = 2 := by
    have i1 : split2Inc ⟨BNodeLeaf, [⟨0, [], []⟩, ⟨0, [97], Vn 1990⟩, ⟨0, [98], Vn 1990⟩, ⟨0, [100], Vn 1990⟩]⟩ 3 2 =
        if rightBytes ⟨BNodeLeaf, [⟨0, [], []⟩, ⟨0, [97], Vn 1990⟩, ⟨0, [98], Vn 1990⟩, ⟨0, [100], Vn 1990⟩]⟩ 2 > BTreePageSize then
          split2Inc ⟨BNodeLeaf, [⟨0, [], []⟩, ⟨0, [97], Vn 1990⟩, ⟨0, [98], Vn 1990⟩, ⟨0, [100], Vn 1990⟩]⟩ 2 3 else 2 := rfl
    rw [i1, hrb2]
    norm_num [BTreePageSize]
  have hR : nBytes ⟨BNodeLeaf, ([⟨0, [], []⟩, ⟨0, [97], Vn 1990⟩, ⟨0, [98], Vn 1990⟩, ⟨0, [100], Vn 1990⟩] : List Ent).drop 2⟩ = 4014 := by
    simp only [List.drop_succ_cons, List.drop_zero]
    exact nb_BD
  have hsp : nodeSplit2 ⟨BNodeLeaf, [⟨0, [], []⟩, ⟨0, [97], Vn 1990⟩, ⟨0, [98], Vn 1990⟩, ⟨0, [100], Vn 1990⟩]⟩ =
      some (⟨BNodeLeaf, [⟨0, [], []⟩, ⟨0, [97], Vn 1990⟩]⟩, ⟨BNodeLeaf, [⟨0, [98], Vn 1990⟩, ⟨0, [100], Vn 1990⟩]⟩) := by
    have := nodeSplit2_eval ⟨BNodeLeaf, [⟨0, [], []⟩, ⟨0, [97], Vn 1990⟩, ⟨0, [98], Vn 1990⟩, ⟨0, [100], Vn 1990⟩]⟩ 4 2 2 (by simp)
      (by rw [show (4 : Nat) / 2 = 2 from rfl]; exact hdec)
      (by rw [show (4 : Nat) + 1 - 2 = 3 from rfl]; exact hinc)
      (by norm_num) (by norm_num) (by norm_num)
      (by rw [hR]; norm_num [BTreePageSize])
    simpa using this
  exact nodeSplit3_eval2 _ _ _ (by rw [nb_EABD]; norm_num [BTreePageSize]) hsp
    (by rw [nb_EA]; norm_num [BTreePageSize])

/-- The fourth insert splits the 6019-byte leaf at pivot 1. -/
theorem split_BDE : nodeSplit3 ⟨BNodeLeaf, [⟨0, [98], Vn 1990⟩, ⟨0, [100], Vn 1990⟩, ⟨0, [101], Vn 1990⟩]⟩ =
    some [⟨BNodeLeaf, [⟨0, [98], Vn 1990⟩]⟩, ⟨BNodeLeaf, [⟨0, [100], Vn 1990⟩, ⟨0, [101], Vn 1990⟩]⟩] := by
  have hlb1 : leftBytes ⟨BNodeLeaf, [⟨0, [98], Vn 1990⟩, ⟨0, [100], Vn 1990⟩, ⟨0, [101], Vn 1990⟩]⟩ 1 = 2009 := by
    simp [leftBytes, getOffset, eKV_B, Header]
  have hrb1 : rightBytes ⟨BNodeLeaf, [⟨0, [98], Vn 1990⟩, ⟨0, [100], Vn 1990⟩, ⟨0, [101], Vn 1990⟩]⟩ 1 = 4014 := by
    unfold rightBytes
    rw [nb_BDE, hlb1]
    norm_num [Header]
  have hdec : split2Dec ⟨BNodeLeaf, [⟨0, [98], Vn 1990⟩, ⟨0, [100], Vn 1990⟩, ⟨0, [101], Vn 1990⟩]⟩ 1 = 1 := by
    have s1 : split2Dec ⟨BNodeLeaf, [⟨0, [98], Vn 1990⟩, ⟨0, [100], Vn 1990⟩, ⟨0, [101], Vn 1990⟩]⟩ 1 =
        if leftBytes ⟨BNodeLeaf, [⟨0, [98], Vn 1990⟩, ⟨0, [100], Vn 1990⟩, ⟨0, [101], Vn 1990⟩]⟩ 1 > BTreePageSize then
          split2Dec ⟨BNodeLeaf, [⟨0, [98], Vn 1990⟩, ⟨0, [100], Vn 1990⟩, ⟨0, [101], Vn 1990⟩]⟩ 0 else 1 := rfl
    rw [s1, hlb1]
    norm_num [BTreePageSize]
  have hinc : split2Inc ⟨BNodeLeaf, [⟨0, [98], Vn 1990⟩, ⟨0, [100], Vn 1990⟩, ⟨0, [101], Vn 1990⟩]⟩ 3 1 = 1 := by
    have i1 : split2Inc ⟨BNodeLeaf, [⟨0, [98], Vn 1990⟩, ⟨0, [100], Vn 1990⟩, ⟨0, [101], Vn 1990⟩]⟩ 3 1 =
        if rightBytes ⟨BNodeLeaf, [⟨0, [98], Vn 1990⟩, ⟨0, [100], Vn 1990⟩, ⟨0, [101], Vn 1990⟩]⟩ 1 > BTreePageSize then
          split2Inc ⟨BNodeLeaf, [⟨0, [98], Vn 1990⟩, ⟨0, [100], Vn 1990⟩, ⟨0, [101], Vn 1990⟩]⟩ 2 2 else 1 := rfl
    rw [i1, hrb1]
    norm_num [BTreePageSize]
  have hR : nBytes ⟨BNodeLeaf, ([⟨0, [98], Vn 1990⟩, ⟨0, [100], Vn 1990⟩, ⟨0, [101], Vn 1990⟩] : List Ent).drop 1⟩ = 4014 := by
    simp only [List.drop_succ_cons, List.drop_zero]
    exact nb_DE
  have hsp : nodeSplit2 ⟨BNodeLeaf, [⟨0, [98], Vn 1990⟩, ⟨0, [100], Vn 1990⟩, ⟨0, [101], Vn 1990⟩]⟩ =
      some (⟨BNodeLeaf, [⟨0, [98], Vn 1990⟩]⟩, ⟨BNodeLeaf, [⟨0, [100], Vn 1990⟩, ⟨0, [101], Vn 1990⟩]⟩) := by
    have := nodeSplit2_eval ⟨BNodeLeaf, [⟨0, [98], Vn 1990⟩, ⟨0, [100], Vn 1990⟩, ⟨0, [101], Vn 1990⟩]⟩ 3 1 1 (by simp)
      (by rw [show (3 : Nat) / 2 = 1 from rfl]; exact hdec)
      (by rw [show (3 : Nat) + 1 - 1 = 3 from rfl]; exact hinc)
      (by norm_num) (by norm_num) (by norm_num)
      (by rw [hR]; norm_num [BTreePageSize])
    simpa using this
  exact nodeSplit3_eval2 _ _ _ (by rw [nb_BDE]; norm_num [BTreePageSize]) hsp
    (by rw [nb_B1]; norm_num [BTreePageSize])

theorem insStep1 : btInsert ⟨0, []⟩ [97] (Vn 1990) =
    some ⟨1, [some ⟨BNodeLeaf, [⟨0, [], []⟩, ⟨0, [97], Vn 1990⟩]⟩]⟩ := by
  simp [btInsert, storeNew, nb_EA, Vn_len,
    BTreePageSize, BTreeMaxKeySize, BTreeMaxValSize]

theorem insStep2 : btInsert ⟨1, [some ⟨BNodeLeaf, [⟨0, [], []⟩, ⟨0, [97], Vn 1990⟩]⟩]⟩ [98] (Vn 1990) =
    some ⟨2, [none, some ⟨BNodeLeaf, [⟨0, [], []⟩, ⟨0, [97], Vn 1990⟩, ⟨0, [98], Vn 1990⟩]⟩]⟩ := by
  have hsp : nodeSplit3 ⟨BNodeLeaf, [⟨0, [], []⟩, ⟨0, [97], Vn 1990⟩, ⟨0, [98], Vn 1990⟩]⟩ = some [⟨BNodeLeaf, [⟨0, [], []⟩, ⟨0, [97], Vn 1990⟩, ⟨0, [98], Vn 1990⟩]⟩] :=
    nodeSplit3_eval1 _ (by rw [nb_EAB]; norm_num [BTreePageSize])
  simp [btInsert, storeGet, storeDel, storeNew, treeInsert, nodeLookupLE,
    lookupLEGo, listCmp, entAt, leafInsert, nKeys, hsp, nb_EAB, Vn_len,
    BTreePageSize, BTreeMaxKeySize, BTreeMaxValSize]

theorem insStep3 : btInsert ⟨2, [none, some ⟨BNodeLeaf, [⟨0, [], []⟩, ⟨0, [97], Vn 1990⟩, ⟨0, [98], Vn 1990⟩]⟩]⟩ [100] (Vn 1990) =
    some ⟨5, [none, none, some ⟨BNodeLeaf, [⟨0, [], []⟩, ⟨0, [97], Vn 1990⟩]⟩, some ⟨BNodeLeaf, [⟨0, [98], Vn 1990⟩, ⟨0, [100], Vn 1990⟩]⟩,
      some ⟨BNodeNode, [⟨3, [], []⟩, ⟨4, [98], []⟩]⟩]⟩ := by
  simp [btInsert, storeGet, storeDel, storeNew, treeInsert, nodeLookupLE,
    lookupLEGo, listCmp, entAt, leafInsert, nKeys, newKids, split_EABD,
    nb_EA, nb_BD, nb_root2, Vn_len,
    BTreePageSize, BTreeMaxKeySize, BTreeMaxValSize]

theorem insStep4 : btInsert ⟨5, [none, none, some ⟨BNodeLeaf, [⟨0, [], []⟩, ⟨0, [97], Vn 1990⟩]⟩,
      some ⟨BNodeLeaf, [⟨0, [98], Vn 1990⟩, ⟨0, [100], Vn 1990⟩]⟩,
      some ⟨BNodeNode, [⟨3, [], []⟩, ⟨4, [98], []⟩]⟩]⟩ [101] (Vn 1990) =
    some ⟨8, [none, none, some ⟨BNodeLeaf, [⟨0, [], []⟩, ⟨0, [97], Vn 1990⟩]⟩, none, none,
      some ⟨BNodeLeaf, [⟨0, [98], Vn 1990⟩]⟩, some ⟨BNodeLeaf, [⟨0, [100], Vn 1990⟩, ⟨0, [101], Vn 1990⟩]⟩,
      some ⟨BNodeNode, [⟨3, [], []⟩, ⟨6, [98], []⟩, ⟨7, [100], []⟩]⟩]⟩ := by
  simp [btInsert, storeGet, storeDel, storeNew, treeInsert, nodeInsert,
    nodeLookupLE, lookupLEGo, listCmp, entAt, leafInsert, nKeys, newKids,
    nodeReplaceKidN, split_BDE, bnode_ne_bleaf, nb_B1, nb_DE, nb_root3,
    nodeSplit3_eval1, Vn_len, BTreePageSize, BTreeMaxKeySize, BTreeMaxValSize]

theorem insStep5 : btInsert ⟨8, [none, none, some ⟨BNodeLeaf, [⟨0, [], []⟩, ⟨0, [97], Vn 1990⟩]⟩, none, none,
      some ⟨BNodeLeaf, [⟨0, [98], Vn 1990⟩]⟩, some ⟨BNodeLeaf, [⟨0, [100], Vn 1990⟩, ⟨0, [101], Vn 1990⟩]⟩,
      some ⟨BNodeNode, [⟨3, [], []⟩, ⟨6, [98], []⟩, ⟨7, [100], []⟩]⟩]⟩ [99] (Vn 1990) =
    some ⟨10, [none, none, some ⟨BNodeLeaf, [⟨0, [], []⟩, ⟨0, [97], Vn 1990⟩]⟩, none, none, none,
      some ⟨BNodeLeaf, [⟨0, [100], Vn 1990⟩, ⟨0, [101], Vn 1990⟩]⟩, none, some ⟨BNodeLeaf, [⟨0, [98], Vn 1990⟩, ⟨0, [99], Vn 1990⟩]⟩,
      some ⟨BNodeNode, [⟨3, [], []⟩, ⟨9, [98], []⟩, ⟨7, [100], []⟩]⟩]⟩ := by
  have hsp : nodeSplit3 ⟨BNodeLeaf, [⟨0, [98], Vn 1990⟩, ⟨0, [99], Vn 1990⟩]⟩ = some [⟨BNodeLeaf, [⟨0, [98], Vn 1990⟩, ⟨0, [99], Vn 1990⟩]⟩] :=
    nodeSplit3_eval1 _ (by rw [nb_BC]; norm_num [BTreePageSize])
  simp [btInsert, storeGet, storeDel, storeNew, treeInsert, nodeInsert,
    nodeLookupLE, lookupLEGo, listCmp, entAt, leafInsert, nKeys, newKids,
    nodeReplaceKidN, hsp, nb_BC, bnode_ne_bleaf, nodeSplit3_eval1, nb_root3b,
    Vn_len, BTreePageSize, BTreeMaxKeySize, BTreeMaxValSize]

/-- shouldMerge at the Delete([101]) call site of the c1State run: the
    updated child is the 2009-byte leaf [d], the left sibling the
    4014-byte leaf [b, c]; the type-tag sum (2 + 2 + 65536 - 4) mod 65536
    = 0 passes the page check and the merge is directed left. -/
theorem sm_run : shouldMerge
    [none, none, some ⟨BNodeLeaf, [⟨0, [], []⟩, ⟨0, [97], Vn 1990⟩]⟩, none, none, none, none, none, some ⟨BNodeLeaf, [⟨0, [98], Vn 1990⟩, ⟨0, [99], Vn 1990⟩]⟩, some ⟨BNodeNode, [⟨3, [], []⟩, ⟨9, [98], []⟩, ⟨7, [100], []⟩]⟩]
    ⟨BNodeNode, [⟨3, [], []⟩, ⟨9, [98], []⟩, ⟨7, [100], []⟩]⟩ 2 ⟨BNodeLeaf, [⟨0, [100], Vn 1990⟩]⟩ = some (-1, some ⟨BNodeLeaf, [⟨0, [98], Vn 1990⟩, ⟨0, [99], Vn 1990⟩]⟩) := by
  simp [shouldMerge, storeGet, entAt, nKeys, BNodeLeaf, BNodeNode, Header,
    BTreePageSize]

/-- Allocating the 6019-byte merged leaf [b, c, d] fails the one-page
    assertion of tree.new. -/
theorem new_merged_run : storeNew
    [none, none, some ⟨BNodeLeaf, [⟨0, [], []⟩, ⟨0, [97], Vn 1990⟩]⟩, none, none, none, none, none, none, some ⟨BNodeNode, [⟨3, [], []⟩, ⟨9, [98], []⟩, ⟨7, [100], []⟩]⟩]
    ⟨BNodeLeaf, [⟨0, [98], Vn 1990⟩, ⟨0, [99], Vn 1990⟩, ⟨0, [100], Vn 1990⟩]⟩ = none := by
  simp [storeNew, nb_BCD, BTreePageSize]

theorem del_run : btDelete c1State [101] = none := by
  simp [btDelete, c1State, storeGet, storeDel, treeDelete, nodeDelete,
    nodeLookupLE, lookupLEGo, listCmp, entAt, leafDelete, nKeys, nodeMerge,
    sm_run, new_merged_run, bnode_ne_bleaf, BTreeMaxKeySize]

theorem get97_run : btGet c1State [97] = some (some (Vn 1990)) := by
  simp [btGet, c1State, storeGet, nodeGetKey, nodeLookupLE, lookupLEGo,
    listCmp, entAt, nKeys, bnode_ne_bleaf]

theorem get102_run : btGet c1State [102] = some none := by
  simp [btGet, c1State, storeGet, nodeGetKey, nodeLookupLE, lookupLEGo,
    listCmp, entAt, nKeys, bnode_ne_bleaf]

theorem chain_run : insertSeq ⟨0, []⟩ c1Ops = some c1State := by
  simp [insertSeq, c1Ops, c1State, Option.bind, insStep1, insStep2, insStep3,
    insStep4, insStep5]

/-- C1: the tree reachable from the empty tree by the five in-limit
    inserts of c1Ops (keys a, b, d, e, c with 1990-byte values) answers
    Get as claimed, but the further legal call Delete([101]) crashes
    (returns none in the model): shouldMerge compares the node type tag
    instead of the byte size, forces a 6019-byte leaf merge, and the
    one-page assertion of tree.new fails, so the claimed Insert/Get
    behaviour over all Insert/Delete sequences does not hold. -/
theorem c1_insert_get_delete_crash :
    insertSeq ⟨0, []⟩ c1Ops = some c1State ∧
    btGet c1State [97] = some (some (Vn 1990)) ∧
    btGet c1State [102] = some none ∧
    btDelete c1State [101] = none :=
  ⟨chain_run, get97_run, get102_run, del_run⟩

/-- C2: at the Delete([101]) step of the c1Ops run, shouldMerge directs a
    left merge (dir = -1) although the updated child is 2009 bytes, more
    than a quarter page (1024), and although left plus right minus one
    header is 6019 bytes, more than one page: the code reads the node
    type tag bType() where it should read the byte size nBytes(). -/
theorem c2_shouldMerge_size_check :
    shouldMerge
      [none, none, some ⟨BNodeLeaf, [⟨0, [], []⟩, ⟨0, [97], Vn 1990⟩]⟩, none, none, none, none, none, some ⟨BNodeLeaf, [⟨0, [98], Vn 1990⟩, ⟨0, [99], Vn 1990⟩]⟩, some ⟨BNodeNode, [⟨3, [], []⟩, ⟨9, [98], []⟩, ⟨7, [100], []⟩]⟩]
      ⟨BNodeNode, [⟨3, [], []⟩, ⟨9, [98], []⟩, ⟨7, [100], []⟩]⟩ 2 ⟨BNodeLeaf, [⟨0, [100], Vn 1990⟩]⟩ = some (-1, some ⟨BNodeLeaf, [⟨0, [98], Vn 1990⟩, ⟨0, [99], Vn 1990⟩]⟩) ∧
    nBytes ⟨BNodeLeaf, [⟨0, [100], Vn 1990⟩]⟩ = 2009 ∧
    ¬ (nBytes ⟨BNodeLeaf, [⟨0, [100], Vn 1990⟩]⟩ ≤ BTreePageSize / 4) ∧
    nBytes ⟨BNodeLeaf, [⟨0, [98], Vn 1990⟩, ⟨0, [99], Vn 1990⟩]⟩ + nBytes ⟨BNodeLeaf, [⟨0, [100], Vn 1990⟩]⟩ - Header = 6019 ∧
    ¬ (nBytes ⟨BNodeLeaf, [⟨0, [98], Vn 1990⟩, ⟨0, [99], Vn 1990⟩]⟩ + nBytes ⟨BNodeLeaf, [⟨0, [100], Vn 1990⟩]⟩ - Header ≤ BTreePageSize) := by
  refine ⟨sm_run, nb_D1, ?_, ?_, ?_⟩
  · rw [nb_D1]
    norm_num [BTreePageSize]
  · rw [nb_BC, nb_D1]
    norm_num [Header]
  · rw [nb_BC, nb_D1]
    norm_num [Header, BTreePageSize]


/-! ## C10: the next_prefix row after table creation -/

/-- C10 counterexample: on a fresh database a single TableNew of tbl_test
    leaves next_prefix at the little-endian u32 101 (the code writes
    Prefix + 1 = 100 + 1), not 102 as claimed; 102 is reached only after
    the second create (the repository test creates tbl_test and tbl_test2
    before asserting 102). -/
theorem c10_counterexample :
    ((TableNew [] tdTest).bind
        (fun m1 => dbGet m1 TdefMeta ⟨[sKey], [.bytes sNextPrefix]⟩)) =
      some (some ⟨[sKey, sVal], [.bytes sNextPrefix, .bytes [101, 0, 0, 0]]⟩) ∧
    recGet ⟨[sKey, sVal], [.bytes sNextPrefix, .bytes [101, 0, 0, 0]]⟩ sVal =
      some (.bytes [101, 0, 0, 0]) ∧
    ule 4 102 = [102, 0, 0, 0] ∧
    ([101, 0, 0, 0] : List Nat) ≠ [102, 0, 0, 0] :=
  ⟨rfl, rfl, rfl, by decide⟩

/-- C10 amended: after creating tbl_test and then tbl_test2 on a fresh
    database, the at-meta row next_prefix holds the little-endian u32 102,
    and the stored definition of tbl_test is the marshalled TableDef with
    Prefix = 100 (byte for byte the JSON string the repository test
    expects). -/
theorem c10_next_prefix_after_two_creates :
    ((TableNew [] tdTest).bind (fun m1 => TableNew m1 tdTest2)).bind
        (fun m2 => dbGet m2 TdefMeta ⟨[sKey], [.bytes sNextPrefix]⟩) =
      some (some ⟨[sKey, sVal], [.bytes sNextPrefix, .bytes (ule 4 102)]⟩) ∧
    ((TableNew [] tdTest).bind (fun m1 => TableNew m1 tdTest2)).bind
        (fun m2 => dbGet m2 TdefTable ⟨[sName], [.bytes sTblTest]⟩) =
      some (some ⟨[sName, sDef], [.bytes sTblTest,
        .bytes (jsonTableDef { tdTest with pfx := TablePrefixMin })]⟩) ∧
    jsonTableDef { tdTest with pfx := TablePrefixMin } =
      [123, 34, 78, 97, 109, 101, 34, 58, 34, 116, 98, 108, 95, 116, 101, 115, 116, 34, 44, 34, 84, 121, 112, 101, 115, 34, 58, 91, 50, 44, 49, 44, 49, 44, 50, 93, 44, 34, 67, 111, 108, 115, 34, 58, 91, 34, 107, 105, 49, 34, 44, 34, 107, 115, 50, 34, 44, 34, 115, 49, 34, 44, 34, 105, 50, 34, 93, 44, 34, 80, 75, 101, 121, 115, 34, 58, 50, 44, 34, 80, 114, 101, 102, 105, 120, 34, 58, 49, 48, 48, 125] ∧
    ({ tdTest with pfx := TablePrefixMin } : TableDef).pfx = 100 :=
  ⟨rfl, rfl, rfl, rfl⟩


/-! ## C7 and C8: the free-list queue

    The development below proves the inductive invariant FLGood for every
    reachable free-list state and derives the check() facts (C8) and the
    PopHead contract (C7) from it. -/

/-! ### Block arithmetic -/

theorem flcap_pos : 0 < FLCap := by norm_num [FLCap, BTreePageSize]

theorem flcap_eq : FLCap = 511 := by norm_num [FLCap, BTreePageSize]

theorem succ_div_of_idx_ne (x : Nat) (h : seq2idx (x + 1) ≠ 0) :
    (x + 1) / FLCap = x / FLCap := by
  rw [seq2idx, flcap_eq] at h
  rw [flcap_eq]
  omega

theorem succ_div_of_idx_eq (x : Nat) (h : seq2idx (x + 1) = 0) :
    (x + 1) / FLCap = x / FLCap + 1 := by
  rw [seq2idx, flcap_eq] at h
  rw [flcap_eq]
  omega

theorem mod_lt_of_same_div (q r : Nat) (hd : q / FLCap = r / FLCap)
    (hlt : q < r) : q % FLCap < r % FLCap := by
  rw [flcap_eq] at hd
  rw [flcap_eq]
  omega

/-! ### List access lemmas -/

theorem getD_last_eq (l : List Nat) (tp : Nat) (h : l.getLast? = some tp) :
    l.getD (l.length - 1) 0 = tp := by
  induction l with
  | nil => simp at h
  | cons a l ih =>
    cases l with
    | nil => simp_all
    | cons b m =>
      rw [List.getLast?_cons_cons] at h
      have := ih h
      simpa using this

theorem nodup_getD_inj (l : List Nat) (hnd : l.Nodup) (i j : Nat)
    (hi : i < l.length) (hj : j < l.length)
    (he : l.getD i 0 = l.getD j 0) : i = j := by
  rw [List.getD_eq_getElem l 0 hi, List.getD_eq_getElem l 0 hj] at he
  exact hnd.getElem_inj_iff.mp he

theorem mem_of_getD (l : List Nat) (i : Nat) (hi : i < l.length) :
    l.getD i 0 ∈ l := by
  rw [List.getD_eq_getElem l 0 hi]
  exact List.getElem_mem hi

/-! ### Chain lemmas -/

theorem isChain_shape {pg : Nat → FLPage} {p : Nat} {l : List Nat}
    (h : IsChain pg p l) : ∃ t, l = p :: t := by
  cases h with
  | single => exact ⟨[], rfl⟩
  | cons p q hn hc => exact ⟨_, rfl⟩

theorem isChain_congr {pg pg2 : Nat → FLPage} {p : Nat} {l : List Nat}
    (h : IsChain pg p l)
    (hsame : ∀ x ∈ l.dropLast, (pg2 x).next = (pg x).next) :
    IsChain pg2 p l := by
  induction h with
  | single p => exact .single p
  | cons p q hn hc ih =>
    obtain ⟨t, rfl⟩ := isChain_shape hc
    refine .cons p q ?_ (ih ?_)
    · rw [hsame p (by simp), hn]
    · intro x hx
      exact hsame x (by simp_all)

theorem isChain_append {pg : Nat → FLPage} {p tp newp : Nat} {l : List Nat}
    (h : IsChain pg p l) (hl : l.getLast? = some tp)
    (hn : (pg tp).next = newp) :
    IsChain pg p (l ++ [newp]) := by
  induction h with
  | single p =>
    simp only [List.getLast?_singleton, Option.some_inj] at hl
    subst hl
    exact .cons p newp hn (.single newp)
  | cons p q hnx hc ih =>
    obtain ⟨t, rfl⟩ := isChain_shape hc
    rw [List.getLast?_cons_cons] at hl
    exact .cons p q hnx (ih hl)

theorem isChain_tail {pg : Nat → FLPage} {p : Nat} {l : List Nat}
    (h : IsChain pg p (p :: l)) (hne : l ≠ []) :
    (pg p).next = l.headD 0 ∧ IsChain pg (l.headD 0) l := by
  cases h with
  | single => exact absurd rfl hne
  | cons p q hn hc =>
    obtain ⟨t, rfl⟩ := isChain_shape hc
    exact ⟨by simpa using hn, by simpa using hc⟩

theorem chainWalk_of_isChain {pg : Nat → FLPage} {p : Nat} {l : List Nat}
    (h : IsChain pg p l) : chainWalk pg p (l.length - 1) = l := by
  induction h with
  | single p => rfl
  | cons p q hn hc ih =>
    obtain ⟨t, rfl⟩ := isChain_shape hc
    show chainWalk pg p (t.length + 1) = p :: q :: t
    rw [chainWalk, hn]
    simpa using ih

/-! ### slotAt and translation lemmas -/

theorem slotAt_congr_base (pg : Nat → FLPage) (ps : List Nat) (b1 b2 q : Nat)
    (h : b1 / FLCap = b2 / FLCap) :
    slotAt pg ps b1 q = slotAt pg ps b2 q := by
  rw [slotAt, slotAt, h]

theorem slotAt_head (pg : Nat → FLPage) (hp : Nat) (t : List Nat) (hs : Nat) :
    slotAt pg (hp :: t) hs hs = (pg hp).slots (seq2idx hs) := by
  rw [slotAt, Nat.sub_self, List.getD_cons_zero]

theorem slotAt_tail (pg : Nat → FLPage) (hp : Nat) (t : List Nat) (hs q : Nat)
    (hc : seq2idx (hs + 1) = 0) (hq : hs + 1 ≤ q) :
    slotAt pg t (hs + 1) q = slotAt pg (hp :: t) hs q := by
  rw [slotAt, slotAt, succ_div_of_idx_eq hs hc]
  have hle : (hs + 1) / FLCap ≤ q / FLCap := Nat.div_le_div_right hq
  rw [succ_div_of_idx_eq hs hc] at hle
  have h1 : q / FLCap - hs / FLCap = (q / FLCap - (hs / FLCap + 1)) + 1 := by omega
  rw [h1, List.getD_cons_succ]

theorem nodup_last_not_dropLast (l : List Nat) (tp : Nat)
    (hnd : l.Nodup) (hl : l.getLast? = some tp) : tp ∉ l.dropLast := by
  intro hmem
  have hne : l ≠ [] := by rintro rfl; simp at hl
  have hgl : l.getLast hne = tp := by
    have := l.getLast?_eq_getLast hne
    rw [hl] at this
    exact (Option.some_inj.mp this).symm
  have hsplit : l.dropLast ++ [l.getLast hne] = l := List.dropLast_append_getLast hne
  rw [← hsplit] at hnd
  rw [List.nodup_append] at hnd
  exact hnd.2.2 hmem (by simp [hgl])

theorem flCheck_of_inv {s : FLState} {T W : Nat} {ps : List Nat}
    (h : FLInv s T W ps) : flCheck s := by
  obtain ⟨t, hshape⟩ := isChain_shape h.chain
  have hpmem : s.headPage ∈ ps := by rw [hshape]; exact List.mem_cons_self _ _
  have hlen1 : 1 ≤ ps.length := by rw [h.hlen]; omega
  have tpmem : s.tailPage ∈ ps := by
    have := getD_last_eq ps s.tailPage h.hlast
    rw [← this]
    exact mem_of_getD ps (ps.length - 1) (by omega)
  refine ⟨⟨h.hnz _ hpmem, h.hnz _ tpmem⟩, ?_⟩
  by_cases he : s.headSeq = s.tailSeq
  · right
    have hm1 := h.hm1
    have hm2 := h.hm2
    have hTW := h.hTW
    have hWt := h.hWt
    have hTeq : T = s.headSeq := by omega
    have hlen2 : ps.length = 1 := by rw [h.hlen, hTeq]; omega
    rw [hshape] at hlen2
    simp at hlen2
    rw [hlen2] at hshape
    rw [hshape] at h
    have := h.hlast
    simpa using this
  · left
    exact he

theorem flNodes_eq {s : FLState} {ps : List Nat}
    (h : FLInv s s.tailSeq s.tailSeq ps) : flNodes s = ps := by
  have hw := chainWalk_of_isChain h.chain
  have hl : s.tailSeq / FLCap - s.headSeq / FLCap = ps.length - 1 := by
    rw [h.hlen]; omega
  rw [flNodes, hl, hw]

theorem flPending_eq {s : FLState} {ps : List Nat}
    (h : FLInv s s.tailSeq s.tailSeq ps) (x : Nat) :
    (x ∈ flPending s ↔ ∃ q, s.headSeq ≤ q ∧ q < s.tailSeq ∧
      slotAt s.pages ps s.headSeq q = x) := by
  rw [flPending]
  simp only [List.mem_map, List.mem_range]
  constructor
  · rintro ⟨i, hi, hx⟩
    refine ⟨s.headSeq + i, by omega, by omega, ?_⟩
    rw [← hx, slotOfPos, slotAt, flNodes_eq h]
  · rintro ⟨q, h1, h2, hx⟩
    refine ⟨q - s.headSeq, by omega, ?_⟩
    rw [slotOfPos, flNodes_eq h, show s.headSeq + (q - s.headSeq) = q by omega]
    rw [slotAt] at hx
    exact hx

theorem goodPtr_iff {s : FLState} {ps : List Nat}
    (h : FLInv s s.tailSeq s.tailSeq ps) (x : Nat) :
    goodPtr s x ↔ x ≠ 0 ∧ x ∉ ps ∧
      ∀ q, s.headSeq ≤ q → q < s.tailSeq →
        slotAt s.pages ps s.headSeq q ≠ x := by
  rw [goodPtr, flNodes_eq h]
  constructor
  · rintro ⟨h0, hn, hp⟩
    refine ⟨h0, hn, fun q hq1 hq2 hx => hp ?_⟩
    exact (flPending_eq h x).mpr ⟨q, hq1, hq2, hx⟩
  · rintro ⟨h0, hn, hp⟩
    refine ⟨h0, hn, fun hmem => ?_⟩
    obtain ⟨q, h1, h2, hx⟩ := (flPending_eq h x).mp hmem
    exact hp q h1 h2 hx

/-! ### flPop under the invariant -/

theorem flPop_empty {s : FLState} {T W : Nat} {ps : List Nat}
    (h : FLInv s T W ps) (he : s.headSeq = s.maxSeq) :
    flPop s = some (0, 0, s) := by
  unfold flPop
  rw [if_neg (by simpa using flCheck_of_inv h), if_pos he]

theorem flPop_val {s : FLState} {T W : Nat} {ps : List Nat}
    (h : FLInv s T W ps) (hne : s.headSeq ≠ s.maxSeq) :
    (s.pages s.headPage).slots (seq2idx s.headSeq) =
      slotAt s.pages ps s.headSeq s.headSeq ∧
    slotAt s.pages ps s.headSeq s.headSeq ≠ 0 ∧
    slotAt s.pages ps s.headSeq s.headSeq ∉ ps := by
  obtain ⟨t, hshape⟩ := isChain_shape h.chain
  have hlt : s.headSeq < W := by
    have := h.hm1
    have := h.hm2
    have := h.hTW
    omega
  have hpend := h.pend s.headSeq (le_refl _) hlt
  refine ⟨?_, hpend.1, hpend.2⟩
  rw [hshape, slotAt_head]

theorem flPop_nocross {s : FLState} {T W : Nat} {ps : List Nat}
    (h : FLInv s T W ps) (hne : s.headSeq ≠ s.maxSeq)
    (hnc : seq2idx (s.headSeq + 1) ≠ 0) :
    flPop s = some ((s.pages s.headPage).slots (seq2idx s.headSeq), 0,
      { s with headSeq := s.headSeq + 1 }) ∧
    FLInv { s with headSeq := s.headSeq + 1 } T W ps := by
  have hdiv := succ_div_of_idx_ne s.headSeq hnc
  have hm1 := h.hm1
  constructor
  · unfold flPop
    rw [if_neg (by simpa using flCheck_of_inv h), if_neg hne]
    simp only [if_neg hnc]
  · refine ⟨by simp only; omega, h.hm2, h.hTW, h.hWt, h.chain,
      by simp only; rw [h.hlen]; simp only [hdiv], h.hlast, h.hnz, h.hnd,
      ?_, ?_⟩
    · intro q hq1 hq2
      simp only at hq1 hq2 ⊢
      rw [slotAt_congr_base s.pages ps (s.headSeq + 1) s.headSeq q hdiv]
      exact h.pend q (by omega) hq2
    · intro q r hq1 hq2 hq3
      simp only at hq1 hq2 hq3 ⊢
      rw [slotAt_congr_base s.pages ps (s.headSeq + 1) s.headSeq q hdiv,
        slotAt_congr_base s.pages ps (s.headSeq + 1) s.headSeq r hdiv]
      exact h.pendD q r (by omega) hq2 hq3

theorem flPop_cross {s : FLState} {T W : Nat} {ps : List Nat}
    (h : FLInv s T W ps) (hne : s.headSeq ≠ s.maxSeq)
    (hc : seq2idx (s.headSeq + 1) = 0) :
    flPop s = some ((s.pages s.headPage).slots (seq2idx s.headSeq), s.headPage,
      { s with headSeq := s.headSeq + 1, headPage := ps.tail.headD 0 }) ∧
    FLInv { s with headSeq := s.headSeq + 1, headPage := ps.tail.headD 0 } T W
      ps.tail ∧
    s.headPage ∉ ps.tail ∧ s.headPage ∈ ps := by
  have hdiv := succ_div_of_idx_eq s.headSeq hc
  have hm1 := h.hm1
  have hm2 := h.hm2
  have hdle : (s.headSeq + 1) / FLCap ≤ T / FLCap :=
    Nat.div_le_div_right (by omega)
  rw [hdiv] at hdle
  have hlen2 : 2 ≤ ps.length := by rw [h.hlen]; omega
  obtain ⟨t, hshape⟩ := isChain_shape h.chain
  obtain ⟨p1, t2, hteq⟩ : ∃ p1 t2, t = p1 :: t2 := by
    cases t with
    | nil =>
      rw [hshape] at hlen2
      simp at hlen2
    | cons a b => exact ⟨a, b, rfl⟩
  rw [hteq] at hshape
  have hchain := h.chain
  rw [hshape] at hchain
  have htl := isChain_tail hchain (by simp)
  have hp1mem : p1 ∈ ps := by rw [hshape]; simp
  have hnext0 : (s.pages s.headPage).next = p1 := by simpa using htl.1
  have htail : ps.tail = p1 :: t2 := by simp [hshape]
  have hndps := h.hnd
  rw [hshape] at hndps
  have hhd : ps.tail.headD 0 = p1 := by rw [htail]; rfl
  have hcons : s.headPage :: ps.tail = ps := by rw [htail, hshape]
  have hnotin : s.headPage ∉ ps.tail := by
    rw [htail]
    exact (List.nodup_cons.mp hndps).1
  refine ⟨?_, ⟨?_, h.hm2, h.hTW, h.hWt, ?_, ?_, ?_, ?_, ?_, ?_, ?_⟩, hnotin, ?_⟩
  · unfold flPop
    rw [if_neg (by simpa using flCheck_of_inv h), if_neg hne]
    simp only [hc, if_pos, hnext0]
    rw [if_neg (h.hnz p1 hp1mem), hhd]
  · simp only
    omega
  · simp only [hhd, htail]
    simpa using htl.2
  · simp only [hhd, htail]
    have hl2 : (p1 :: t2).length = ps.length - 1 := by rw [hshape]; simp
    rw [hl2, h.hlen]
    simp only [hdiv]
    omega
  · simp only [htail]
    have := h.hlast
    rw [hshape, List.getLast?_cons_cons] at this
    exact this
  · intro p hp
    rw [htail] at hp
    refine h.hnz p ?_
    rw [hshape]
    exact List.mem_cons_of_mem _ hp
  · rw [htail]
    exact (List.nodup_cons.mp hndps).2
  · intro q hq1 hq2
    simp only at hq1 hq2 ⊢
    have heq : slotAt s.pages ps.tail (s.headSeq + 1) q =
        slotAt s.pages ps s.headSeq q := by
      rw [slotAt_tail s.pages s.headPage ps.tail s.headSeq q hc hq1, hcons]
    rw [heq]
    have hp := h.pend q (by omega) hq2
    exact ⟨hp.1, fun hmem => hp.2 (List.mem_of_mem_tail hmem)⟩
  · intro q r hq1 hq2 hq3
    simp only at hq1 hq2 hq3 ⊢
    have heq1 : slotAt s.pages ps.tail (s.headSeq + 1) q =
        slotAt s.pages ps s.headSeq q := by
      rw [slotAt_tail s.pages s.headPage ps.tail s.headSeq q hc hq1, hcons]
    have heq2 : slotAt s.pages ps.tail (s.headSeq + 1) r =
        slotAt s.pages ps s.headSeq r := by
      rw [slotAt_tail s.pages s.headPage ps.tail s.headSeq r hc (by omega), hcons]
    rw [heq1, heq2]
    exact h.pendD q r (by omega) hq2 hq3
  · rw [hshape]
    exact List.mem_cons_self _ _

/-! ### Field reductions for the state-updating helpers -/

theorem setSlot_tailSeq (s : FLState) (p i v : Nat) :
    (setSlot s p i v).tailSeq = s.tailSeq := rfl

theorem setSlot_headSeq (s : FLState) (p i v : Nat) :
    (setSlot s p i v).headSeq = s.headSeq := rfl

theorem setNext_tailPage (s : FLState) (p v : Nat) :
    (setNext s p v).tailPage = s.tailPage := rfl

theorem allocPage_tailPage (s : FLState) (f : Nat) :
    (allocPage s f).tailPage = s.tailPage := rfl

/-! ### PushTail building blocks -/

/-- Writing the pushed pointer into slot tail_seq mod cap of the tail page
    and advancing tail_seq preserves the invariant with the pending window
    extended by one; no previously pending slot is clobbered. -/
theorem pushtail_base {s : FLState} {ps : List Nat} {ptr : Nat}
    (h : FLInv s s.tailSeq s.tailSeq ps)
    (hp0 : ptr ≠ 0) (hpps : ptr ∉ ps)
    (hppend : ∀ q, s.headSeq ≤ q → q < s.tailSeq →
      slotAt s.pages ps s.headSeq q ≠ ptr) :
    FLInv { setSlot s s.tailPage (seq2idx s.tailSeq) ptr with
        tailSeq := s.tailSeq + 1 } s.tailSeq (s.tailSeq + 1) ps ∧
    (∀ q, s.headSeq ≤ q → q < s.tailSeq →
      slotAt (setSlot s s.tailPage (seq2idx s.tailSeq) ptr).pages ps
        s.headSeq q = slotAt s.pages ps s.headSeq q) ∧
    slotAt (setSlot s s.tailPage (seq2idx s.tailSeq) ptr).pages ps
      s.headSeq s.tailSeq = ptr := by
  have hlen1 : 1 ≤ ps.length := by rw [h.hlen]; omega
  have hlastD : ps.getD (ps.length - 1) 0 = s.tailPage :=
    getD_last_eq ps s.tailPage h.hlast
  have hpres : ∀ q, s.headSeq ≤ q → q < s.tailSeq →
      slotAt (setSlot s s.tailPage (seq2idx s.tailSeq) ptr).pages ps
        s.headSeq q = slotAt s.pages ps s.headSeq q := by
    intro q hq1 hq2
    rw [slotAt, slotAt, setSlot]
    have hdle : q / FLCap ≤ s.tailSeq / FLCap := Nat.div_le_div_right (by omega)
    have hdge : s.headSeq / FLCap ≤ q / FLCap := Nat.div_le_div_right hq1
    have hi : q / FLCap - s.headSeq / FLCap < ps.length := by rw [h.hlen]; omega
    by_cases hPT : ps.getD (q / FLCap - s.headSeq / FLCap) 0 = s.tailPage
    · have hieq : q / FLCap - s.headSeq / FLCap = ps.length - 1 :=
        nodup_getD_inj ps h.hnd _ _ hi (by omega) (by rw [hPT, hlastD])
      have hqd : q / FLCap = s.tailSeq / FLCap := by
        rw [h.hlen] at hieq
        omega
      have hmod : q % FLCap < s.tailSeq % FLCap := mod_lt_of_same_div q s.tailSeq hqd hq2
      simp only [hPT, if_pos, pageSetPtr, seq2idx]
      rw [if_neg (by omega)]
    · simp only [if_neg hPT]
  have hnew : slotAt (setSlot s s.tailPage (seq2idx s.tailSeq) ptr).pages ps
      s.headSeq s.tailSeq = ptr := by
    rw [slotAt, setSlot]
    have hieq : s.tailSeq / FLCap - s.headSeq / FLCap = ps.length - 1 := by
      rw [h.hlen]
      omega
    rw [hieq, hlastD]
    simp only [if_pos, pageSetPtr]
  refine ⟨⟨h.hm1, h.hm2, by omega, by simp only [setSlot_tailSeq]; omega, ?_,
      h.hlen, h.hlast, h.hnz, h.hnd, ?_, ?_⟩, hpres, hnew⟩
  · refine isChain_congr h.chain ?_
    intro x hx
    rw [setSlot]
    by_cases hxt : x = s.tailPage
    · simp only [hxt, if_pos, pageSetPtr]
    · simp only [if_neg hxt]
  · intro q hq1 hq2
    simp only [setSlot_headSeq, setSlot_tailSeq] at hq1 hq2 ⊢
    by_cases hq : q < s.tailSeq
    · rw [hpres q hq1 hq]
      exact h.pend q hq1 hq
    · have hqe : q = s.tailSeq := by omega
      rw [hqe, hnew]
      exact ⟨hp0, hpps⟩
  · intro q r hq1 hq2 hq3
    simp only [setSlot_headSeq, setSlot_tailSeq] at hq1 hq2 hq3 ⊢
    by_cases hr : r < s.tailSeq
    · rw [hpres q hq1 (by omega), hpres r (by omega) hr]
      exact h.pendD q r hq1 hq2 hr
    · have hre : r = s.tailSeq := by omega
      rw [hre, hnew, hpres q hq1 (by omega)]
      exact hppend q hq1 (by omega)

/-- A transient invariant whose window already covers the new slot becomes
    the full invariant when the advanced tail_seq stays in the same block. -/
theorem inv_finish {u : FLState} {T : Nat} {ps : List Nat}
    (h : FLInv u T (T + 1) ps) (hts : u.tailSeq = T + 1)
    (hnc : seq2idx (T + 1) ≠ 0) :
    FLInv u u.tailSeq u.tailSeq ps := by
  have hdiv := succ_div_of_idx_ne T hnc
  refine ⟨h.hm1, by have := h.hm2; omega, le_refl _, le_refl _, h.chain, ?_,
    h.hlast, h.hnz, h.hnd, ?_, ?_⟩
  · rw [h.hlen, hts, hdiv]
  · intro q hq1 hq2
    rw [hts] at hq2
    exact h.pend q hq1 hq2
  · intro q r hq1 hq2 hq3
    rw [hts] at hq3
    exact h.pendD q r hq1 hq2 hq3

theorem setNext_headPage (s : FLState) (p v : Nat) :
    (setNext s p v).headPage = s.headPage := rfl

theorem setNext_headSeq (s : FLState) (p v : Nat) :
    (setNext s p v).headSeq = s.headSeq := rfl

theorem setNext_tailSeq (s : FLState) (p v : Nat) :
    (setNext s p v).tailSeq = s.tailSeq := rfl

theorem setNext_maxSeq (s : FLState) (p v : Nat) :
    (setNext s p v).maxSeq = s.maxSeq := rfl

/-- Extending the chain by a new tail node page: the next pointer of the
    old tail is set to the (fresh or recycled) page newp, which becomes
    the tail page; the invariant window already covering T + 1 carries
    over to the extended chain. -/
theorem inv_append {u : FLState} (u2 : FLState) {T : Nat} {ps : List Nat}
    (newp : Nat) (h : FLInv u T (T + 1) ps)
    (hts : u.tailSeq = T + 1)
    (hcross : seq2idx (T + 1) = 0)
    (hpages : ∀ x, x ≠ newp → u2.pages x = u.pages x)
    (hhp : u2.headPage = u.headPage) (hhs : u2.headSeq = u.headSeq)
    (htp : u2.tailPage = u.tailPage) (hts2 : u2.tailSeq = u.tailSeq)
    (hms : u2.maxSeq = u.maxSeq)
    (hn0 : newp ≠ 0) (hnps : newp ∉ ps)
    (hnpend : ∀ q, u.headSeq ≤ q → q < T + 1 →
      slotAt u.pages ps u.headSeq q ≠ newp) :
    FLInv { setNext u2 u2.tailPage newp with tailPage := newp }
      (T + 1) (T + 1) (ps ++ [newp]) ∧
    ∀ q, u.headSeq ≤ q → q < T + 1 →
      slotAt (setNext u2 u2.tailPage newp).pages (ps ++ [newp]) u.headSeq q =
        slotAt u.pages ps u.headSeq q := by
  have hdiv := succ_div_of_idx_eq T hcross
  have hlen1 : 1 ≤ ps.length := by rw [h.hlen]; omega
  have hlastD : ps.getD (ps.length - 1) 0 = u.tailPage :=
    getD_last_eq ps u.tailPage h.hlast
  have htpmem : u.tailPage ∈ ps := by
    rw [← hlastD]
    exact mem_of_getD ps (ps.length - 1) (by omega)
  have htpne : u.tailPage ≠ newp := fun he => hnps (he ▸ htpmem)
  have hslotpres : ∀ P ∈ ps,
      ((setNext u2 u2.tailPage newp).pages P).slots = (u.pages P).slots := by
    intro P hP
    have hPn : P ≠ newp := fun he => hnps (he ▸ hP)
    rw [setNext]
    by_cases hPt : P = u2.tailPage
    · simp only [hPt, if_pos]
      rw [hpages u2.tailPage (htp ▸ htpne)]
    · simp only [if_neg hPt]
      rw [hpages P hPn]
  have hpres : ∀ q, u.headSeq ≤ q → q < T + 1 →
      slotAt (setNext u2 u2.tailPage newp).pages (ps ++ [newp]) u.headSeq q =
        slotAt u.pages ps u.headSeq q := by
    intro q hq1 hq2
    rw [slotAt, slotAt]
    have hdle : q / FLCap ≤ T / FLCap := Nat.div_le_div_right (by omega)
    have hi : q / FLCap - u.headSeq / FLCap < ps.length := by rw [h.hlen]; omega
    rw [List.getD_append _ _ _ _ hi]
    exact congrFun (hslotpres _ (mem_of_getD ps _ hi)) (seq2idx q)
  refine ⟨⟨?_, ?_, le_refl _, ?_, ?_, ?_, ?_, ?_, ?_, ?_, ?_⟩, hpres⟩
  · simp only [setNext_headSeq, setNext_maxSeq, hhs, hms]
    exact h.hm1
  · simp only [setNext_maxSeq, hms]
    have := h.hm2
    omega
  · simp only [setNext_tailSeq, hts2, hts]
    omega
  · simp only [setNext_headPage, hhp]
    refine isChain_append (isChain_congr h.chain ?_) h.hlast ?_
    · intro x hx
      have hxl : x ∈ ps := List.dropLast_subset _ hx
      have hxn : x ≠ newp := fun he => hnps (he ▸ hxl)
      have hxt : x ≠ u.tailPage :=
        fun he => nodup_last_not_dropLast ps u.tailPage h.hnd h.hlast (he ▸ hx)
      rw [setNext]
      simp only [if_neg (htp ▸ hxt)]
      rw [hpages x hxn]
    · rw [setNext]
      simp only [htp, if_pos]
  · simp only [setNext_headSeq, hhs]
    rw [List.length_append, h.hlen, hdiv]
    have hmono : u.headSeq / FLCap ≤ T / FLCap :=
      Nat.div_le_div_right (le_trans h.hm1 h.hm2)
    simp only [List.length_singleton]
    omega
  · simp only []
    rw [List.getLast?_concat]
  · intro p hp
    rw [List.mem_append] at hp
    rcases hp with hp | hp
    · exact h.hnz p hp
    · simp at hp
      rw [hp]
      exact hn0
  · rw [List.nodup_append]
    exact ⟨h.hnd, List.nodup_singleton _, by simpa using fun he => hnps he⟩
  · intro q hq1 hq2
    simp only [setNext_headSeq, hhs] at hq1 hq2 ⊢
    rw [hpres q hq1 hq2]
    have hp := h.pend q hq1 hq2
    refine ⟨hp.1, ?_⟩
    rw [List.mem_append]
    rintro (hm | hm)
    · exact hp.2 hm
    · simp at hm
      exact hnpend q hq1 hq2 hm
  · intro q r hq1 hq2 hq3
    simp only [setNext_headSeq, hhs] at hq1 hq2 hq3 ⊢
    rw [hpres q hq1 (by omega), hpres r (by omega) hq3]
    exact h.pendD q r hq1 hq2 hq3

theorem idx_succ_ne (x : Nat) (h : seq2idx (x + 1) = 0) :
    seq2idx (x + 2) ≠ 0 := by
  rw [seq2idx, flcap_eq] at h ⊢
  omega

theorem PushTail_spec {s : FLState} {ps : List Nat} {ptr fresh : Nat}
    (h : FLInv s s.tailSeq s.tailSeq ps)
    (hp0 : ptr ≠ 0) (hpps : ptr ∉ ps)
    (hppend : ∀ q, s.headSeq ≤ q → q < s.tailSeq →
      slotAt s.pages ps s.headSeq q ≠ ptr)
    (hf0 : fresh ≠ 0) (hfps : fresh ∉ ps)
    (hfpend : ∀ q, s.headSeq ≤ q → q < s.tailSeq →
      slotAt s.pages ps s.headSeq q ≠ fresh)
    (hpf : ptr ≠ fresh) :
    ∃ s1, PushTail s ptr fresh = some s1 ∧ FLGood s1 ∧
      s1.maxSeq = s.maxSeq ∧
      (s1.headSeq = s.headSeq ∨
        (s1.headSeq = s.headSeq + 1 ∧ s.headSeq < s.maxSeq)) := by
  obtain ⟨hbase, hpres, hnew⟩ := pushtail_base h hp0 hpps hppend
  set s2 : FLState := { setSlot s s.tailPage (seq2idx s.tailSeq) ptr with
    tailSeq := s.tailSeq + 1 } with hs2def
  have hPT : PushTail s ptr fresh =
      (if seq2idx s2.tailSeq = 0 then
        match flPop s2 with
        | none => none
        | some (nxt, head, s3) =>
          let ns := if nxt = 0 then (fresh, allocPage s3 fresh) else (nxt, s3)
          let s5 := setNext ns.2 ns.2.tailPage ns.1
          let s6 := { s5 with tailPage := ns.1 }
          if head = 0 then some s6
          else some { setSlot s6 s6.tailPage 0 head with tailSeq := s6.tailSeq + 1 }
      else some s2) := rfl
  by_cases hcr : seq2idx (s.tailSeq + 1) = 0
  · by_cases hhe : s.headSeq = s.maxSeq
    · have hflp : flPop s2 = some (0, 0, s2) := flPop_empty hbase hhe
      obtain ⟨hinv, hpresA⟩ := inv_append (allocPage s2 fresh) fresh hbase rfl hcr
        (by
          intro x hx
          rw [allocPage]
          simp only [if_neg hx])
        rfl rfl rfl rfl rfl hf0 hfps
        (by
          intro q hq1 hq2
          simp only [hs2def, setSlot_headSeq] at hq1 hq2 ⊢
          by_cases hq : q < s.tailSeq
          · rw [hpres q hq1 hq]
            exact hfpend q hq1 hq
          · have hqe : q = s.tailSeq := by omega
            rw [hqe, hnew]
            exact hpf)
      refine ⟨_, ?_, ⟨ps ++ [fresh], hinv⟩, rfl, Or.inl rfl⟩
      rw [hPT, if_pos hcr, hflp]
      rfl
    · have hne : ¬ s2.headSeq = s2.maxSeq := hhe
      have hhslt : s.headSeq < s.tailSeq := by
        have := h.hm1
        have := h.hm2
        omega
      obtain ⟨hveq0, hv0, hvps⟩ := flPop_val hbase hne
      have hsl2 : slotAt s2.pages ps s2.headSeq s2.headSeq =
          slotAt s.pages ps s.headSeq s.headSeq :=
        hpres s.headSeq (le_refl _) hhslt
      set w : Nat := (s2.pages s2.headPage).slots (seq2idx s2.headSeq)
        with hwdef
      have hweq : w = slotAt s.pages ps s.headSeq s.headSeq := hveq0.trans hsl2
      have hw0 : w ≠ 0 := by
        rw [hveq0]
        exact hv0
      have hwps : w ∉ ps := by
        rw [hveq0]
        exact hvps
      by_cases hc2 : seq2idx (s.headSeq + 1) = 0
      · obtain ⟨hfl_eq, hinv2c, hnotin, hhpmem⟩ := flPop_cross hbase hne hc2
        set s2c : FLState := ({ s2 with headSeq := s2.headSeq + 1, headPage := ps.tail.headD 0 } : FLState) with hs2cdef
        obtain ⟨t0, hshape⟩ := isChain_shape h.chain
        have hcons : s.headPage :: ps.tail = ps := by
          rw [hshape]
          rfl
        have hhp0 : s.headPage ≠ 0 := by
          refine h.hnz _ ?_
          rw [hshape]
          exact List.mem_cons_self _ _
        have hwtail : w ∉ ps.tail := by
          intro hm
          refine hwps ?_
          rw [← hcons]
          exact List.mem_cons_of_mem _ hm
        obtain ⟨hinv, hpresA⟩ := inv_append s2c w hinv2c rfl hcr (fun x hx => rfl) rfl rfl rfl rfl rfl hw0 hwtail
          (by
            intro q hq1 hq2
            simp only [hs2cdef, hs2def, setSlot_headSeq] at hq1 hq2 ⊢
            rw [hweq]
            have hcb := slotAt_tail (setSlot s s.tailPage (seq2idx s.tailSeq)
              ptr).pages s.headPage ps.tail s.headSeq q hc2 hq1
            rw [hcons] at hcb
            rw [hcb]
            by_cases hq : q < s.tailSeq
            · rw [hpres q (by omega) hq]
              intro he
              exact h.pendD s.headSeq q (le_refl _) (by omega) hq he.symm
            · have hqe : q = s.tailSeq := by omega
              rw [hqe, hnew]
              intro he
              exact hppend s.headSeq (le_refl _) hhslt he.symm)
        obtain ⟨hbase2, hpres2, hnew2⟩ := pushtail_base hinv hhp0
          (by
            rw [List.mem_append]
            rintro (hm | hm)
            · exact hnotin hm
            · simp only [List.mem_singleton] at hm
              refine hwps ?_
              rw [← hm]
              exact hhpmem)
          (by
            intro q hq1 hq2
            have hq1c : s2c.headSeq ≤ q := hq1
            have hq2c : q < s.tailSeq + 1 := hq2
            show slotAt (setNext s2c s2c.tailPage w).pages (ps.tail ++ [w])
              s2c.headSeq q ≠ s.headPage
            rw [hpresA q hq1c hq2c]
            have hq1d : s.headSeq + 1 ≤ q := hq1
            show slotAt (setSlot s s.tailPage (seq2idx s.tailSeq) ptr).pages
              ps.tail (s.headSeq + 1) q ≠ s.headPage
            have hcb := slotAt_tail (setSlot s s.tailPage (seq2idx s.tailSeq)
              ptr).pages s.headPage ps.tail s.headSeq q hc2 hq1d
            rw [hcons] at hcb
            rw [hcb]
            by_cases hq : q < s.tailSeq
            · rw [hpres q (by omega) hq]
              intro he
              refine (h.pend q (by omega) hq).2 ?_
              rw [he]
              exact hhpmem
            · have hqe : q = s.tailSeq := by omega
              rw [hqe, hnew]
              intro he
              refine hpps ?_
              rw [he]
              exact hhpmem)
        have hrec : setSlot { setNext s2c s2c.tailPage w with tailPage := w }
            ({ setNext s2c s2c.tailPage w with tailPage := w } : FLState).tailPage
            (seq2idx ({ setNext s2c s2c.tailPage w with
              tailPage := w } : FLState).tailSeq) s.headPage =
            setSlot { setNext s2c s2c.tailPage w with tailPage := w }
            ({ setNext s2c s2c.tailPage w with tailPage := w } : FLState).tailPage
            0 s.headPage := by
          rw [show seq2idx ({ setNext s2c s2c.tailPage w with
            tailPage := w } : FLState).tailSeq = 0 from hcr]
        have hgood : FLGood { setSlot
            { setNext s2c s2c.tailPage w with tailPage := w }
            ({ setNext s2c s2c.tailPage w with tailPage := w } : FLState).tailPage
            0 s.headPage with
            tailSeq := ({ setNext s2c s2c.tailPage w with
              tailPage := w } : FLState).tailSeq + 1 } := by
          rw [← hrec]
          exact ⟨ps.tail ++ [w], inv_finish hbase2 rfl (idx_succ_ne s.tailSeq hcr)⟩
        refine ⟨_, ?_, hgood, rfl, Or.inr ⟨rfl, by have := h.hm1; omega⟩⟩
        rw [hPT, if_pos hcr, hfl_eq]
        simp only [if_neg hw0, if_neg (show ¬ (setSlot s s.tailPage
          (seq2idx s.tailSeq) ptr).headPage = 0 from hhp0)]
        rfl
      · obtain ⟨hfl_eq, hinv2⟩ := flPop_nocross hbase hne hc2
        have hdivh := succ_div_of_idx_ne s.headSeq hc2
        obtain ⟨hinv, hpresA⟩ := inv_append { s2 with headSeq := s2.headSeq + 1 }
          w hinv2 rfl hcr
          (fun x hx => rfl) rfl rfl rfl rfl rfl hw0 hwps
          (by
            intro q hq1 hq2
            simp only [hs2def, setSlot_headSeq] at hq1 hq2 ⊢
            rw [hweq]
            have hcb : slotAt (setSlot s s.tailPage (seq2idx s.tailSeq)
                ptr).pages ps (s.headSeq + 1) q =
                slotAt (setSlot s s.tailPage (seq2idx s.tailSeq)
                  ptr).pages ps s.headSeq q :=
              slotAt_congr_base _ _ _ _ _ hdivh
            rw [hcb]
            by_cases hq : q < s.tailSeq
            · rw [hpres q (by omega) hq]
              intro he
              exact h.pendD s.headSeq q (le_refl _) (by omega) hq he.symm
            · have hqe : q = s.tailSeq := by omega
              rw [hqe, hnew]
              intro he
              exact hppend s.headSeq (le_refl _) hhslt he.symm)
        refine ⟨_, ?_, ⟨ps ++ [w], hinv⟩, rfl,
          Or.inr ⟨rfl, by have := h.hm1; omega⟩⟩
        rw [hPT, if_pos hcr, hfl_eq]
        simp only [if_neg hw0]
        rfl
  · refine ⟨s2, ?_, ⟨ps, inv_finish hbase rfl hcr⟩, rfl, Or.inl rfl⟩
    rw [hPT, if_neg hcr]

theorem PopHead_spec {s : FLState} {ps : List Nat} {fresh : Nat}
    (h : FLInv s s.tailSeq s.tailSeq ps)
    (hf0 : fresh ≠ 0) (hfps : fresh ∉ ps)
    (hfpend : ∀ q, s.headSeq ≤ q → q < s.tailSeq →
      slotAt s.pages ps s.headSeq q ≠ fresh) :
    ∃ v s1, PopHead s fresh = some (v, s1) ∧ FLGood s1 ∧
      s1.maxSeq = s.maxSeq ∧
      (s.headSeq = s.maxSeq → v = 0 ∧ s1 = s) ∧
      (s.headSeq ≠ s.maxSeq →
        v = (s.pages s.headPage).slots (seq2idx s.headSeq) ∧ v ≠ 0 ∧
        s.headSeq < s1.headSeq ∧ s1.headSeq ≤ s.maxSeq ∧
        (s1.headSeq = s.headSeq + 1 ∨ s1.headSeq = s.headSeq + 2)) := by
  have hm1 := h.hm1
  by_cases hhe : s.headSeq = s.maxSeq
  · refine ⟨0, s, ?_, ⟨ps, h⟩, rfl, fun _ => ⟨rfl, rfl⟩,
      fun hne => absurd hhe hne⟩
    unfold PopHead
    rw [flPop_empty h hhe]
    rfl
  · obtain ⟨hveq0, hv0, hvps⟩ := flPop_val h hhe
    by_cases hc2 : seq2idx (s.headSeq + 1) = 0
    · obtain ⟨heq, hinv1c, hnotin, hmem⟩ := flPop_cross h hhe hc2
      obtain ⟨t0, hshape⟩ := isChain_shape h.chain
      have hcons : s.headPage :: ps.tail = ps := by
        rw [hshape]
        rfl
      have hhp0 : s.headPage ≠ 0 := h.hnz _ (by
        rw [hshape]
        exact List.mem_cons_self _ _)
      have hpf : s.headPage ≠ fresh := fun he => hfps (he ▸ hmem)
      obtain ⟨s2f, hPTeq, hgood2, hms2, hhs2⟩ := PushTail_spec
        hinv1c hhp0 hnotin
        (by
          intro q hq1 hq2
          simp only at hq1 hq2 ⊢
          have hcb := slotAt_tail s.pages s.headPage ps.tail s.headSeq q
            hc2 hq1
          rw [hcons] at hcb
          rw [hcb]
          intro he
          refine (h.pend q (by omega) hq2).2 ?_
          rw [he]
          exact hmem)
        hf0
        (fun hm => hfps (List.mem_of_mem_tail hm))
        (by
          intro q hq1 hq2
          simp only at hq1 hq2 ⊢
          have hcb := slotAt_tail s.pages s.headPage ps.tail s.headSeq q
            hc2 hq1
          rw [hcons] at hcb
          rw [hcb]
          exact hfpend q (by omega) hq2)
        hpf
      have hm1c : s.headSeq + 1 ≤ s.maxSeq := by omega
      refine ⟨(s.pages s.headPage).slots (seq2idx s.headSeq), s2f, ?_,
        hgood2, hms2, fun he => absurd he hhe, fun hne2 =>
        ⟨rfl, by rw [hveq0]; exact hv0, ?_, ?_, ?_⟩⟩
      · unfold PopHead
        rw [heq]
        simp only [if_neg hhp0]
        rw [hPTeq]
      · rcases hhs2 with he1 | ⟨he1, _⟩ <;> rw [he1] <;> simp only <;> omega
      · rcases hhs2 with he1 | ⟨he1, hlt⟩
        · rw [he1]
          exact hm1c
        · rw [he1]
          simp only at hlt ⊢
          omega
      · rcases hhs2 with he1 | ⟨he1, _⟩
        · exact Or.inl he1
        · exact Or.inr (by rw [he1])
    · obtain ⟨heq, hinv1⟩ := flPop_nocross h hhe hc2
      refine ⟨(s.pages s.headPage).slots (seq2idx s.headSeq),
        { s with headSeq := s.headSeq + 1 }, ?_, ⟨ps, hinv1⟩, rfl,
        fun he => absurd he hhe, fun hne2 =>
        ⟨rfl, by rw [hveq0]; exact hv0, by simp only; omega,
          by simp only; omega, Or.inl rfl⟩⟩
      unfold PopHead
      rw [heq]
      rfl

theorem flReach_inv {s : FLState} (hr : FLReach s) : FLGood s := by
  induction hr with
  | init pg p0 hp =>
    refine ⟨[p0], le_refl _, le_refl _, le_refl _, le_refl _, .single p0,
      ?_, rfl, ?_, List.nodup_singleton _, ?_, ?_⟩
    · simp
    · intro p hp2
      simp only [List.mem_singleton] at hp2
      rw [hp2]
      exact hp
    · intro q hq1 hq2
      simp only at hq1 hq2
      omega
    · intro q r hq1 hq2 hq3
      simp only at hq1 hq3
      omega
  | push ptr fresh hr hgp hgf hpf heq ih =>
    obtain ⟨ps, hinv⟩ := ih
    rw [goodPtr_iff hinv] at hgp hgf
    obtain ⟨s1, heq2, hgood, _, _⟩ := PushTail_spec hinv hgp.1 hgp.2.1
      hgp.2.2 hgf.1 hgf.2.1 hgf.2.2 hpf
    rw [heq] at heq2
    obtain rfl := Option.some_inj.mp heq2.symm
    exact hgood
  | pop fresh hr hgf heq ih =>
    obtain ⟨ps, hinv⟩ := ih
    rw [goodPtr_iff hinv] at hgf
    obtain ⟨v, s1, heq2, hgood, _, _, _⟩ := PopHead_spec hinv hgf.1
      hgf.2.1 hgf.2.2
    rw [heq] at heq2
    obtain ⟨rfl, rfl⟩ := Prod.mk.injEq _ _ _ _ ▸ Option.some_inj.mp heq2.symm
    exact hgood
  | smax hr ih =>
    obtain ⟨ps, hinv⟩ := ih
    have hm1 := hinv.hm1
    have hm2 := hinv.hm2
    refine ⟨ps, ?_, le_refl _, le_refl _, le_refl _, hinv.chain, hinv.hlen,
      hinv.hlast, hinv.hnz, hinv.hnd, hinv.pend, hinv.pendD⟩
    simp only [SetMaxSeq]
    omega

theorem c8_queue_invariant (s : FLState) (hr : FLReach s) :
    s.headPage ≠ 0 ∧ s.tailPage ≠ 0 ∧
      (s.headSeq = s.tailSeq → s.headPage = s.tailPage) := by
  obtain ⟨ps, hinv⟩ := flReach_inv hr
  have hc := flCheck_of_inv hinv
  exact ⟨hc.1.1, hc.1.2,
    fun he => hc.2.resolve_left (not_not_intro he)⟩

theorem c8_queue_invariant_witness :
    (⟨fun _ => ⟨0, fun _ => 0⟩, 1, 0, 1, 0, 0⟩ : FLState).headPage ≠ 0 ∧
    (⟨fun _ => ⟨0, fun _ => 0⟩, 1, 0, 1, 0, 0⟩ : FLState).tailPage ≠ 0 ∧
    ((⟨fun _ => ⟨0, fun _ => 0⟩, 1, 0, 1, 0, 0⟩ : FLState).headSeq =
        (⟨fun _ => ⟨0, fun _ => 0⟩, 1, 0, 1, 0, 0⟩ : FLState).tailSeq →
      (⟨fun _ => ⟨0, fun _ => 0⟩, 1, 0, 1, 0, 0⟩ : FLState).headPage =
        (⟨fun _ => ⟨0, fun _ => 0⟩, 1, 0, 1, 0, 0⟩ : FLState).tailPage) :=
  c8_queue_invariant _ (.init (fun _ => ⟨0, fun _ => 0⟩) 1 (by decide))

theorem c7_pophead_spec (s : FLState) (fresh : Nat) (hr : FLReach s)
    (hgf : goodPtr s fresh) :
    ∃ v s1, PopHead s fresh = some (v, s1) ∧
      (v = 0 ↔ s.headSeq = s.maxSeq) ∧
      (s.headSeq = s.maxSeq → s1 = s) ∧
      (s.headSeq ≠ s.maxSeq →
        v = (s.pages s.headPage).slots (seq2idx s.headSeq) ∧
        s.headSeq < s1.headSeq ∧ s1.headSeq ≤ s.maxSeq ∧
        (s1.headSeq = s.headSeq + 1 ∨ s1.headSeq = s.headSeq + 2) ∧
        s1.maxSeq = s.maxSeq) := by
  obtain ⟨ps, hinv⟩ := flReach_inv hr
  rw [goodPtr_iff hinv] at hgf
  obtain ⟨v, s1, heq, hgood, hms, hemp, hpop⟩ := PopHead_spec hinv hgf.1
    hgf.2.1 hgf.2.2
  refine ⟨v, s1, heq, ⟨?_, fun he => (hemp he).1⟩,
    fun he => (hemp he).2, fun hne => ?_⟩
  · intro hv0
    by_contra hne
    obtain ⟨_, hvne, _⟩ := hpop hne
    exact hvne hv0
  · obtain ⟨hveq, hvne, hlt, hle, hdisj⟩ := hpop hne
    exact ⟨hveq, hlt, hle, hdisj, hms⟩

theorem c7_pophead_spec_witness :
    ∃ v s1, PopHead (⟨fun _ => ⟨0, fun _ => 0⟩, 1, 0, 1, 0, 0⟩ : FLState) 5 =
        some (v, s1) ∧
      (v = 0 ↔ (⟨fun _ => ⟨0, fun _ => 0⟩, 1, 0, 1, 0, 0⟩ : FLState).headSeq =
        (⟨fun _ => ⟨0, fun _ => 0⟩, 1, 0, 1, 0, 0⟩ : FLState).maxSeq) ∧
      ((⟨fun _ => ⟨0, fun _ => 0⟩, 1, 0, 1, 0, 0⟩ : FLState).headSeq =
          (⟨fun _ => ⟨0, fun _ => 0⟩, 1, 0, 1, 0, 0⟩ : FLState).maxSeq →
        s1 = (⟨fun _ => ⟨0, fun _ => 0⟩, 1, 0, 1, 0, 0⟩ : FLState)) ∧
      ((⟨fun _ => ⟨0, fun _ => 0⟩, 1, 0, 1, 0, 0⟩ : FLState).headSeq ≠
          (⟨fun _ => ⟨0, fun _ => 0⟩, 1, 0, 1, 0, 0⟩ : FLState).maxSeq →
        v = ((⟨fun _ => ⟨0, fun _ => 0⟩, 1, 0, 1, 0, 0⟩ : FLState).pages
            (⟨fun _ => ⟨0, fun _ => 0⟩, 1, 0, 1, 0, 0⟩ : FLState).headPage).slots
            (seq2idx (⟨fun _ => ⟨0, fun _ => 0⟩, 1, 0, 1, 0, 0⟩ :
              FLState).headSeq) ∧
        (⟨fun _ => ⟨0, fun _ => 0⟩, 1, 0, 1, 0, 0⟩ : FLState).headSeq <
          s1.headSeq ∧
        s1.headSeq ≤ (⟨fun _ => ⟨0, fun _ => 0⟩, 1, 0, 1, 0, 0⟩ :
          FLState).maxSeq ∧
        (s1.headSeq = (⟨fun _ => ⟨0, fun _ => 0⟩, 1, 0, 1, 0, 0⟩ :
            FLState).headSeq + 1 ∨
          s1.headSeq = (⟨fun _ => ⟨0, fun _ => 0⟩, 1, 0, 1, 0, 0⟩ :
            FLState).headSeq + 2) ∧
        s1.maxSeq = (⟨fun _ => ⟨0, fun _ => 0⟩, 1, 0, 1, 0, 0⟩ :
          FLState).maxSeq) :=
  c7_pophead_spec _ 5 (.init (fun _ => ⟨0, fun _ => 0⟩) 1 (by decide))
    (by
      refine ⟨by decide, ?_, ?_⟩
      · show 5 ∉ flNodes _
        rw [flNodes]
        simp [chainWalk]
      · show 5 ∉ flPending _
        rw [flPending]
        simp)

/-! ## The concrete free-list trace: push, SetMaxSeq, pop lemmas and the
    C7 counterexample -/

theorem fst_pair (a : Nat) (s : FLState) : (Prod.mk a s).1 = a := rfl

theorem snd_pair (a : Nat) (s : FLState) : (Prod.mk a s).2 = s := rfl

theorem next_ite (c : Prop) [Decidable c] (a b : FLPage) :
    (if c then a else b).next = if c then a.next else b.next := by
  split_ifs <;> rfl

theorem slots_ite (c : Prop) [Decidable c] (a b : FLPage) (j : Nat) :
    (if c then a else b).slots j = if c then a.slots j else b.slots j := by
  split_ifs <;> rfl

theorem flpage_ext (a b : FLPage) (hn : a.next = b.next)
    (hs : ∀ j, a.slots j = b.slots j) : a = b := by
  cases a
  cases b
  simp only at hn hs
  simp only [FLPage.mk.injEq]
  exact ⟨hn, funext hs⟩

theorem flstate_ext (a b : FLState) (hpg : ∀ q, a.pages q = b.pages q)
    (h1 : a.headPage = b.headPage) (h2 : a.headSeq = b.headSeq)
    (h3 : a.tailPage = b.tailPage) (h4 : a.tailSeq = b.tailSeq)
    (h5 : a.maxSeq = b.maxSeq) : a = b := by
  cases a
  cases b
  simp only at hpg h1 h2 h3 h4 h5
  simp only [FLState.mk.injEq]
  exact ⟨funext hpg, h1, h2, h3, h4, h5⟩

theorem flPushed_step (n : Nat) (hn : n < 1021) (hne : n ≠ 510) :
    PushTail (flPushed n) (10 + n) (2000 + n) = some (flPushed (n + 1)) := by
  have hcr : ¬ seq2idx ((flPushed n).tailSeq + 1) = 0 := by
    show ¬ seq2idx (n + 1) = 0
    rw [seq2idx, flcap_eq]
    omega
  unfold PushTail
  rw [if_neg (by simpa using hcr)]
  refine congrArg some (flstate_ext _ _ ?_ rfl rfl ?_ rfl rfl)
  · intro q
    refine flpage_ext _ _ ?_ ?_
    · simp only [flPushed, setSlot, pageSetPtr, flZeroPage, next_ite,
        seq2idx, flcap_eq]
      split_ifs <;> omega
    · intro j
      simp only [flPushed, setSlot, pageSetPtr, flZeroPage, next_ite,
        slots_ite, seq2idx, flcap_eq]
      split_ifs <;> omega
  · simp only [flPushed, setSlot]
    split_ifs <;> omega

set_option maxRecDepth 8000 in
theorem flPushed_crossing :
    PushTail (flPushed 510) 520 2510 = some (flPushed 511) := by
  have hck : flCheck { setSlot (flPushed 510) (flPushed 510).tailPage
      (seq2idx (flPushed 510).tailSeq) 520 with tailSeq := 511 } := by
    refine ⟨⟨?_, ?_⟩, ?_⟩ <;>
      simp [setSlot, flPushed]
  have hflp : flPop { setSlot (flPushed 510) (flPushed 510).tailPage
      (seq2idx (flPushed 510).tailSeq) 520 with tailSeq := 511 } =
      some (0, 0, { setSlot (flPushed 510) (flPushed 510).tailPage
        (seq2idx (flPushed 510).tailSeq) 520 with tailSeq := 511 }) := by
    have hhm : ({ setSlot (flPushed 510) (flPushed 510).tailPage
        (seq2idx (flPushed 510).tailSeq) 520 with
        tailSeq := 511 } : FLState).headSeq =
        ({ setSlot (flPushed 510) (flPushed 510).tailPage
          (seq2idx (flPushed 510).tailSeq) 520 with
          tailSeq := 511 } : FLState).maxSeq := rfl
    unfold flPop
    rw [if_neg (by simpa using hck), if_pos hhm]
  have hfinal : ({ setNext (allocPage { setSlot (flPushed 510)
        (flPushed 510).tailPage (seq2idx (flPushed 510).tailSeq) 520 with
        tailSeq := 511 } 2510) (allocPage { setSlot (flPushed 510)
        (flPushed 510).tailPage (seq2idx (flPushed 510).tailSeq) 520 with
        tailSeq := 511 } 2510).tailPage 2510 with
      tailPage := 2510 } : FLState) = flPushed 511 := by
    refine flstate_ext _ _ ?_ rfl rfl rfl rfl rfl
    intro q
    refine flpage_ext _ _ ?_ ?_
    · simp only [setNext, allocPage, setSlot, flPushed, pageSetPtr,
        flZeroPage, next_ite, seq2idx, flcap_eq]
      split_ifs <;> omega
    · intro j
      simp only [setNext, allocPage, setSlot, flPushed, pageSetPtr,
        flZeroPage, next_ite, slots_ite, seq2idx, flcap_eq]
      split_ifs <;> omega
  have heval : PushTail (flPushed 510) 520 2510 =
      some ({ setNext (allocPage { setSlot (flPushed 510)
        (flPushed 510).tailPage (seq2idx (flPushed 510).tailSeq) 520 with
        tailSeq := 511 } 2510) (allocPage { setSlot (flPushed 510)
        (flPushed 510).tailPage (seq2idx (flPushed 510).tailSeq) 520 with
        tailSeq := 511 } 2510).tailPage 2510 with
      tailPage := 2510 } : FLState) := by
    unfold PushTail
    rw [if_pos (show seq2idx ((setSlot (flPushed 510) (flPushed 510).tailPage
      (seq2idx (flPushed 510).tailSeq) 520).tailSeq + 1) = 0 by
        rw [setSlot_tailSeq]
        show seq2idx 511 = 0
        rw [seq2idx, flcap_eq])]
    rw [show (setSlot (flPushed 510) (flPushed 510).tailPage
      (seq2idx (flPushed 510).tailSeq) 520).tailSeq + 1 = 511 from rfl]
    rw [hflp]
    rfl
  rw [heval, hfinal]

theorem flPushed_slotOfPos (n i : Nat) (hn : n ≤ 1021) (hi : i < n) :
    slotOfPos (flPushed n) i = 10 + i := by
  rw [slotOfPos, flNodes]
  by_cases h511 : 511 ≤ n
  · have hdn : (flPushed n).tailSeq / FLCap - (flPushed n).headSeq / FLCap
        = 1 := by
      show n / FLCap - 0 / FLCap = 1
      rw [flcap_eq]
      omega
    rw [hdn]
    show (((flPushed n).pages ((chainWalk (flPushed n).pages
      (flPushed n).headPage 1).getD (i / FLCap - 0 / FLCap) 0)).slots
      (seq2idx i)) = 10 + i
    have hwalk : chainWalk (flPushed n).pages (flPushed n).headPage 1 =
        [1, 2510] := by
      show (flPushed n).headPage :: chainWalk (flPushed n).pages
        (((flPushed n).pages (flPushed n).headPage).next) 0 = [1, 2510]
      have hnx : ((flPushed n).pages (flPushed n).headPage).next = 2510 := by
        simp only [flPushed, next_ite]
        split_ifs <;> omega
      rw [hnx]
      rfl
    rw [hwalk]
    by_cases hi511 : i < 511
    · have : i / FLCap - 0 / FLCap = 0 := by rw [flcap_eq]; omega
      rw [this]
      simp only [List.getD_cons_zero, flPushed, slots_ite, seq2idx, flcap_eq]
      split_ifs <;> omega
    · have : i / FLCap - 0 / FLCap = 1 := by rw [flcap_eq]; omega
      rw [this]
      show ((flPushed n).pages 2510).slots (seq2idx i) = 10 + i
      simp only [flPushed, slots_ite, seq2idx, flcap_eq]
      split_ifs <;> first | omega | (exfalso; omega) | (exfalso; simp_all)
  · have hdn : (flPushed n).tailSeq / FLCap - (flPushed n).headSeq / FLCap
        = 0 := by
      show n / FLCap - 0 / FLCap = 0
      rw [flcap_eq]
      omega
    rw [hdn]
    have : i / FLCap - 0 / FLCap = 0 := by rw [flcap_eq]; omega
    show (((flPushed n).pages ((chainWalk (flPushed n).pages
      (flPushed n).headPage 0).getD (i / FLCap - 0 / FLCap) 0)).slots
      (seq2idx i)) = 10 + i
    rw [this]
    show ((flPushed n).pages 1).slots (seq2idx i) = 10 + i
    simp only [flPushed, slots_ite, seq2idx, flcap_eq]
    split_ifs <;> omega

theorem flPushed_good (n : Nat) (hn : n ≤ 1021) (x : Nat) (hx1 : x ≠ 0)
    (hx2 : x ≠ 1) (hx3 : 511 ≤ n → x ≠ 2510)
    (hx4 : ∀ i, i < n → x ≠ 10 + i) :
    goodPtr (flPushed n) x := by
  refine ⟨hx1, ?_, ?_⟩
  · rw [flNodes]
    by_cases h511 : 511 ≤ n
    · have hdn : (flPushed n).tailSeq / FLCap - (flPushed n).headSeq / FLCap
          = 1 := by
        show n / FLCap - 0 / FLCap = 1
        rw [flcap_eq]
        omega
      rw [hdn]
      have hnx : ((flPushed n).pages (flPushed n).headPage).next = 2510 := by
        simp only [flPushed, next_ite]
        split_ifs <;> omega
      show x ∉ (flPushed n).headPage :: chainWalk (flPushed n).pages
        (((flPushed n).pages (flPushed n).headPage).next) 0
      rw [hnx]
      show x ∉ [1, 2510]
      simp only [List.mem_cons, List.mem_singleton]
      rintro (rfl | rfl | h)
      · exact hx2 rfl
      · exact hx3 h511 rfl
      · simp at h
    · have hdn : (flPushed n).tailSeq / FLCap - (flPushed n).headSeq / FLCap
          = 0 := by
        show n / FLCap - 0 / FLCap = 0
        rw [flcap_eq]
        omega
      rw [hdn]
      show x ∉ [1]
      simp only [List.mem_singleton]
      exact hx2
  · rw [flPending]
    simp only [List.mem_map, List.mem_range]
    rintro ⟨i, hi, hx⟩
    show False
    have hi2 : i < n := by
      have : (flPushed n).tailSeq - (flPushed n).headSeq = n := rfl
      omega
    rw [show (flPushed n).headSeq + i = i from by show 0 + i = i; omega] at hx
    rw [flPushed_slotOfPos n i hn hi2] at hx
    exact hx4 i hi2 hx.symm

theorem flPushed_reach : ∀ n, n ≤ 1021 → FLReach (flPushed n) := by
  intro n
  induction n with
  | zero =>
    intro _
    exact FLReach.init (flPushed 0).pages 1 (by decide)
  | succ m ih =>
    intro hn
    have hm : m ≤ 1021 := by omega
    by_cases hm510 : m = 510
    · subst hm510
      refine FLReach.push 520 2510 (ih (by omega)) ?_ ?_ (by omega)
        flPushed_crossing
      · exact flPushed_good 510 (by omega) 520 (by omega) (by omega)
          (fun h => absurd h (by omega)) (fun i hi => by omega)
      · exact flPushed_good 510 (by omega) 2510 (by omega) (by omega)
          (fun h => absurd h (by omega)) (fun i hi => by omega)
    · refine FLReach.push (10 + m) (2000 + m) (ih hm) ?_ ?_ (by omega)
        (flPushed_step m (by omega) hm510)
      · exact flPushed_good m hm (10 + m) (by omega) (by omega)
          (fun _ => by omega) (fun i hi => by omega)
      · exact flPushed_good m hm (2000 + m) (by omega) (by omega)
          (fun h => by omega) (fun i hi => by omega)


set_option maxRecDepth 8000 in
theorem flPopped_flPop (k : Nat) (hk : k < 510) :
    flPop (flPopped k) = some (10 + k, 0,
      { flPopped k with headSeq := (flPopped k).headSeq + 1 }) := by
  have hck : flCheck (flPopped k) := by
    refine ⟨⟨?_, ?_⟩, Or.inl ?_⟩
    · show (1 : Nat) ≠ 0
      decide
    · show (2510 : Nat) ≠ 0
      decide
    · show k ≠ 1021
      omega
  have hne : (flPopped k).headSeq ≠ (flPopped k).maxSeq := by
    show k ≠ 1021
    omega
  have hnc : ¬ seq2idx ((flPopped k).headSeq + 1) = 0 := by
    show ¬ seq2idx (k + 1) = 0
    rw [seq2idx, flcap_eq]
    omega
  have hval : ((flPopped k).pages (flPopped k).headPage).slots
      (seq2idx (flPopped k).headSeq) = 10 + k := by
    show ((flPushed 1021).pages 1).slots (seq2idx k) = 10 + k
    simp only [flPushed, slots_ite, seq2idx, flcap_eq]
    split_ifs <;> omega
  unfold flPop
  rw [if_neg (by simpa using hck), if_neg hne]
  simp only [if_neg hnc]
  rw [hval]

theorem flPopped_step (k : Nat) (hk : k < 510) (f : Nat) :
    PopHead (flPopped k) f = some (10 + k, flPopped (k + 1)) := by
  unfold PopHead
  rw [flPopped_flPop k hk]
  rfl

set_option maxRecDepth 8000 in
theorem flPopped_slotOfPos (m q : Nat) (hm : m ≤ 510) (hq : q < 1021) :
    slotOfPos (flPopped m) q = 10 + q := by
  rw [slotOfPos, flNodes]
  have hdn : (flPopped m).tailSeq / FLCap - (flPopped m).headSeq / FLCap
      = 1 := by
    show 1021 / FLCap - m / FLCap = 1
    rw [flcap_eq]
    omega
  rw [hdn]
  have hwalk : chainWalk (flPopped m).pages (flPopped m).headPage 1 =
      [1, 2510] := by
    show (flPopped m).headPage :: chainWalk (flPopped m).pages
      (((flPopped m).pages (flPopped m).headPage).next) 0 = [1, 2510]
    have hnx : ((flPopped m).pages (flPopped m).headPage).next = 2510 := rfl
    rw [hnx]
    rfl
  rw [hwalk]
  by_cases hq511 : q < 511
  · have : q / FLCap - (flPopped m).headSeq / FLCap = 0 := by
      show q / FLCap - m / FLCap = 0
      rw [flcap_eq]
      omega
    rw [this]
    show ((flPushed 1021).pages 1).slots (seq2idx q) = 10 + q
    simp only [flPushed, slots_ite, seq2idx, flcap_eq]
    split_ifs <;> omega
  · have : q / FLCap - (flPopped m).headSeq / FLCap = 1 := by
      show q / FLCap - m / FLCap = 1
      rw [flcap_eq]
      omega
    rw [this]
    show ((flPushed 1021).pages 2510).slots (seq2idx q) = 10 + q
    simp only [flPushed, slots_ite, seq2idx, flcap_eq]
    split_ifs <;> first | omega | (exfalso; simp_all)

theorem flPopped_good (m : Nat) (hm : m ≤ 510) (x : Nat) (hx1 : x ≠ 0)
    (hx2 : x ≠ 1) (hx3 : x ≠ 2510)
    (hx4 : ∀ q, q < 1021 → x ≠ 10 + q) :
    goodPtr (flPopped m) x := by
  refine ⟨hx1, ?_, ?_⟩
  · rw [flNodes]
    have hdn : (flPopped m).tailSeq / FLCap - (flPopped m).headSeq / FLCap
        = 1 := by
      show 1021 / FLCap - m / FLCap = 1
      rw [flcap_eq]
      omega
    rw [hdn]
    show x ∉ (flPopped m).headPage :: chainWalk (flPopped m).pages
      (((flPopped m).pages (flPopped m).headPage).next) 0
    have hnx : ((flPopped m).pages (flPopped m).headPage).next = 2510 := rfl
    rw [hnx]
    show x ∉ [1, 2510]
    simp only [List.mem_cons, List.mem_singleton]
    rintro (rfl | rfl | h)
    · exact hx2 rfl
    · exact hx3 rfl
    · simp at h
  · rw [flPending]
    simp only [List.mem_map, List.mem_range]
    rintro ⟨i, hi, hx⟩
    show False
    have hts : (flPopped m).tailSeq = 1021 := rfl
    have hhs : (flPopped m).headSeq = m := rfl
    rw [hts, hhs] at hi
    rw [hhs] at hx
    rw [flPopped_slotOfPos m (m + i) hm (by omega)] at hx
    exact hx4 (m + i) (by omega) hx.symm

theorem flPopped_reach : ∀ k, k ≤ 510 → FLReach (flPopped k) := by
  intro k
  induction k with
  | zero =>
    intro _
    have h : SetMaxSeq (flPushed 1021) = flPopped 0 := rfl
    exact h ▸ FLReach.smax (flPushed_reach 1021 (le_refl 1021))
  | succ m ih =>
    intro hm
    refine FLReach.pop (5000 + m) (ih (by omega)) ?_
      (flPopped_step m (by omega) (5000 + m))
    exact flPopped_good m (by omega) (5000 + m) (by omega) (by omega)
      (by omega) (fun q hq => by omega)

set_option maxRecDepth 40000 in
/-- C7 counterexample: a reachable free-list state (1021 pushes from the
    initial state, SetMaxSeq, then 510 pops) on which PopHead succeeds with
    a nonzero pointer but advances head_seq by two, not one: the pop
    empties the head node, and requeueing that node fills the tail node,
    whose overflow handling pops one more position as the recycled next
    tail page. -/
theorem c7_counterexample :
    FLReach (flPopped 510) ∧ goodPtr (flPopped 510) 7777 ∧
    (flPopped 510).headSeq = 510 ∧ (flPopped 510).maxSeq = 1021 ∧
    (flPopped 510).headSeq ≠ (flPopped 510).maxSeq ∧
    ∃ s1, PopHead (flPopped 510) 7777 = some (520, s1) ∧
      s1.headSeq = (flPopped 510).headSeq + 2 := by
  refine ⟨flPopped_reach 510 (by omega), ?_, rfl, rfl, by decide,
    ⟨_, rfl, rfl⟩⟩
  exact flPopped_good 510 (by omega) 7777 (by omega) (by omega) (by omega)
    (fun q hq => by omega)

end RDB
